import Mathlib

/-!
# A shallow embedding of the cellular ecosystem simulation (`src/main.cpp`)

The development models the update engine of the program:

* `Cell`, `get_cell_combination`, `random_cell` are the free functions of the source;
* `RandomHelper` is the class of the same name.  Its engine is modelled as an
  arbitrary infinite sequence of outcomes, one outcome being consumed by every
  call of a drawing method.  "For every outcome of the draws" is therefore
  quantification over `RandomHelper`;
* `Field` is the class of the same name: the grid `cells` and the field's own
  `random_helper`.  The function-local static helper of `random_cell` is a
  second, separate `RandomHelper` that is threaded through explicitly.

Conventions.

* The `double` values of `RandomHelper` (draws and probabilities) are modelled
  by rationals; the only operations performed on them are the comparison in
  `chance` and the affine map in `random_double`.
* The `double` arithmetic of `Clock` is binary64: every operation rounds its
  exact result to the nearest number with a 53-bit significand, halfway cases to
  even, with subnormal numbers and overflow to infinity (`Double`).
* `int` values are modelled by `Int`.  Every index the code computes is a
  position of the grid plus an offset in `{-1, 0, 1}`, and grid dimensions are
  `int`s handed to the constructor, so no computation wraps around.  A negative
  `int` converted to `size_t` is larger than any vector size, hence the checked
  accessor `vector::at` rejects it; `vec_at` does the same.
* `uniform_int_distribution(min, max)` is modelled by reducing the `raw` part of
  the consumed outcome into `[min, max]`; every value of the range is attained
  by some outcome (`random_int_attains`), and none outside it.
* `Clock` is the class of the same name; the readings of the wall clock are
  inputs of `Clock.tick`, and the 32-bit argument `usleep` receives is part of
  its result.
* Faults are explicit: every operation that can throw, or that the language
  leaves undefined, returns `Except Fault`.
* The two counting loops of `process_all_cells` re-evaluate their guard on the
  current state in every iteration, as in the source; they recurse on a fuel
  argument that is fixed at loop entry, and exhausting the fuel is a `Fault`.
-/

namespace Ecosystem

/-! ## Constants -/

/-- Maximum frames per second. -/
def FPS_LIMIT : Int := 60

/-- Field width. -/
def WIDTH : Int := 100

/-- Field height. -/
def HEIGHT : Int := 30

/-- Probability of eating a cell: the `double` nearest to `0.1`. -/
def EAT_RATE : ℚ := 3602879701896397 / 36028797018963968

/-- Probability of spawning a random cell: `0.5`. -/
def SPAWN_RATE : ℚ := 1 / 2

/-! ## Cells -/

/-- The six cell kinds of `enum class Cell`. -/
inductive Cell where
  | dead
  | food
  | plant
  | virus
  | water
  | fungus
deriving DecidableEq

/-- The ways in which the modelled code can fail. -/
inductive Fault where
  /-- Thrown by `std::vector::at` (`std::out_of_range`). -/
  | out_of_range
  /-- Thrown by the `default` branch of `random_cell` (`std::logic_error`). -/
  | logic_error
  /-- Thrown by the vector constructor for a negative size (`std::length_error`). -/
  | length_error
  /-- An unchecked access outside a vector, or a distribution with `min > max`. -/
  | undefined_behaviour
  /-- A loop of the model ran out of fuel. -/
  | fuel_exhausted
deriving DecidableEq

/-! ## RandomHelper -/

/-- One outcome of the random engine: `real` is what a uniform real
distribution over `[0, 1)` makes of it, `raw` is what a uniform integer
distribution reduces into its range. -/
structure Draw where
  real : ℚ
  raw : Nat

/-- The class `RandomHelper`: the sequence of outcomes of its engine and the
number of outcomes consumed so far. -/
structure RandomHelper where
  random_engine : Nat → Draw
  calls : Nat

namespace RandomHelper

/-- The outcome the next drawing call will consume. -/
def next (rh : RandomHelper) : Draw := rh.random_engine rh.calls

/-- The helper after one drawing call. -/
def advance (rh : RandomHelper) : RandomHelper := ⟨rh.random_engine, rh.calls + 1⟩

/-- Models `RandomHelper::random_double`: `uniform_real_distribution(min, max)`. -/
def random_double (rh : RandomHelper) (min max : ℚ) : ℚ × RandomHelper :=
  (min + (max - min) * rh.next.real, rh.advance)

/-- Models `RandomHelper::chance`: `random_double(0.0, 1.0) < probability`. -/
def chance (rh : RandomHelper) (probability : ℚ) : Bool × RandomHelper :=
  let d := rh.random_double 0 1
  (decide (d.1 < probability), d.2)

/-- Models `RandomHelper::random_int`: `uniform_int_distribution(min, max)`, whose
result lies in `[min, max]`; the distribution requires `min ≤ max`. -/
def random_int (rh : RandomHelper) (min max : Int) : Except Fault (Int × RandomHelper) :=
  if min ≤ max then
    .ok (min + ((rh.next.raw % (max - min + 1).toNat : Nat) : Int), rh.advance)
  else
    .error .undefined_behaviour

end RandomHelper

/-! ## The combination rule -/

/-- Models `get_cell_combination`: the chained conditional of the source. -/
def get_cell_combination (eater eaten : Cell) : Cell :=
  if eater = .plant ∧ eaten = .food then .food
  else if eater = .virus ∧ eaten = .food then .virus
  else if eater = .virus ∧ eaten = .plant then .virus
  else if eater = .water ∧ eaten = .virus then .water
  else if eater = .plant ∧ eaten = .water then .plant
  else if eater = .water ∧ eaten = .food then .fungus
  else if eater = .fungus ∧ eaten = .fungus then .fungus
  else if eater = .plant ∧ eaten = .fungus then .plant
  else if eater = .fungus ∧ eaten = .plant then .food
  else eaten

/-- The `switch` of `random_cell` on the drawn option. -/
def random_cell_switch (option : Int) : Except Fault Cell :=
  if option = 1 then .ok .plant
  else if option = 2 then .ok .virus
  else if option = 3 then .ok .food
  else if option = 4 then .ok .water
  else if option = 5 then .ok .fungus
  else .error .logic_error

/-- Models `random_cell`; `g` is the function-local static `RandomHelper`. -/
def random_cell (g : RandomHelper) : Except Fault (Cell × RandomHelper) :=
  match g.random_int 1 5 with
  | .error e => .error e
  | .ok (option, g1) =>
    match random_cell_switch option with
    | .error e => .error e
    | .ok c => .ok (c, g1)

/-! ## Vectors -/

/-- Models `std::vector::at`: the checked accessor. -/
def vec_at {α : Type} (v : List α) (i : Int) : Except Fault α :=
  if 0 ≤ i then
    match v[i.toNat]? with
    | some x => .ok x
    | none => .error .out_of_range
  else .error .out_of_range

/-- Models `std::vector::operator[]` used for reading: the unchecked accessor. -/
def vec_index {α : Type} (v : List α) (i : Int) : Except Fault α :=
  if 0 ≤ i then
    match v[i.toNat]? with
    | some x => .ok x
    | none => .error .undefined_behaviour
  else .error .undefined_behaviour

/-- Models the assignment `cells[row][col] = value` through the unchecked accessor. -/
def vec_assign (cells : List (List Cell)) (row col : Int) (value : Cell) :
    Except Fault (List (List Cell)) :=
  match vec_index cells row with
  | .error e => .error e
  | .ok r =>
    match vec_index r col with
    | .error e => .error e
    | .ok _ => .ok (cells.set row.toNat (r.set col.toNat value))

/-! ## Field -/

/-- The class `Field`. -/
structure Field where
  cells : List (List Cell)
  random_helper : RandomHelper

/-- The offsets of `process_cell`, as `(offset_row, offset_col)`, in source order. -/
def offsets : List (Int × Int) := [(-1, 0), (0, -1), (1, 0), (0, 1)]

namespace Field

/-- Models the constructor `Field(height, width)`: `height` rows of `width` dead
cells.  `rh` is the freshly seeded helper. -/
def new (height width : Int) (rh : RandomHelper) : Except Fault Field :=
  if 0 ≤ width ∧ 0 ≤ height then
    .ok ⟨List.replicate height.toNat (List.replicate width.toNat Cell.dead), rh⟩
  else .error .length_error

/-- The probe `cells.at(row).at(col)` of `process_cell`. -/
def probe (f : Field) (row col : Int) : Except Fault Cell :=
  match vec_at f.cells row with
  | .error e => .error e
  | .ok r => vec_at r col

/-- The body of the loop of `process_cell` for one offset. -/
def process_offset (eat_rate : ℚ) (row col : Int) (f : Field) (off : Int × Int) :
    Except Fault Field :=
  match f.probe (row + off.1) (col + off.2) with
  | .error .out_of_range => .ok f
  | .error e => .error e
  | .ok _ =>
    let ch := f.random_helper.chance eat_rate
    if ch.1 then
      match vec_index f.cells row with
      | .error e => .error e
      | .ok eater_row =>
        match vec_index eater_row col with
        | .error e => .error e
        | .ok eater =>
          match vec_index f.cells (row + off.1) with
          | .error e => .error e
          | .ok eaten_row =>
            match vec_index eaten_row (col + off.2) with
            | .error e => .error e
            | .ok eaten =>
              match vec_assign f.cells (row + off.1) (col + off.2)
                  (get_cell_combination eater eaten) with
              | .error e => .error e
              | .ok cells1 => .ok ⟨cells1, ch.2⟩
    else .ok ⟨f.cells, ch.2⟩

/-- The loop of `process_cell` over a list of offsets. -/
def process_offsets (eat_rate : ℚ) (row col : Int) : List (Int × Int) → Field → Except Fault Field
  | [], f => .ok f
  | off :: rest, f =>
    match process_offset eat_rate row col f off with
    | .error e => .error e
    | .ok f1 => process_offsets eat_rate row col rest f1

/-- Models `Field::process_cell`, with the eat probability as a parameter. -/
def process_cell (eat_rate : ℚ) (row col : Int) (f : Field) : Except Fault Field :=
  process_offsets eat_rate row col offsets f

/-- The inner loop of `process_all_cells`:
`for (col; col < cells[row].size(); ++col) process_cell(row, col)`. -/
def col_loop (eat_rate : ℚ) (row : Int) : Nat → Int → Field → Except Fault Field
  | 0, _, _ => .error .fuel_exhausted
  | fuel + 1, col, f =>
    match vec_index f.cells row with
    | .error e => .error e
    | .ok r =>
      if col < (r.length : Int) then
        match process_cell eat_rate row col f with
        | .error e => .error e
        | .ok f1 => col_loop eat_rate row fuel (col + 1) f1
      else .ok f

/-- The fuel given to the inner loop: one more than the length of the row. -/
def col_fuel (f : Field) (row : Int) : Nat :=
  match vec_index f.cells row with
  | .error _ => 1
  | .ok r => r.length + 1

/-- The outer loop of `process_all_cells`:
`for (row; row < cells.size(); ++row) { inner loop }`. -/
def row_loop (eat_rate : ℚ) : Nat → Int → Field → Except Fault Field
  | 0, _, _ => .error .fuel_exhausted
  | fuel + 1, row, f =>
    if row < (f.cells.length : Int) then
      match col_loop eat_rate row (col_fuel f row) 0 f with
      | .error e => .error e
      | .ok f1 => row_loop eat_rate fuel (row + 1) f1
    else .ok f

/-- The sweep part of `process_all_cells`: the two nested loops. -/
def sweep (eat_rate : ℚ) (f : Field) : Except Fault Field :=
  row_loop eat_rate (f.cells.length + 1) 0 f

/-- Models `Field::spawn_random_cell`; `g` is the static helper of `random_cell`. -/
def spawn_random_cell (f : Field) (g : RandomHelper) : Except Fault (Field × RandomHelper) :=
  let height : Int := f.cells.length
  match vec_index f.cells 0 with
  | .error e => .error e
  | .ok row0 =>
    let width : Int := row0.length
    match f.random_helper.random_int 0 (height - 1) with
    | .error e => .error e
    | .ok (row, rh1) =>
      match rh1.random_int 0 (width - 1) with
      | .error e => .error e
      | .ok (col, rh2) =>
        match random_cell g with
        | .error e => .error e
        | .ok (c, g1) =>
          match vec_assign f.cells row col c with
          | .error e => .error e
          | .ok cells1 => .ok (⟨cells1, rh2⟩, g1)

/-- Models `Field::process_all_cells`, with both probabilities as parameters. -/
def process_all_cells (eat_rate spawn_rate : ℚ) (f : Field) (g : RandomHelper) :
    Except Fault (Field × RandomHelper) :=
  match sweep eat_rate f with
  | .error e => .error e
  | .ok f1 =>
    let ch := f1.random_helper.chance spawn_rate
    if ch.1 then spawn_random_cell ⟨f1.cells, ch.2⟩ g
    else .ok (⟨f1.cells, ch.2⟩, g)

end Field

/-! ## Initial field and the epoch loop -/

/-- The inner range-for of `generate_random_field`: `cell = random_cell()` for each cell. -/
def fill_row : List Cell → RandomHelper → Except Fault (List Cell × RandomHelper)
  | [], g => .ok ([], g)
  | _ :: rest, g =>
    match random_cell g with
    | .error e => .error e
    | .ok (c, g1) =>
      match fill_row rest g1 with
      | .error e => .error e
      | .ok (rest1, g2) => .ok (c :: rest1, g2)

/-- The outer range-for of `generate_random_field`. -/
def fill_rows : List (List Cell) → RandomHelper → Except Fault (List (List Cell) × RandomHelper)
  | [], g => .ok ([], g)
  | r :: rest, g =>
    match fill_row r g with
    | .error e => .error e
    | .ok (r1, g1) =>
      match fill_rows rest g1 with
      | .error e => .error e
      | .ok (rest1, g2) => .ok (r1 :: rest1, g2)

/-- Models `generate_random_field`. -/
def generate_random_field (height width : Int) (rh g : RandomHelper) :
    Except Fault (Field × RandomHelper) :=
  match Field.new height width rh with
  | .error e => .error e
  | .ok f =>
    match fill_rows f.cells g with
    | .error e => .error e
    | .ok (cells1, g1) => .ok (⟨cells1, f.random_helper⟩, g1)

/-- The given number of epochs: `process_all_cells` applied repeatedly, as in
the loop of `main`. -/
def run_epochs (eat_rate spawn_rate : ℚ) :
    Nat → Field × RandomHelper → Except Fault (Field × RandomHelper)
  | 0, s => .ok s
  | n + 1, s =>
    match Field.process_all_cells eat_rate spawn_rate s.1 s.2 with
    | .error e => .error e
    | .ok s1 => run_epochs eat_rate spawn_rate n s1

/-! ## Binary64 arithmetic -/

/-- A value of type `double`: a finite number (zero carries no sign), an infinity
or a NaN.  The finite numbers the operations below produce are binary64 values. -/
inductive Double where
  | finite (q : ℚ)
  | pos_inf
  | neg_inf
  | nan

/-- Rounds to the nearest integer, halfway cases to the even one. -/
def round_half_even (y : ℚ) : Int :=
  if y - ⌊y⌋ < 1 / 2 then ⌊y⌋
  else if 1 / 2 < y - ⌊y⌋ then ⌊y⌋ + 1
  else if ⌊y⌋ % 2 = 0 then ⌊y⌋
  else ⌊y⌋ + 1

/-- The number of binary digits of `n`; the first argument bounds the recursion and
`n` itself is enough. -/
def bit_length : Nat → Nat → Nat
  | 0, _ => 0
  | fuel + 1, n => if n = 0 then 0 else bit_length fuel (n / 2) + 1

/-- The integer `k` with `2^k ≤ |x| < 2^(k+1)`, for `x ≠ 0`: the bit lengths of
numerator and denominator give it up to one. -/
def ilog2 (x : ℚ) : Int :=
  if (2 : ℚ) ^ ((bit_length x.num.natAbs x.num.natAbs : Int) - (bit_length x.den x.den : Int))
      ≤ |x| then
    (bit_length x.num.natAbs x.num.natAbs : Int) - (bit_length x.den x.den : Int)
  else (bit_length x.num.natAbs x.num.natAbs : Int) - (bit_length x.den x.den : Int) - 1

/-- The exponent of the unit in the last place of the binary64 format at `x`: 53
significant bits, and the exponent of the subnormal numbers at the bottom. -/
def binary64_exponent (x : ℚ) : Int :=
  max (ilog2 x - 52) (-1074)

/-- Rounds a rational to the nearest number with a 53-bit significand (and
exponent at least that of the subnormals), halfway cases to even: the finite result
of a binary64 operation before the overflow check. -/
def round_binary64 (x : ℚ) : ℚ :=
  (round_half_even (x / (2 : ℚ) ^ binary64_exponent x) : ℚ) * (2 : ℚ) ^ binary64_exponent x

namespace Double

/-- The `double` an exact result is rounded to: an infinity when the rounded
magnitude reaches `2^1024`. -/
def of_rat (x : ℚ) : Double :=
  if (2 : ℚ) ^ (1024 : Nat) ≤ |round_binary64 x| then
    (if 0 < x then pos_inf else neg_inf)
  else finite (round_binary64 x)

/-- The conversion of an `int` to `double`. -/
def of_int (i : Int) : Double := of_rat (i : ℚ)

/-- Binary64 subtraction. -/
def sub : Double → Double → Double
  | finite a, finite b => of_rat (a - b)
  | nan, _ => nan
  | _, nan => nan
  | pos_inf, pos_inf => nan
  | neg_inf, neg_inf => nan
  | pos_inf, _ => pos_inf
  | neg_inf, _ => neg_inf
  | finite _, pos_inf => neg_inf
  | finite _, neg_inf => pos_inf

/-- Binary64 multiplication. -/
def mul : Double → Double → Double
  | finite a, finite b => of_rat (a * b)
  | nan, _ => nan
  | _, nan => nan
  | pos_inf, finite b => if b = 0 then nan else if 0 < b then pos_inf else neg_inf
  | neg_inf, finite b => if b = 0 then nan else if 0 < b then neg_inf else pos_inf
  | finite a, pos_inf => if a = 0 then nan else if 0 < a then pos_inf else neg_inf
  | finite a, neg_inf => if a = 0 then nan else if 0 < a then neg_inf else pos_inf
  | pos_inf, pos_inf => pos_inf
  | neg_inf, neg_inf => pos_inf
  | pos_inf, neg_inf => neg_inf
  | neg_inf, pos_inf => neg_inf

/-- Binary64 division; a zero divisor is the positive zero. -/
def div : Double → Double → Double
  | finite a, finite b =>
    if b = 0 then (if a = 0 then nan else if 0 < a then pos_inf else neg_inf)
    else of_rat (a / b)
  | nan, _ => nan
  | _, nan => nan
  | finite _, pos_inf => finite 0
  | finite _, neg_inf => finite 0
  | pos_inf, finite b => if 0 ≤ b then pos_inf else neg_inf
  | neg_inf, finite b => if 0 ≤ b then neg_inf else pos_inf
  | pos_inf, pos_inf => nan
  | pos_inf, neg_inf => nan
  | neg_inf, pos_inf => nan
  | neg_inf, neg_inf => nan

/-- The comparison `x > 0.0`. -/
def is_positive : Double → Bool
  | finite q => decide (0 < q)
  | pos_inf => true
  | neg_inf => false
  | nan => false

/-- Models `std::round`: the nearest integer, halfway cases away from zero. -/
def std_round : Double → Double
  | finite q => finite (if 0 ≤ q then (⌊q + 1 / 2⌋ : Int) else (-⌊-q + 1 / 2⌋ : Int))
  | pos_inf => pos_inf
  | neg_inf => neg_inf
  | nan => nan

/-- The conversion of a `double` to the 32-bit `useconds_t` of `usleep`, as the
x86-64 build performs it: the value is truncated to a 64-bit integer, of which the
low 32 bits are kept; a value that does not fit 64 bits, an infinity or a NaN gives
`0`.  (The language leaves the conversion of a value outside `[0, 2^32)` undefined.) -/
def to_useconds : Double → Nat
  | finite q =>
    let t : Int := if 0 ≤ q then ⌊q⌋ else -⌊-q⌋
    if -(2 : Int) ^ (63 : Nat) ≤ t ∧ t < (2 : Int) ^ (63 : Nat) then
      (t % (2 : Int) ^ (32 : Nat)).toNat
    else 0
  | pos_inf => 0
  | neg_inf => 0
  | nan => 0

end Double

/-! ## Clock -/

/-- The class `Clock`.  The member `frame_interval` is `const` and initialised from
`max_fps`; it is the function `Clock.frame_interval` below. -/
structure Clock where
  max_fps : Int
  last_time : ℚ

namespace Clock

/-- Models the constructor `Clock(max_fps)`: `last_time` starts at `0.0`. -/
def new (max_fps : Int) : Clock := ⟨max_fps, 0⟩

/-- The member `frame_interval`: the binary64 quotient `1.0 / max_fps`. -/
def frame_interval (c : Clock) : Double :=
  Double.div (.finite 1) (Double.of_int c.max_fps)

/-- Models `Clock::tick` in binary64.  `now` and `after` are the two readings of
`high_precision_time()` (finite `double`s), the first on entry and the second
after the optional sleep.  The first component of the result is the argument
`usleep` receives, in microseconds, when `usleep` is called. -/
def tick (c : Clock) (now after : ℚ) : Option Nat × Clock :=
  let time_to_sleep :=
    Double.sub c.frame_interval (Double.sub (.finite now) (.finite c.last_time))
  let slept : Option Nat :=
    if time_to_sleep.is_positive then
      some (Double.to_useconds
        (Double.std_round (Double.mul time_to_sleep (.finite 1000000))))
    else none
  (slept, ⟨c.max_fps, after⟩)

end Clock

/-! ## Notions used to state the properties -/

/-- A grid with `h` rows, each of `w` cells. -/
def Rect (h w : Nat) (cells : List (List Cell)) : Prop :=
  cells.length = h ∧ ∀ r ∈ cells, r.length = w

instance (h w : Nat) (cells : List (List Cell)) : Decidable (Rect h w cells) := by
  unfold Rect; infer_instance

/-- The position `(row, col)` lies in `[0, h) × [0, w)`. -/
def InBounds (h w : Nat) (row col : Int) : Prop :=
  0 ≤ row ∧ row < (h : Int) ∧ 0 ≤ col ∧ col < (w : Int)

instance (h w : Nat) (row col : Int) : Decidable (InBounds h w row col) := by
  unfold InBounds; infer_instance

/-- The content of the grid at `(row, col)`, if that position exists. -/
def cell_at (cells : List (List Cell)) (row col : Int) : Option Cell :=
  if 0 ≤ row ∧ 0 ≤ col then
    match cells[row.toNat]? with
    | some r => r[col.toNat]?
    | none => none
  else none

/-- The grid with the cell at `(row, col)` replaced, when that position exists. -/
def grid_write (cells : List (List Cell)) (row col : Int) (value : Cell) : List (List Cell) :=
  match cells[row.toNat]? with
  | some r => cells.set row.toNat (r.set col.toNat value)
  | none => cells

/-- What one iteration of the loop of `process_cell` does to a field with `h`
rows and `w` columns. -/
def offset_step (h w : Nat) (eat_rate : ℚ) (row col : Int) (f : Field) (off : Int × Int) : Field :=
  if InBounds h w (row + off.1) (col + off.2) then
    if f.random_helper.next.real < eat_rate then
      ⟨grid_write f.cells (row + off.1) (col + off.2)
        (get_cell_combination ((cell_at f.cells row col).getD .dead)
          ((cell_at f.cells (row + off.1) (col + off.2)).getD .dead)),
        f.random_helper.advance⟩
    else ⟨f.cells, f.random_helper.advance⟩
  else f

/-- What `process_cell` does to a field with `h` rows and `w` columns. -/
def cell_step (h w : Nat) (eat_rate : ℚ) (row col : Int) (f : Field) : Field :=
  offsets.foldl (offset_step h w eat_rate row col) f

/-- The positions of row `row` of a grid with `w` columns, left to right. -/
def row_positions (w : Nat) (row : Nat) : List (Int × Int) :=
  (List.range w).map (fun (col : Nat) => ((row : Int), (col : Int)))

/-- The positions of a grid with `h` rows and `w` columns in row-major order:
`(0,0), (0,1), …, (0,w-1), (1,0), …, (h-1,w-1)`. -/
def row_major (h w : Nat) : List (Int × Int) :=
  ((List.range h).map (row_positions w)).flatten

/-- The left fold of `process_cell` over a list of positions, threading the field
(grid and draw stream) through the calls. -/
def fold_process_cell (eat_rate : ℚ) (positions : List (Int × Int)) (f : Field) :
    Except Fault Field :=
  positions.foldlM (fun f1 p => f1.process_cell eat_rate p.1 p.2) f

/-- The pure counterpart of `fold_process_cell` on a grid of known dimensions. -/
def cells_step (h w : Nat) (eat_rate : ℚ) (positions : List (Int × Int)) (f : Field) : Field :=
  positions.foldl (fun f1 p => cell_step h w eat_rate p.1 p.2 f1) f

/-- The cell at `(nrow, ncol)` is an orthogonal neighbour of `(row, col)`. -/
def IsNeighbour (row col nrow ncol : Int) : Prop :=
  (nrow = row - 1 ∧ ncol = col) ∨ (nrow = row ∧ ncol = col + 1) ∨
    (nrow = row + 1 ∧ ncol = col) ∨ (nrow = row ∧ ncol = col - 1)

instance (row col nrow ncol : Int) : Decidable (IsNeighbour row col nrow ncol) := by
  unfold IsNeighbour; infer_instance

/-- No cell of the grid is `dead`. -/
def NoDead (cells : List (List Cell)) : Prop := ∀ r ∈ cells, Cell.dead ∉ r

instance (cells : List (List Cell)) : Decidable (NoDead cells) := by
  unfold NoDead; infer_instance

/-- The cell kind `random_cell` returns on the next draw of the static helper `g`. -/
def drawn_cell (g : RandomHelper) : Cell :=
  match random_cell g with
  | .ok (c, _) => c
  | .error _ => .dead

/-- A helper whose engine yields the same outcome forever. -/
def constant_helper (d : Draw) : RandomHelper := ⟨fun _ => d, 0⟩

/-- The field after the sweep of `process_all_cells`, for a grid with `h` rows and
`w` columns. -/
def swept (h w : Nat) (eat_rate : ℚ) (f : Field) : Field :=
  cells_step h w eat_rate (row_major h w) f

/-- On a 1×1 field: the cell kind written by the latest spawn among the first `n`
epochs, if any of them spawned.  An epoch consumes one draw of the field's helper
`rh` (the spawn draw) and, when it spawns, two more (row and column) and one draw
of the static helper `g` (the cell kind). -/
def latest_spawn (spawn_rate : ℚ) : Nat → RandomHelper → RandomHelper → Option Cell
  | 0, _, _ => none
  | n + 1, rh, g =>
    if rh.next.real < spawn_rate then
      match latest_spawn spawn_rate n rh.advance.advance.advance g.advance with
      | some v => some v
      | none => some (drawn_cell g)
    else latest_spawn spawn_rate n rh.advance g

/-- The nine rules of the combination table: `((eater, eaten), result)`. -/
def combination_rules : List ((Cell × Cell) × Cell) :=
  [((.plant, .food), .food), ((.virus, .food), .virus), ((.virus, .plant), .virus),
   ((.water, .virus), .water), ((.plant, .water), .plant), ((.water, .food), .fungus),
   ((.fungus, .fungus), .fungus), ((.plant, .fungus), .plant), ((.fungus, .plant), .food)]

/-- The first rule of `rules` whose key is `(eater, eaten)` decides; `eaten` is the default. -/
def lookup_rules (rules : List ((Cell × Cell) × Cell)) (eater eaten : Cell) : Cell :=
  match rules.find? (fun r => decide (r.1 = (eater, eaten))) with
  | some r => r.2
  | none => eaten

/-- The lexicographic order on positions: row first, then column. -/
def RowMajorLt (p q : Int × Int) : Prop := p.1 < q.1 ∨ (p.1 = q.1 ∧ p.2 < q.2)

/-- The grid of a returned field, if a field was returned. -/
def field_cells (r : Except Fault Field) : Option (List (List Cell)) :=
  match r with
  | .ok f => some f.cells
  | .error _ => none

/-- The grid after a returned epoch, if the epoch returned. -/
def epoch_cells (r : Except Fault (Field × RandomHelper)) : Option (List (List Cell)) :=
  match r with
  | .ok s => some s.1.cells
  | .error _ => none

/-- The body of the loop of `process_cell` for one offset, changed in one place: the
eater is read from `snapshot`, the grid as it was before the sweep, instead of
from the grid being updated. -/
def snapshot_process_offset (snapshot : List (List Cell)) (eat_rate : ℚ) (row col : Int)
    (f : Field) (off : Int × Int) : Except Fault Field :=
  match f.probe (row + off.1) (col + off.2) with
  | .error .out_of_range => .ok f
  | .error e => .error e
  | .ok _ =>
    let ch := f.random_helper.chance eat_rate
    if ch.1 then
      match vec_index snapshot row with
      | .error e => .error e
      | .ok eater_row =>
        match vec_index eater_row col with
        | .error e => .error e
        | .ok eater =>
          match vec_index f.cells (row + off.1) with
          | .error e => .error e
          | .ok eaten_row =>
            match vec_index eaten_row (col + off.2) with
            | .error e => .error e
            | .ok eaten =>
              match vec_assign f.cells (row + off.1) (col + off.2)
                  (get_cell_combination eater eaten) with
              | .error e => .error e
              | .ok cells1 => .ok ⟨cells1, ch.2⟩
    else .ok ⟨f.cells, ch.2⟩

/-- The snapshot variant of `process_cell`: the same offsets in the same order. -/
def snapshot_process_cell (snapshot : List (List Cell)) (eat_rate : ℚ) (row col : Int)
    (f : Field) : Except Fault Field :=
  offsets.foldlM (snapshot_process_offset snapshot eat_rate row col) f

/-- The snapshot sweep: the fold of `snapshot_process_cell` over the positions, every
eater being read from the grid as it was before the sweep. -/
def snapshot_sweep (eat_rate : ℚ) (positions : List (Int × Int)) (f : Field) :
    Except Fault Field :=
  positions.foldlM (fun f1 p => snapshot_process_cell f.cells eat_rate p.1 p.2 f1) f

/-- A helper whose first `k` outcomes have `real = lo` and whose later outcomes
have `real = hi`; all `raw` are `0`. -/
def step_helper (k : Nat) (lo hi : ℚ) : RandomHelper :=
  ⟨fun i => if i < k then ⟨lo, 0⟩ else ⟨hi, 0⟩, 0⟩

/-- Every cell of the grid holds the kind `c`. -/
def Uniform (c : Cell) (cells : List (List Cell)) : Prop := ∀ r ∈ cells, ∀ x ∈ r, x = c

instance (c : Cell) (cells : List (List Cell)) : Decidable (Uniform c cells) := by
  unfold Uniform; infer_instance

/-- The offsets in the order north, east, south, west. -/
def offsets_nesw : List (Int × Int) := [(-1, 0), (0, 1), (1, 0), (0, -1)]

/-- The in-bounds neighbours of `(row, col)` in a grid with `h` rows and `w` columns,
in the order in which the list `offs` of offsets names them. -/
def neighbours_in_order (h w : Nat) (offs : List (Int × Int)) (row col : Int) :
    List (Int × Int) :=
  (offs.map (fun off => (row + off.1, col + off.2))).filter
    (fun p => decide (InBounds h w p.1 p.2))

/-- The number of eat draws of the calls `process_cell(p)` for the positions `p` of a
list: one for every in-bounds neighbour. -/
def eat_draws (h w : Nat) (positions : List (Int × Int)) : Nat :=
  (positions.map (fun p => (neighbours_in_order h w offsets p.1 p.2).length)).sum

/-- The sleep a call of `tick` requests, in seconds: the argument of `usleep` over
`10^6`, and zero when `usleep` is not called. -/
def requested_seconds (request : Option Nat) : ℚ :=
  match request with
  | some us => (us : ℚ) / 1000000
  | none => 0

/-! ## Auxiliary facts -/

theorem vec_at_ok {α : Type} (v : List α) (i : Int) (h0 : 0 ≤ i) (h1 : i < (v.length : Int)) :
    ∃ x, v[i.toNat]? = some x ∧ vec_at v i = .ok x ∧ vec_index v i = .ok x := by
  have hlt : i.toNat < v.length := by omega
  refine ⟨v[i.toNat], List.getElem?_eq_getElem hlt, ?_, ?_⟩
  · simp [vec_at, h0, List.getElem?_eq_getElem hlt]
  · simp [vec_index, h0, List.getElem?_eq_getElem hlt]

theorem vec_at_out {α : Type} (v : List α) (i : Int) (h : ¬ (0 ≤ i ∧ i < (v.length : Int))) :
    vec_at v i = .error .out_of_range := by
  unfold vec_at
  split
  · next h0 =>
    have : v.length ≤ i.toNat := by omega
    simp [List.getElem?_eq_none this]
  · rfl

theorem rect_row {h w : Nat} {cells : List (List Cell)} (hr : Rect h w cells) (i : Int)
    (h0 : 0 ≤ i) (h1 : i < (h : Int)) :
    ∃ r, cells[i.toNat]? = some r ∧ r.length = w ∧ vec_at cells i = .ok r ∧
      vec_index cells i = .ok r := by
  obtain ⟨hl, hw⟩ := hr
  obtain ⟨r, hr1, hr2, hr3⟩ := vec_at_ok cells i h0 (by omega)
  exact ⟨r, hr1, hw r (List.getElem?_mem hr1), hr2, hr3⟩

theorem probe_in {h w : Nat} {f : Field} (hr : Rect h w f.cells) {row col : Int}
    (hin : InBounds h w row col) :
    ∃ x, cell_at f.cells row col = some x ∧ f.probe row col = .ok x ∧
      ∃ r, vec_index f.cells row = .ok r ∧ vec_index r col = .ok x := by
  obtain ⟨h0, h1, h2, h3⟩ := hin
  obtain ⟨r, hr1, hr2, hr3, hr4⟩ := rect_row hr row h0 h1
  obtain ⟨x, hx1, hx2, hx3⟩ := vec_at_ok r col h2 (by omega)
  refine ⟨x, ?_, ?_, r, hr4, hx3⟩
  · simp [cell_at, h0, h2, hr1, hx1]
  · simp [Field.probe, hr3, hx2]

theorem probe_out {h w : Nat} {f : Field} (hr : Rect h w f.cells) {row col : Int}
    (hout : ¬ InBounds h w row col) : f.probe row col = .error .out_of_range := by
  by_cases hrow : 0 ≤ row ∧ row < (h : Int)
  · obtain ⟨r, -, hr2, hr3, -⟩ := rect_row hr row hrow.1 hrow.2
    have hc : ¬ (0 ≤ col ∧ col < (r.length : Int)) := by
      intro hc
      exact hout ⟨hrow.1, hrow.2, hc.1, by omega⟩
    simp [Field.probe, hr3, vec_at_out r col hc]
  · have : ¬ (0 ≤ row ∧ row < (f.cells.length : Int)) := by rw [hr.1]; exact hrow
    simp [Field.probe, vec_at_out f.cells row this]

theorem cell_at_none {h w : Nat} {cells : List (List Cell)} (hr : Rect h w cells) {row col : Int}
    (hout : ¬ InBounds h w row col) : cell_at cells row col = none := by
  unfold cell_at
  split
  · next h0 =>
    split
    · next r hr1 =>
      have hlen : r.length = w := hr.2 r (List.getElem?_mem hr1)
      have hlt : row.toNat < cells.length := by
        by_contra hge
        rw [List.getElem?_eq_none (by omega)] at hr1
        cases hr1
      apply List.getElem?_eq_none
      have hl := hr.1
      by_contra hcon
      apply hout
      refine ⟨h0.1, by omega, h0.2, by omega⟩
    · rfl
  · rfl

theorem vec_assign_ok {h w : Nat} {cells : List (List Cell)} (hr : Rect h w cells) {row col : Int}
    (hin : InBounds h w row col) (v : Cell) :
    vec_assign cells row col v = .ok (grid_write cells row col v) := by
  obtain ⟨h0, h1, h2, h3⟩ := hin
  obtain ⟨r, hr1, hr2, hr3, hr4⟩ := rect_row hr row h0 h1
  obtain ⟨x, hx1, hx2, hx3⟩ := vec_at_ok r col h2 (by omega)
  simp [vec_assign, grid_write, hr4, hx3, hr1]

theorem rect_write {h w : Nat} {cells : List (List Cell)} (hr : Rect h w cells) (row col : Int)
    (v : Cell) : Rect h w (grid_write cells row col v) := by
  unfold grid_write
  split
  · next r hr1 =>
    refine ⟨by simpa using hr.1, ?_⟩
    intro r' hr'
    rcases List.mem_or_eq_of_mem_set hr' with hmem | heq
    · exact hr.2 r' hmem
    · rw [heq, List.length_set]
      exact hr.2 r (List.getElem?_mem hr1)
  · exact hr

theorem cell_at_write {h w : Nat} {cells : List (List Cell)} (hr : Rect h w cells) {row col : Int}
    (hin : InBounds h w row col) (v : Cell) (row1 col1 : Int) :
    cell_at (grid_write cells row col v) row1 col1 =
      if row1 = row ∧ col1 = col then some v else cell_at cells row1 col1 := by
  obtain ⟨h0, h1, h2, h3⟩ := hin
  obtain ⟨r, hr1, hr2, hr3, hr4⟩ := rect_row hr row h0 h1
  have hlt : row.toNat < cells.length := by have := hr.1; omega
  have hclt : col.toNat < r.length := by omega
  by_cases hnn : 0 ≤ row1 ∧ 0 ≤ col1
  · simp only [cell_at, grid_write, hr1, hnn, and_self, if_true]
    by_cases hrow : row1 = row
    · subst hrow
      simp only [List.getElem?_set_self hlt, true_and]
      by_cases hcol : col1 = col
      · subst hcol
        simp [List.getElem?_set_self hclt]
      · have : col.toNat ≠ col1.toNat := by omega
        simp [hcol, List.getElem?_set_ne this, hr1]
    · have : row.toNat ≠ row1.toNat := by omega
      simp [hrow, List.getElem?_set_ne this]
  · have hne : ¬ (row1 = row ∧ col1 = col) := by
      intro hc; apply hnn; omega
    simp [cell_at, hnn, hne]

theorem process_offset_eq {h w : Nat} {f : Field} (hr : Rect h w f.cells) {row col : Int}
    (hin : InBounds h w row col) (eat_rate : ℚ) (off : Int × Int) :
    f.process_offset eat_rate row col off = .ok (offset_step h w eat_rate row col f off) := by
  by_cases hn : InBounds h w (row + off.1) (col + off.2)
  · obtain ⟨a, ha1, -, ra, hra1, hra2⟩ := probe_in hr hin
    obtain ⟨b, hb1, hb2, rb, hrb1, hrb2⟩ := probe_in hr hn
    by_cases hd : f.random_helper.next.real < eat_rate
    · simp [Field.process_offset, offset_step, hn, hb2, RandomHelper.chance,
        RandomHelper.random_double, hd, hra1, hra2, hrb1, hrb2, vec_assign_ok hr hn, ha1, hb1]
    · simp [Field.process_offset, offset_step, hn, hb2, RandomHelper.chance,
        RandomHelper.random_double, hd]
  · simp [Field.process_offset, offset_step, hn, probe_out hr hn]

theorem rect_offset_step {h w : Nat} {f : Field} (hr : Rect h w f.cells) (eat_rate : ℚ)
    (row col : Int) (off : Int × Int) : Rect h w (offset_step h w eat_rate row col f off).cells := by
  unfold offset_step
  split
  · split
    · exact rect_write hr _ _ _
    · exact hr
  · exact hr

theorem process_offsets_eq {h w : Nat} (eat_rate : ℚ) {row col : Int}
    (hin : InBounds h w row col) (offs : List (Int × Int)) :
    ∀ f : Field, Rect h w f.cells →
      f.process_offsets eat_rate row col offs =
        .ok (offs.foldl (offset_step h w eat_rate row col) f) := by
  induction offs with
  | nil => intro f _; rfl
  | cons off rest ih =>
    intro f hr
    simp only [Field.process_offsets, process_offset_eq hr hin, List.foldl_cons]
    exact ih _ (rect_offset_step hr _ _ _ _)

theorem process_cell_eq {h w : Nat} {f : Field} (hr : Rect h w f.cells) {row col : Int}
    (hin : InBounds h w row col) (eat_rate : ℚ) :
    f.process_cell eat_rate row col = .ok (cell_step h w eat_rate row col f) :=
  process_offsets_eq eat_rate hin offsets f hr

theorem rect_foldl_offset_step {h w : Nat} (eat_rate : ℚ) (row col : Int)
    (offs : List (Int × Int)) :
    ∀ f : Field, Rect h w f.cells →
      Rect h w (offs.foldl (offset_step h w eat_rate row col) f).cells := by
  induction offs with
  | nil => intro f hr; exact hr
  | cons off rest ih =>
    intro f hr
    exact ih _ (rect_offset_step hr _ _ _ _)

theorem rect_cell_step {h w : Nat} {f : Field} (hr : Rect h w f.cells) (eat_rate : ℚ)
    (row col : Int) : Rect h w (cell_step h w eat_rate row col f).cells :=
  rect_foldl_offset_step eat_rate row col offsets f hr

theorem rect_cells_step {h w : Nat} (eat_rate : ℚ) (ps : List (Int × Int)) :
    ∀ f : Field, Rect h w f.cells → Rect h w (cells_step h w eat_rate ps f).cells := by
  induction ps with
  | nil => intro f hr; exact hr
  | cons p rest ih =>
    intro f hr
    exact ih _ (rect_cell_step hr _ _ _)

theorem fold_process_cell_eq {h w : Nat} (eat_rate : ℚ) (ps : List (Int × Int))
    (hps : ∀ p ∈ ps, InBounds h w p.1 p.2) :
    ∀ f : Field, Rect h w f.cells →
      fold_process_cell eat_rate ps f = .ok (cells_step h w eat_rate ps f) := by
  induction ps with
  | nil => intro f _; rfl
  | cons p rest ih =>
    intro f hr
    have hp := hps p (List.mem_cons_self _ _)
    have ih1 := ih (fun q hq => hps q (List.mem_cons_of_mem _ hq)) _
      (rect_cell_step hr eat_rate p.1 p.2)
    unfold fold_process_cell at ih1 ⊢
    rw [List.foldlM_cons, process_cell_eq hr hp]
    exact ih1

theorem col_loop_eq {h w : Nat} (eat_rate : ℚ) {row : Int} (h0 : 0 ≤ row) (h1 : row < (h : Int)) :
    ∀ (k col fuel : Nat) (f : Field), Rect h w f.cells → col + k = w → k + 1 ≤ fuel →
      Field.col_loop eat_rate row fuel (col : Int) f =
        .ok (cells_step h w eat_rate ((List.range' col k).map (fun (c : Nat) => (row, (c : Int)))) f) := by
  intro k
  induction k with
  | zero =>
    intro col fuel f hr hk hfuel
    obtain ⟨r, -, hr2, -, hr4⟩ := rect_row hr row h0 h1
    obtain ⟨n, rfl⟩ : ∃ n, fuel = n + 1 := ⟨fuel - 1, by omega⟩
    have : ¬ ((col : Int) < (r.length : Int)) := by omega
    simp [Field.col_loop, hr4, this, cells_step]
  | succ k ih =>
    intro col fuel f hr hk hfuel
    obtain ⟨r, -, hr2, -, hr4⟩ := rect_row hr row h0 h1
    obtain ⟨n, rfl⟩ : ∃ n, fuel = n + 1 := ⟨fuel - 1, by omega⟩
    have hlt : (col : Int) < (r.length : Int) := by omega
    have hin : InBounds h w row (col : Int) := ⟨h0, h1, by omega, by omega⟩
    have ih1 := ih (col + 1) n _ (rect_cell_step hr eat_rate row (col : Int)) (by omega) (by omega)
    simp only [Field.col_loop, hr4, hlt, if_true, process_cell_eq hr hin]
    rw [List.range'_succ, List.map_cons]
    simpa [cells_step] using ih1

theorem col_fuel_eq {h w : Nat} {f : Field} (hr : Rect h w f.cells) {row : Int} (h0 : 0 ≤ row)
    (h1 : row < (h : Int)) : Field.col_fuel f row = w + 1 := by
  obtain ⟨r, -, hr2, -, hr4⟩ := rect_row hr row h0 h1
  simp [Field.col_fuel, hr4, hr2]

theorem cells_step_append (h w : Nat) (eat_rate : ℚ) (ps qs : List (Int × Int)) (f : Field) :
    cells_step h w eat_rate (ps ++ qs) f =
      cells_step h w eat_rate qs (cells_step h w eat_rate ps f) := by
  simp [cells_step, List.foldl_append]

theorem row_loop_eq {h w : Nat} (eat_rate : ℚ) :
    ∀ (k row fuel : Nat) (f : Field), Rect h w f.cells → row + k = h → k + 1 ≤ fuel →
      Field.row_loop eat_rate fuel (row : Int) f =
        .ok (cells_step h w eat_rate (((List.range' row k).map (row_positions w)).flatten) f) := by
  intro k
  induction k with
  | zero =>
    intro row fuel f hr hk hfuel
    obtain ⟨n, rfl⟩ : ∃ n, fuel = n + 1 := ⟨fuel - 1, by omega⟩
    have : ¬ ((row : Int) < (f.cells.length : Int)) := by have := hr.1; omega
    simp [Field.row_loop, this, cells_step]
  | succ k ih =>
    intro row fuel f hr hk hfuel
    obtain ⟨n, rfl⟩ : ∃ n, fuel = n + 1 := ⟨fuel - 1, by omega⟩
    have hlt : (row : Int) < (f.cells.length : Int) := by have := hr.1; omega
    have h0 : (0 : Int) ≤ (row : Int) := by omega
    have h1 : (row : Int) < (h : Int) := by omega
    have hcol := col_loop_eq (w := w) eat_rate h0 h1 w 0 (w + 1) f hr (by omega) (by omega)
    have ih1 := ih (row + 1) n
      (cells_step h w eat_rate ((List.range' 0 w).map (fun (c : Nat) => ((row : Int), (c : Int)))) f)
      (rect_cells_step eat_rate _ f hr) (by omega) (by omega)
    simp only [Field.row_loop, hlt, if_true, col_fuel_eq hr h0 h1]
    rw [show ((0 : Nat) : Int) = 0 from rfl] at hcol
    rw [hcol]
    simp only [Nat.cast_add, Nat.cast_one] at ih1
    show Field.row_loop eat_rate n ((row : Int) + 1) _ = _
    rw [ih1, List.range'_succ, List.map_cons, List.flatten_cons, cells_step_append]
    simp [row_positions, List.range_eq_range']

theorem sweep_eq {h w : Nat} {f : Field} (hr : Rect h w f.cells) (eat_rate : ℚ) :
    f.sweep eat_rate = .ok (cells_step h w eat_rate (row_major h w) f) := by
  have := row_loop_eq (w := w) eat_rate h 0 (f.cells.length + 1) f hr (by omega)
    (by have := hr.1; omega)
  unfold Field.sweep
  rw [show ((0 : Nat) : Int) = 0 from rfl] at this
  rw [this, row_major, List.range_eq_range']

theorem mem_row_major {h w : Nat} (p : Int × Int) :
    p ∈ row_major h w ↔ InBounds h w p.1 p.2 := by
  obtain ⟨r, c⟩ := p
  simp only [row_major, row_positions, List.mem_flatten, List.mem_map, List.mem_range, InBounds]
  constructor
  · rintro ⟨l, ⟨a, ha, rfl⟩, hl⟩
    simp only [List.mem_map, List.mem_range, Prod.mk.injEq] at hl
    obtain ⟨b, hb, rfl, rfl⟩ := hl
    omega
  · rintro ⟨h0, h1, h2, h3⟩
    refine ⟨_, ⟨r.toNat, by omega, rfl⟩, ?_⟩
    simp only [List.mem_map, List.mem_range, Prod.mk.injEq]
    exact ⟨c.toNat, by omega, by omega, by omega⟩

theorem isNeighbour_iff (row col nrow ncol : Int) :
    IsNeighbour row col nrow ncol ↔
      ∃ off ∈ offsets, nrow = row + off.1 ∧ ncol = col + off.2 := by
  simp only [IsNeighbour, offsets, List.mem_cons, List.mem_singleton, List.not_mem_nil, or_false,
    exists_eq_or_imp, exists_eq_left]
  constructor
  · rintro (h | h | h | h) <;> omega
  · rintro (h | h | h | h) <;> omega

theorem offset_step_engine (h w : Nat) (eat_rate : ℚ) (row col : Int) (f : Field)
    (off : Int × Int) :
    (offset_step h w eat_rate row col f off).random_helper.random_engine =
      f.random_helper.random_engine := by
  unfold offset_step
  split
  · split <;> rfl
  · rfl

theorem foldl_offset_step_engine (h w : Nat) (eat_rate : ℚ) (row col : Int)
    (offs : List (Int × Int)) :
    ∀ f : Field, (offs.foldl (offset_step h w eat_rate row col) f).random_helper.random_engine =
      f.random_helper.random_engine := by
  induction offs with
  | nil => intro f; rfl
  | cons off rest ih =>
    intro f
    rw [List.foldl_cons, ih, offset_step_engine]

theorem cell_step_engine (h w : Nat) (eat_rate : ℚ) (row col : Int) (f : Field) :
    (cell_step h w eat_rate row col f).random_helper.random_engine =
      f.random_helper.random_engine :=
  foldl_offset_step_engine h w eat_rate row col offsets f

theorem cells_step_engine (h w : Nat) (eat_rate : ℚ) (ps : List (Int × Int)) :
    ∀ f : Field, (cells_step h w eat_rate ps f).random_helper.random_engine =
      f.random_helper.random_engine := by
  induction ps with
  | nil => intro f; rfl
  | cons p rest ih =>
    intro f
    show (cells_step h w eat_rate rest (cell_step h w eat_rate p.1 p.2 f)).random_helper.random_engine = _
    rw [ih, cell_step_engine]

theorem offset_step_other {h w : Nat} {f : Field} (hr : Rect h w f.cells) (eat_rate : ℚ)
    (row col : Int) (off : Int × Int) (r c : Int)
    (hne : ¬ (r = row + off.1 ∧ c = col + off.2)) :
    cell_at (offset_step h w eat_rate row col f off).cells r c = cell_at f.cells r c := by
  unfold offset_step
  split
  · next hn =>
    split
    · simp only [cell_at_write hr hn, hne, if_false]
    · rfl
  · rfl

theorem offset_step_hit {h w : Nat} {f : Field} (hr : Rect h w f.cells) {eat_rate : ℚ}
    (row col : Int) (off : Int × Int) (hn : InBounds h w (row + off.1) (col + off.2))
    (hd : f.random_helper.next.real < eat_rate) :
    cell_at (offset_step h w eat_rate row col f off).cells (row + off.1) (col + off.2) =
      some (get_cell_combination ((cell_at f.cells row col).getD .dead)
        ((cell_at f.cells (row + off.1) (col + off.2)).getD .dead)) := by
  simp [offset_step, hn, hd, cell_at_write hr hn]

theorem foldl_offset_step_other {h w : Nat} (eat_rate : ℚ) (row col : Int) (r c : Int)
    (offs : List (Int × Int))
    (hne : ∀ off ∈ offs, ¬ (r = row + off.1 ∧ c = col + off.2)) :
    ∀ f : Field, Rect h w f.cells →
      cell_at (offs.foldl (offset_step h w eat_rate row col) f).cells r c = cell_at f.cells r c := by
  induction offs with
  | nil => intro f _; rfl
  | cons off rest ih =>
    intro f hr
    rw [List.foldl_cons, ih (fun o ho => hne o (List.mem_cons_of_mem _ ho)) _
      (rect_offset_step hr _ _ _ _),
      offset_step_other hr _ _ _ _ _ _ (hne off (List.mem_cons_self _ _))]

theorem cell_step_other {h w : Nat} {f : Field} (hr : Rect h w f.cells) (eat_rate : ℚ)
    (row col : Int) (r c : Int) (hne : ¬ IsNeighbour row col r c) :
    cell_at (cell_step h w eat_rate row col f).cells r c = cell_at f.cells r c := by
  apply foldl_offset_step_other eat_rate row col r c offsets _ f hr
  intro off hoff hcon
  exact hne ((isNeighbour_iff row col r c).2 ⟨off, hoff, hcon⟩)

theorem foldl_offset_step_hit {h w : Nat} {eat_rate : ℚ} (row col : Int)
    (offs : List (Int × Int)) (hnd : offs.Nodup) (h00 : (0, 0) ∉ offs) :
    ∀ f : Field, Rect h w f.cells →
      (∀ i, (f.random_helper.random_engine i).real < eat_rate) →
      ∀ off ∈ offs, InBounds h w (row + off.1) (col + off.2) →
        cell_at (offs.foldl (offset_step h w eat_rate row col) f).cells (row + off.1)
            (col + off.2) =
          some (get_cell_combination ((cell_at f.cells row col).getD .dead)
            ((cell_at f.cells (row + off.1) (col + off.2)).getD .dead)) := by
  induction offs with
  | nil => intro f _ _ off hoff; cases hoff
  | cons o rest ih =>
    intro f hr hd off hoff hn
    rw [List.nodup_cons] at hnd
    rw [List.foldl_cons]
    have hr1 := rect_offset_step hr eat_rate row col o
    rcases List.mem_cons.1 hoff with rfl | hmem
    · rw [foldl_offset_step_other eat_rate row col _ _ rest _ _ hr1]
      · exact offset_step_hit hr row col off hn (hd _)
      · intro o1 ho1 hcon
        apply hnd.1
        have : off = o1 := Prod.ext (by have := hcon.1; omega) (by have := hcon.2; omega)
        rw [this]; exact ho1
    · have hne_o : off ≠ o := fun hcon => hnd.1 (hcon ▸ hmem)
      have hne_0 : o ≠ (0, 0) := fun hcon => h00 (hcon ▸ List.mem_cons_self _ _)
      rw [ih hnd.2 (fun hcon => h00 (List.mem_cons_of_mem _ hcon)) _ hr1
        (by rw [offset_step_engine]; exact hd) off hmem hn]
      rw [offset_step_other hr eat_rate row col o row col, offset_step_other hr eat_rate row col o]
      · intro hcon
        apply hne_o
        exact Prod.ext (by have := hcon.1; omega) (by have := hcon.2; omega)
      · intro hcon
        apply hne_0
        exact Prod.ext (by have := hcon.1; simp; omega) (by have := hcon.2; simp; omega)

theorem cell_step_hit {h w : Nat} {f : Field} (hr : Rect h w f.cells) {eat_rate : ℚ}
    (hd : ∀ i, (f.random_helper.random_engine i).real < eat_rate)
    (row col : Int) (r c : Int) (hnb : IsNeighbour row col r c) (hn : InBounds h w r c) :
    cell_at (cell_step h w eat_rate row col f).cells r c =
      some (get_cell_combination ((cell_at f.cells row col).getD .dead)
        ((cell_at f.cells r c).getD .dead)) := by
  obtain ⟨off, hoff, rfl, rfl⟩ := (isNeighbour_iff row col r c).1 hnb
  exact foldl_offset_step_hit row col offsets (by decide) (by decide) f hr hd off hoff hn

theorem cell_at_some {h w : Nat} {cells : List (List Cell)} (hr : Rect h w cells) {row col : Int}
    (hin : InBounds h w row col) : ∃ x, cell_at cells row col = some x := by
  obtain ⟨x, hx, -⟩ := probe_in (f := ⟨cells, ⟨fun _ => ⟨0, 0⟩, 0⟩⟩) hr hin
  exact ⟨x, hx⟩

theorem random_int_ok (rh : RandomHelper) (min max : Int) (hle : min ≤ max) :
    ∃ r, rh.random_int min max = .ok (r, rh.advance) ∧ min ≤ r ∧ r ≤ max := by
  refine ⟨min + ((rh.next.raw % (max - min + 1).toNat : Nat) : Int), by simp [RandomHelper.random_int, hle], by omega, ?_⟩
  have hpos : 0 < (max - min + 1).toNat := by omega
  have := Nat.mod_lt rh.next.raw hpos
  omega

theorem random_int_attains (min max r : Int) (h1 : min ≤ r) (h2 : r ≤ max) :
    ∃ rh : RandomHelper, rh.random_int min max = .ok (r, rh.advance) := by
  refine ⟨⟨fun _ => ⟨0, (r - min).toNat⟩, 0⟩, ?_⟩
  have hle : min ≤ max := le_trans h1 h2
  have hmod : (r - min).toNat % (max - min + 1).toNat = (r - min).toNat :=
    Nat.mod_eq_of_lt (by omega)
  have hr : min + (((r - min).toNat : Nat) : Int) = r := by omega
  simp only [RandomHelper.random_int, hle, if_true, RandomHelper.next, hmod, hr]

theorem random_cell_switch_ok {option : Int} (h1 : 1 ≤ option) (h5 : option ≤ 5) :
    ∃ c, random_cell_switch option = .ok c ∧ c ≠ .dead := by
  have : option = 1 ∨ option = 2 ∨ option = 3 ∨ option = 4 ∨ option = 5 := by omega
  rcases this with rfl | rfl | rfl | rfl | rfl
  · exact ⟨.plant, rfl, by decide⟩
  · exact ⟨.virus, rfl, by decide⟩
  · exact ⟨.food, rfl, by decide⟩
  · exact ⟨.water, rfl, by decide⟩
  · exact ⟨.fungus, rfl, by decide⟩

theorem random_cell_ok (g : RandomHelper) :
    random_cell g = .ok (drawn_cell g, g.advance) ∧ drawn_cell g ≠ .dead := by
  obtain ⟨r, hr, h1, h5⟩ := random_int_ok g 1 5 (by decide)
  obtain ⟨c, hc, hne⟩ := random_cell_switch_ok h1 h5
  have hrc : random_cell g = .ok (c, g.advance) := by simp [random_cell, hr, hc]
  have hdc : drawn_cell g = c := by simp [drawn_cell, hrc]
  rw [hdc]
  exact ⟨hrc, hne⟩

theorem get_cell_combination_ne_dead (eater : Cell) {eaten : Cell} (h : eaten ≠ .dead) :
    get_cell_combination eater eaten ≠ .dead := by
  revert h
  cases eater <;> cases eaten <;> decide

theorem cell_at_mem {cells : List (List Cell)} {row col : Int} {x : Cell}
    (h : cell_at cells row col = some x) : ∃ r ∈ cells, x ∈ r := by
  unfold cell_at at h
  split at h
  · split at h
    · next r hr => exact ⟨r, List.getElem?_mem hr, List.getElem?_mem h⟩
    · cases h
  · cases h

theorem noDead_write {cells : List (List Cell)} (hn : NoDead cells) (row col : Int) {v : Cell}
    (hv : v ≠ .dead) : NoDead (grid_write cells row col v) := by
  unfold grid_write
  split
  · next r hr1 =>
    intro r1 hr1m
    rcases List.mem_or_eq_of_mem_set hr1m with hmem | heq
    · exact hn r1 hmem
    · subst heq
      intro hd
      rcases List.mem_or_eq_of_mem_set hd with hmem | heq
      · exact hn r (List.getElem?_mem hr1) hmem
      · exact hv heq.symm
  · exact hn

theorem noDead_offset_step {h w : Nat} {f : Field} (hr : Rect h w f.cells) (hn : NoDead f.cells)
    (eat_rate : ℚ) (row col : Int) (off : Int × Int) :
    NoDead (offset_step h w eat_rate row col f off).cells := by
  unfold offset_step
  split
  · next hin =>
    split
    · apply noDead_write hn
      apply get_cell_combination_ne_dead
      obtain ⟨x, hx⟩ := cell_at_some hr hin
      rw [hx]
      obtain ⟨r, hr1, hr2⟩ := cell_at_mem hx
      simp only [Option.getD_some]
      intro hd
      exact hn r hr1 (hd ▸ hr2)
    · exact hn
  · exact hn

theorem noDead_cell_step {h w : Nat} (eat_rate : ℚ) (row col : Int) (f : Field)
    (hr : Rect h w f.cells) (hn : NoDead f.cells) :
    NoDead (cell_step h w eat_rate row col f).cells := by
  have key : ∀ (offs : List (Int × Int)) (f : Field), Rect h w f.cells → NoDead f.cells →
      NoDead (offs.foldl (offset_step h w eat_rate row col) f).cells := by
    intro offs
    induction offs with
    | nil => intro f _ hn; exact hn
    | cons off rest ih =>
      intro f hr hn
      exact ih _ (rect_offset_step hr _ _ _ _) (noDead_offset_step hr hn _ _ _ _)
  exact key offsets f hr hn

theorem noDead_cells_step {h w : Nat} (eat_rate : ℚ) (ps : List (Int × Int)) :
    ∀ f : Field, Rect h w f.cells → NoDead f.cells →
      NoDead (cells_step h w eat_rate ps f).cells := by
  induction ps with
  | nil => intro f _ hn; exact hn
  | cons p rest ih =>
    intro f hr hn
    exact ih _ (rect_cell_step hr _ _ _) (noDead_cell_step _ _ _ f hr hn)

theorem vec_index_some {α : Type} {v : List α} {i : Int} {x : α} (h : vec_index v i = .ok x) :
    v[i.toNat]? = some x := by
  unfold vec_index at h
  split at h
  · split at h
    · next y hy => cases h; exact hy
    · cases h
  · cases h

theorem vec_assign_eq {cells cells1 : List (List Cell)} {row col : Int} {v : Cell}
    (h : vec_assign cells row col v = .ok cells1) : cells1 = grid_write cells row col v := by
  unfold vec_assign at h
  split at h
  · cases h
  · next r hr =>
    split at h
    · cases h
    · cases h
      simp [grid_write, vec_index_some hr]

theorem spawn_random_cell_sound {f : Field} {g : RandomHelper} {s : Field × RandomHelper}
    (h : f.spawn_random_cell g = .ok s) :
    ∃ row col, s.1.cells = grid_write f.cells row col (drawn_cell g) := by
  unfold Field.spawn_random_cell at h
  simp only [(random_cell_ok g).1] at h
  split at h
  · cases h
  · split at h
    · cases h
    · split at h
      · cases h
      · split at h
        · cases h
        · next cells1 hc =>
          cases h
          exact ⟨_, _, vec_assign_eq hc⟩

theorem spawn_random_cell_ok {h w : Nat} {f : Field} (hr : Rect h w f.cells) (hh : 1 ≤ h)
    (hw : 1 ≤ w) (g : RandomHelper) :
    ∃ row col, InBounds h w row col ∧
      f.random_helper.random_int 0 ((h : Int) - 1) = .ok (row, f.random_helper.advance) ∧
      f.random_helper.advance.random_int 0 ((w : Int) - 1) =
        .ok (col, f.random_helper.advance.advance) ∧
      f.spawn_random_cell g =
        .ok (⟨grid_write f.cells row col (drawn_cell g), f.random_helper.advance.advance⟩,
          g.advance) := by
  obtain ⟨r0, -, hr0, -, hr04⟩ := rect_row hr 0 (le_refl 0) (by omega)
  obtain ⟨row, hrow, hrow0, hrow1⟩ :=
    random_int_ok f.random_helper 0 ((h : Int) - 1) (by omega)
  obtain ⟨col, hcol, hcol0, hcol1⟩ :=
    random_int_ok f.random_helper.advance 0 ((w : Int) - 1) (by omega)
  have hin : InBounds h w row col := ⟨hrow0, by omega, hcol0, by omega⟩
  refine ⟨row, col, hin, hrow, hcol, ?_⟩
  have hlen : (f.cells.length : Int) = (h : Int) := by rw [hr.1]
  simp [Field.spawn_random_cell, hr04, hr0, hlen, hrow, hcol, (random_cell_ok g).1,
    vec_assign_ok hr hin]

theorem process_all_cells_eq {h w : Nat} {f : Field} (hr : Rect h w f.cells)
    (eat_rate spawn_rate : ℚ) (g : RandomHelper) :
    f.process_all_cells eat_rate spawn_rate g =
      if (swept h w eat_rate f).random_helper.next.real < spawn_rate then
        Field.spawn_random_cell
          ⟨(swept h w eat_rate f).cells, (swept h w eat_rate f).random_helper.advance⟩ g
      else .ok (⟨(swept h w eat_rate f).cells, (swept h w eat_rate f).random_helper.advance⟩, g) := by
  simp only [Field.process_all_cells, sweep_eq hr eat_rate, RandomHelper.chance,
    RandomHelper.random_double, swept]
  by_cases hd : (cells_step h w eat_rate (row_major h w) f).random_helper.next.real < spawn_rate
  · simp [hd]
  · simp [hd]

theorem rect_swept {h w : Nat} {f : Field} (hr : Rect h w f.cells) (eat_rate : ℚ) :
    Rect h w (swept h w eat_rate f).cells :=
  rect_cells_step eat_rate _ f hr

theorem process_all_cells_sound {h w : Nat} {f : Field} (hr : Rect h w f.cells)
    {eat_rate spawn_rate : ℚ} {g : RandomHelper} {s : Field × RandomHelper}
    (hs : f.process_all_cells eat_rate spawn_rate g = .ok s) :
    Rect h w s.1.cells ∧ (NoDead f.cells → NoDead s.1.cells) := by
  rw [process_all_cells_eq hr] at hs
  have hr1 := rect_swept hr eat_rate
  split at hs
  · obtain ⟨row, col, hcells⟩ := spawn_random_cell_sound hs
    rw [hcells]
    exact ⟨rect_write hr1 _ _ _,
      fun hn => noDead_write (noDead_cells_step _ _ f hr hn) _ _ (random_cell_ok g).2⟩
  · cases hs
    exact ⟨hr1, fun hn => noDead_cells_step _ _ f hr hn⟩

theorem process_all_cells_ok {h w : Nat} {f : Field} (hr : Rect h w f.cells) (hh : 1 ≤ h)
    (hw : 1 ≤ w) (eat_rate spawn_rate : ℚ) (g : RandomHelper) :
    ∃ s, f.process_all_cells eat_rate spawn_rate g = .ok s := by
  rw [process_all_cells_eq hr]
  split
  · obtain ⟨row, col, -, -, -, hsp⟩ :=
      spawn_random_cell_ok (f := ⟨(swept h w eat_rate f).cells,
        (swept h w eat_rate f).random_helper.advance⟩) (rect_swept hr eat_rate) hh hw g
    exact ⟨_, hsp⟩
  · exact ⟨_, rfl⟩

theorem run_epochs_sound {h w : Nat} (eat_rate spawn_rate : ℚ) :
    ∀ (n : Nat) (s s1 : Field × RandomHelper), Rect h w s.1.cells →
      run_epochs eat_rate spawn_rate n s = .ok s1 →
      Rect h w s1.1.cells ∧ (NoDead s.1.cells → NoDead s1.1.cells) := by
  intro n
  induction n with
  | zero =>
    intro s s1 hr hs
    cases hs
    exact ⟨hr, id⟩
  | succ n ih =>
    intro s s1 hr hs
    unfold run_epochs at hs
    split at hs
    · cases hs
    · next s2 hs2 =>
      obtain ⟨hr2, hn2⟩ := process_all_cells_sound hr hs2
      obtain ⟨hr3, hn3⟩ := ih s2 s1 hr2 hs
      exact ⟨hr3, fun hn => hn3 (hn2 hn)⟩

theorem run_epochs_ok {h w : Nat} (hh : 1 ≤ h) (hw : 1 ≤ w) (eat_rate spawn_rate : ℚ) :
    ∀ (n : Nat) (s : Field × RandomHelper), Rect h w s.1.cells →
      ∃ s1, run_epochs eat_rate spawn_rate n s = .ok s1 := by
  intro n
  induction n with
  | zero => intro s _; exact ⟨s, rfl⟩
  | succ n ih =>
    intro s hr
    obtain ⟨s2, hs2⟩ := process_all_cells_ok hr hh hw eat_rate spawn_rate s.2
    obtain ⟨s1, hs1⟩ := ih s2 (process_all_cells_sound hr hs2).1
    exact ⟨s1, by simp [run_epochs, hs2, hs1]⟩

theorem field_new_ok {height width : Int} (hh : 0 ≤ height) (hw : 0 ≤ width) (rh : RandomHelper) :
    Field.new height width rh =
      .ok ⟨List.replicate height.toNat (List.replicate width.toNat Cell.dead), rh⟩ := by
  simp [Field.new, hh, hw]

theorem rect_replicate (h w : Nat) : Rect h w (List.replicate h (List.replicate w Cell.dead)) := by
  refine ⟨by simp, ?_⟩
  intro r hr
  rw [(List.mem_replicate.1 hr).2]
  simp

theorem fill_row_ok : ∀ (l : List Cell) (g : RandomHelper),
    ∃ l1 g1, fill_row l g = .ok (l1, g1) ∧ l1.length = l.length ∧ Cell.dead ∉ l1 := by
  intro l
  induction l with
  | nil => intro g; exact ⟨[], g, rfl, rfl, by simp⟩
  | cons c rest ih =>
    intro g
    obtain ⟨l1, g1, h1, h2, h3⟩ := ih g.advance
    refine ⟨drawn_cell g :: l1, g1, by simp [fill_row, (random_cell_ok g).1, h1], by simp [h2], ?_⟩
    intro hd
    rcases List.mem_cons.1 hd with heq | hmem
    · exact (random_cell_ok g).2 heq.symm
    · exact h3 hmem

theorem fill_rows_ok (w : Nat) : ∀ (ls : List (List Cell)) (g : RandomHelper),
    (∀ r ∈ ls, r.length = w) →
    ∃ ls1 g1, fill_rows ls g = .ok (ls1, g1) ∧ Rect ls.length w ls1 ∧ NoDead ls1 := by
  intro ls
  induction ls with
  | nil => intro g _; exact ⟨[], g, rfl, ⟨rfl, by simp⟩, by simp [NoDead]⟩
  | cons r rest ih =>
    intro g hw
    obtain ⟨r1, g1, h1, h2, h3⟩ := fill_row_ok r g
    obtain ⟨ls1, g2, h4, h5, h6⟩ := ih g1 (fun x hx => hw x (List.mem_cons_of_mem _ hx))
    refine ⟨r1 :: ls1, g2, by simp [fill_rows, h1, h4], ⟨by simp [h5.1], ?_⟩, ?_⟩
    · intro x hx
      rcases List.mem_cons.1 hx with rfl | hmem
      · rw [h2]; exact hw r (List.mem_cons_self _ _)
      · exact h5.2 x hmem
    · intro x hx
      rcases List.mem_cons.1 hx with rfl | hmem
      · exact h3
      · exact h6 x hmem

theorem generate_random_field_ok {height width : Int} (hh : 0 ≤ height) (hw : 0 ≤ width)
    (rh g : RandomHelper) :
    ∃ f g1, generate_random_field height width rh g = .ok (f, g1) ∧
      Rect height.toNat width.toNat f.cells ∧ NoDead f.cells := by
  have hrep := rect_replicate height.toNat width.toNat
  obtain ⟨ls1, g1, h1, h2, h3⟩ := fill_rows_ok width.toNat _ g hrep.2
  rw [hrep.1] at h2
  exact ⟨⟨ls1, rh⟩, g1, by simp [generate_random_field, field_new_ok hh hw, h1], h2, h3⟩

theorem generate_random_field_sound {height width : Int} {rh g g1 : RandomHelper} {f : Field}
    (hgen : generate_random_field height width rh g = .ok (f, g1)) :
    Rect height.toNat width.toNat f.cells ∧ NoDead f.cells := by
  by_cases hnn : 0 ≤ width ∧ 0 ≤ height
  · obtain ⟨f2, g2, h2, h3, h4⟩ := generate_random_field_ok hnn.2 hnn.1 rh g
    rw [h2] at hgen
    cases hgen
    exact ⟨h3, h4⟩
  · simp [generate_random_field, Field.new, hnn] at hgen

theorem pairwise_row_major (h w : Nat) : (row_major h w).Pairwise RowMajorLt := by
  unfold row_major
  rw [List.pairwise_flatten]
  constructor
  · intro l hl
    obtain ⟨r, -, rfl⟩ := List.mem_map.1 hl
    unfold row_positions
    rw [List.pairwise_map]
    refine (List.pairwise_lt_range w).imp ?_
    intro a b hab
    right
    exact ⟨rfl, by simpa using hab⟩
  · rw [List.pairwise_map]
    refine (List.pairwise_lt_range h).imp ?_
    intro a b hab p hp q hq
    simp only [row_positions, List.mem_map, List.mem_range] at hp hq
    obtain ⟨c, -, rfl⟩ := hp
    obtain ⟨d, -, rfl⟩ := hq
    left
    simpa using hab

theorem length_row_major (h w : Nat) : (row_major h w).length = h * w := by
  simp [row_major, row_positions, Function.comp_def]

theorem offset_step_rate_zero {h w : Nat} (row col : Int) (f : Field) (off : Int × Int)
    (hd : 0 ≤ f.random_helper.next.real) :
    (offset_step h w 0 row col f off).cells = f.cells := by
  unfold offset_step
  split
  · rw [if_neg (not_lt.2 hd)]
  · rfl

theorem cell_step_rate_zero {h w : Nat} (row col : Int) (f : Field)
    (hd : ∀ i, 0 ≤ (f.random_helper.random_engine i).real) :
    (cell_step h w 0 row col f).cells = f.cells := by
  have key : ∀ (offs : List (Int × Int)) (f : Field),
      (∀ i, 0 ≤ (f.random_helper.random_engine i).real) →
      (offs.foldl (offset_step h w 0 row col) f).cells = f.cells := by
    intro offs
    induction offs with
    | nil => intro f _; rfl
    | cons off rest ih =>
      intro f hd
      rw [List.foldl_cons, ih _ (by rw [offset_step_engine]; exact hd)]
      exact offset_step_rate_zero row col f off (hd _)
  exact key offsets f hd

theorem cells_step_rate_zero {h w : Nat} (ps : List (Int × Int)) :
    ∀ f : Field, (∀ i, 0 ≤ (f.random_helper.random_engine i).real) →
      (cells_step h w 0 ps f).cells = f.cells := by
  induction ps with
  | nil => intro f _; rfl
  | cons p rest ih =>
    intro f hd
    show (cells_step h w 0 rest (cell_step h w 0 p.1 p.2 f)).cells = _
    rw [ih _ (by rw [cell_step_engine]; exact hd)]
    exact cell_step_rate_zero p.1 p.2 f hd

theorem run_epochs_rate_zero {h w : Nat} (g : RandomHelper) :
    ∀ (n : Nat) (f : Field), Rect h w f.cells →
      (∀ i, 0 ≤ (f.random_helper.random_engine i).real) →
      ∃ f1, run_epochs 0 0 n (f, g) = .ok (f1, g) ∧ f1.cells = f.cells := by
  intro n
  induction n with
  | zero => intro f _ _; exact ⟨f, rfl, rfl⟩
  | succ n ih =>
    intro f hr hd
    have hd1 : ∀ i, 0 ≤ ((swept h w 0 f).random_helper.random_engine i).real := by
      intro i
      rw [swept, cells_step_engine]
      exact hd i
    have hc : (swept h w 0 f).cells = f.cells := cells_step_rate_zero _ f hd
    have hstep : f.process_all_cells 0 0 g =
        .ok (⟨(swept h w 0 f).cells, (swept h w 0 f).random_helper.advance⟩, g) := by
      have hnext : ¬ (swept h w 0 f).random_helper.next.real < 0 := not_lt.2 (hd1 _)
      rw [process_all_cells_eq hr, if_neg hnext]
    obtain ⟨f1, hf1, hf1c⟩ := ih ⟨(swept h w 0 f).cells, (swept h w 0 f).random_helper.advance⟩
      (rect_swept hr 0) hd1
    refine ⟨f1, ?_, by rw [hf1c, hc]⟩
    simp only [run_epochs, hstep]
    exact hf1

theorem one_cell_process_cell (eat_rate : ℚ) (c : Cell) (rh : RandomHelper) :
    cell_step 1 1 eat_rate 0 0 ⟨[[c]], rh⟩ = ⟨[[c]], rh⟩ := by
  simp [cell_step, offsets, offset_step, InBounds]

theorem one_cell_swept (eat_rate : ℚ) (c : Cell) (rh : RandomHelper) :
    swept 1 1 eat_rate ⟨[[c]], rh⟩ = ⟨[[c]], rh⟩ := by
  have : row_major 1 1 = [(0, 0)] := by decide
  rw [swept, this]
  exact one_cell_process_cell eat_rate c rh

theorem one_cell_rect (c : Cell) : Rect 1 1 [[c]] := by
  simp [Rect]

theorem one_cell_epoch (eat_rate spawn_rate : ℚ) (c : Cell) (rh g : RandomHelper) :
    Field.process_all_cells eat_rate spawn_rate ⟨[[c]], rh⟩ g =
      if rh.next.real < spawn_rate then
        .ok (⟨[[drawn_cell g]], rh.advance.advance.advance⟩, g.advance)
      else .ok (⟨[[c]], rh.advance⟩, g) := by
  rw [process_all_cells_eq (f := ⟨[[c]], rh⟩) (one_cell_rect c), one_cell_swept]
  split
  · obtain ⟨row, col, hin, -, -, hsp⟩ :=
      spawn_random_cell_ok (f := ⟨[[c]], rh.advance⟩) (one_cell_rect c) (le_refl 1) (le_refl 1) g
    have hrow : row = 0 := by have := hin.1; have := hin.2.1; omega
    have hcol : col = 0 := by have := hin.2.2.1; have := hin.2.2.2; omega
    subst hrow hcol
    rw [hsp]
    rfl
  · rfl

theorem one_cell_epochs (eat_rate spawn_rate : ℚ) :
    ∀ (n : Nat) (c : Cell) (rh g : RandomHelper),
      ∃ s, run_epochs eat_rate spawn_rate n (⟨[[c]], rh⟩, g) = .ok s ∧
        s.1.cells = [[(latest_spawn spawn_rate n rh g).getD c]] := by
  intro n
  induction n with
  | zero => intro c rh g; exact ⟨_, rfl, rfl⟩
  | succ n ih =>
    intro c rh g
    by_cases hd : rh.next.real < spawn_rate
    · obtain ⟨s, hs, hc⟩ := ih (drawn_cell g) rh.advance.advance.advance g.advance
      refine ⟨s, ?_, ?_⟩
      · simp only [run_epochs, one_cell_epoch, if_pos hd]
        exact hs
      · rw [hc]
        simp only [latest_spawn, if_pos hd]
        cases latest_spawn spawn_rate n rh.advance.advance.advance g.advance <;> rfl
    · obtain ⟨s, hs, hc⟩ := ih c rh.advance g
      refine ⟨s, ?_, ?_⟩
      · simp only [run_epochs, one_cell_epoch, if_neg hd]
        exact hs
      · rw [hc]
        simp only [latest_spawn, if_neg hd]

theorem latest_spawn_ne_dead (spawn_rate : ℚ) :
    ∀ (n : Nat) (rh g : RandomHelper) (v : Cell),
      latest_spawn spawn_rate n rh g = some v → v ≠ .dead := by
  intro n
  induction n with
  | zero => intro rh g v hv; cases hv
  | succ n ih =>
    intro rh g v hv
    unfold latest_spawn at hv
    split at hv
    · split at hv
      · next v1 hv1 => cases hv; exact ih _ _ _ hv1
      · cases hv; exact (random_cell_ok g).2
    · exact ih _ _ _ hv

theorem random_cell_switch_error {option : Int} (h : ¬ (1 ≤ option ∧ option ≤ 5)) :
    random_cell_switch option = .error .logic_error := by
  unfold random_cell_switch
  have h1 : option ≠ 1 := by omega
  have h2 : option ≠ 2 := by omega
  have h3 : option ≠ 3 := by omega
  have h4 : option ≠ 4 := by omega
  have h5 : option ≠ 5 := by omega
  simp only [if_neg h1, if_neg h2, if_neg h3, if_neg h4, if_neg h5]

theorem random_cell_switch_injective {a b : Int} {c : Cell}
    (ha : random_cell_switch a = .ok c) (hb : random_cell_switch b = .ok c) : a = b := by
  have ha' : 1 ≤ a ∧ a ≤ 5 := by
    by_contra hcon
    rw [random_cell_switch_error hcon] at ha
    cases ha
  have hb' : 1 ≤ b ∧ b ≤ 5 := by
    by_contra hcon
    rw [random_cell_switch_error hcon] at hb
    cases hb
  have hA : a = 1 ∨ a = 2 ∨ a = 3 ∨ a = 4 ∨ a = 5 := by omega
  have hB : b = 1 ∨ b = 2 ∨ b = 3 ∨ b = 4 ∨ b = 5 := by omega
  rcases hA with rfl | rfl | rfl | rfl | rfl <;> rcases hB with rfl | rfl | rfl | rfl | rfl <;>
    first
    | rfl
    | (exfalso; cases c <;> simp [random_cell_switch] at ha hb)

theorem find_key_iff {α β : Type} [DecidableEq α] (l : List (α × β)) (hnd : (l.map (fun r => r.1)).Nodup)
    (k : α) (r : α × β) :
    l.find? (fun x => decide (x.1 = k)) = some r ↔ r ∈ l ∧ r.1 = k := by
  induction l with
  | nil => simp
  | cons a rest ih =>
    rw [List.map_cons, List.nodup_cons] at hnd
    by_cases ha : a.1 = k
    · simp only [List.find?_cons, ha, decide_True, Option.some.injEq, List.mem_cons]
      constructor
      · rintro rfl; exact ⟨Or.inl rfl, ha⟩
      · rintro ⟨h1 | h1, h2⟩
        · exact h1.symm
        · exfalso
          apply hnd.1
          rw [ha, ← h2]
          exact List.mem_map_of_mem _ h1
    · simp only [List.find?_cons, ha, decide_False, List.mem_cons]
      rw [ih hnd.2]
      constructor
      · rintro ⟨h1, h2⟩; exact ⟨Or.inr h1, h2⟩
      · rintro ⟨h1 | h1, h2⟩
        · exact absurd (h1 ▸ h2) ha
        · exact ⟨h1, h2⟩

theorem find_key_perm {α β : Type} [DecidableEq α] {l1 l2 : List (α × β)} (hp : l1.Perm l2)
    (hnd : (l2.map (fun r => r.1)).Nodup) (k : α) :
    l1.find? (fun x => decide (x.1 = k)) = l2.find? (fun x => decide (x.1 = k)) := by
  have hnd1 : (l1.map (fun r => r.1)).Nodup := (hp.map _).nodup_iff.2 hnd
  apply Option.ext
  intro r
  simp only [Option.mem_def]
  rw [find_key_iff l1 hnd1, find_key_iff l2 hnd, hp.mem_iff]

theorem list_set_self {α : Type} : ∀ (l : List α) (i : Nat) (x : α), l[i]? = some x →
    l.set i x = l := by
  intro l
  induction l with
  | nil => intro i x h; simp at h
  | cons a rest ih =>
    intro i x h
    cases i with
    | zero =>
      simp only [List.getElem?_cons_zero, Option.some.injEq] at h
      simp [h]
    | succ n =>
      simp only [List.getElem?_cons_succ] at h
      simp [ih n x h]

theorem grid_write_self {cells : List (List Cell)} {row col : Int} {v : Cell}
    (h : cell_at cells row col = some v) : grid_write cells row col v = cells := by
  unfold cell_at at h
  split at h
  · split at h
    · next r hr =>
      simp only [grid_write, hr]
      rw [list_set_self r col.toNat v h, list_set_self cells row.toNat r hr]
    · cases h
  · cases h

theorem cell_at_uniform {c : Cell} {cells : List (List Cell)} (hu : Uniform c cells)
    {row col : Int} {x : Cell} (h : cell_at cells row col = some x) : x = c := by
  obtain ⟨r, hr, hx⟩ := cell_at_mem h
  exact hu r hr x hx

theorem get_cell_combination_self (c : Cell) : get_cell_combination c c = c := by
  cases c <;> rfl

theorem get_cell_combination_dead_iff (eater eaten : Cell) :
    get_cell_combination eater eaten = .dead ↔ eaten = .dead := by
  cases eater <;> cases eaten <;> decide

theorem get_cell_combination_dead_eater (eaten : Cell) :
    get_cell_combination .dead eaten = eaten := by
  cases eaten <;> rfl

theorem offset_step_uniform {h w : Nat} {f : Field} (hr : Rect h w f.cells) {c : Cell}
    (hu : Uniform c f.cells) (eat_rate : ℚ) {row col : Int} (hin : InBounds h w row col)
    (off : Int × Int) : (offset_step h w eat_rate row col f off).cells = f.cells := by
  unfold offset_step
  split
  · next hn =>
    split
    · obtain ⟨a, ha⟩ := cell_at_some hr hin
      obtain ⟨b, hb⟩ := cell_at_some hr hn
      have hac := cell_at_uniform hu ha
      have hbc := cell_at_uniform hu hb
      subst hac
      subst hbc
      simp only [ha, hb, Option.getD_some, get_cell_combination_self]
      exact grid_write_self hb
    · rfl
  · rfl

theorem cell_step_uniform {h w : Nat} {c : Cell} (eat_rate : ℚ) {row col : Int}
    (hin : InBounds h w row col) (f : Field) (hr : Rect h w f.cells) (hu : Uniform c f.cells) :
    (cell_step h w eat_rate row col f).cells = f.cells := by
  have key : ∀ (offs : List (Int × Int)) (f : Field), Rect h w f.cells → Uniform c f.cells →
      (offs.foldl (offset_step h w eat_rate row col) f).cells = f.cells := by
    intro offs
    induction offs with
    | nil => intro f _ _; rfl
    | cons off rest ih =>
      intro f hr hu
      have h1 := offset_step_uniform hr hu eat_rate hin off
      rw [List.foldl_cons, ih _ (h1 ▸ hr) (h1 ▸ hu), h1]
  exact key offsets f hr hu

theorem cells_step_uniform {h w : Nat} {c : Cell} (eat_rate : ℚ) (ps : List (Int × Int))
    (hps : ∀ p ∈ ps, InBounds h w p.1 p.2) :
    ∀ f : Field, Rect h w f.cells → Uniform c f.cells →
      (cells_step h w eat_rate ps f).cells = f.cells := by
  induction ps with
  | nil => intro f _ _; rfl
  | cons p rest ih =>
    intro f hr hu
    have h1 := cell_step_uniform eat_rate (hps p (List.mem_cons_self _ _)) f hr hu
    show (cells_step h w eat_rate rest (cell_step h w eat_rate p.1 p.2 f)).cells = _
    rw [ih (fun q hq => hps q (List.mem_cons_of_mem _ hq)) _ (h1 ▸ hr) (h1 ▸ hu), h1]

theorem uniform_replicate (h w : Nat) (c : Cell) :
    Uniform c (List.replicate h (List.replicate w c)) := by
  intro r hr x hx
  rw [(List.mem_replicate.1 hr).2] at hx
  exact (List.mem_replicate.1 hx).2

theorem offset_step_dead_iff {h w : Nat} {f : Field} (hr : Rect h w f.cells) (eat_rate : ℚ)
    (row col : Int) (off : Int × Int) (r c : Int) :
    cell_at (offset_step h w eat_rate row col f off).cells r c = some .dead ↔
      cell_at f.cells r c = some .dead := by
  by_cases hne : r = row + off.1 ∧ c = col + off.2
  · obtain ⟨rfl, rfl⟩ := hne
    unfold offset_step
    split
    · next hn =>
      split
      · obtain ⟨b, hb⟩ := cell_at_some hr hn
        simp only [cell_at_write hr hn, and_self, if_true, hb, Option.getD_some,
          Option.some.injEq]
        exact get_cell_combination_dead_iff _ b
      · rfl
    · rfl
  · rw [offset_step_other hr eat_rate row col off r c hne]

theorem cell_step_dead_iff {h w : Nat} (eat_rate : ℚ) (row col : Int) (f : Field)
    (hr : Rect h w f.cells) (r c : Int) :
    cell_at (cell_step h w eat_rate row col f).cells r c = some .dead ↔
      cell_at f.cells r c = some .dead := by
  have key : ∀ (offs : List (Int × Int)) (f : Field), Rect h w f.cells →
      (cell_at (offs.foldl (offset_step h w eat_rate row col) f).cells r c = some .dead ↔
        cell_at f.cells r c = some .dead) := by
    intro offs
    induction offs with
    | nil => intro f _; rfl
    | cons off rest ih =>
      intro f hr
      rw [List.foldl_cons, ih _ (rect_offset_step hr _ _ _ _),
        offset_step_dead_iff hr eat_rate row col off r c]
  exact key offsets f hr

theorem vec_index_nonneg {α : Type} {v : List α} {i : Int} {x : α} (h : vec_index v i = .ok x) :
    0 ≤ i := by
  unfold vec_index at h
  split at h
  · assumption
  · cases h

theorem vec_assign_other {cells cells1 : List (List Cell)} {row col : Int} {v : Cell}
    (h : vec_assign cells row col v = .ok cells1) (r c : Int) (hne : ¬ (r = row ∧ c = col)) :
    cell_at cells1 r c = cell_at cells r c := by
  unfold vec_assign at h
  split at h
  · cases h
  · next rr hrr =>
    split at h
    · cases h
    · next y hy =>
      cases h
      have h0 := vec_index_nonneg hrr
      have h2 := vec_index_nonneg hy
      have hrow := vec_index_some hrr
      by_cases hnn : 0 ≤ r ∧ 0 ≤ c
      · simp only [cell_at, hnn, and_self, if_true]
        by_cases hr1 : r = row
        · subst hr1
          have hlt : r.toNat < cells.length := by
            by_contra hge
            rw [List.getElem?_eq_none (by omega)] at hrow
            cases hrow
          have hc : col.toNat ≠ c.toNat := by
            intro hcon; apply hne; exact ⟨rfl, by omega⟩
          simp [List.getElem?_set_self hlt, hrow, List.getElem?_set_ne hc]
        · have : row.toNat ≠ r.toNat := by omega
          simp [List.getElem?_set_ne this]
      · simp [cell_at, hnn]

theorem spawn_random_cell_assign {f : Field} {g : RandomHelper} {s : Field × RandomHelper}
    (h : f.spawn_random_cell g = .ok s) :
    ∃ row col, vec_assign f.cells row col (drawn_cell g) = .ok s.1.cells := by
  unfold Field.spawn_random_cell at h
  simp only [(random_cell_ok g).1] at h
  split at h
  · cases h
  · split at h
    · cases h
    · split at h
      · cases h
      · split at h
        · cases h
        · next cells1 hc =>
          cases h
          exact ⟨_, _, hc⟩

theorem offset_step_calls (h w : Nat) (eat_rate : ℚ) (row col : Int) (f : Field)
    (off : Int × Int) :
    (offset_step h w eat_rate row col f off).random_helper.calls =
      f.random_helper.calls + (neighbours_in_order h w [off] row col).length := by
  unfold offset_step neighbours_in_order
  by_cases hn : InBounds h w (row + off.1) (col + off.2)
  · simp only [if_pos hn, List.map_cons, List.map_nil, List.filter_cons, hn, decide_True,
      if_true, List.filter_nil, List.length_singleton]
    split <;> rfl
  · simp only [if_neg hn, List.map_cons, List.map_nil, List.filter_cons, hn, decide_False,
      List.filter_nil, List.length_nil, Nat.add_zero]
    rfl

theorem neighbours_in_order_cons (h w : Nat) (off : Int × Int) (offs : List (Int × Int))
    (row col : Int) :
    neighbours_in_order h w (off :: offs) row col =
      neighbours_in_order h w [off] row col ++ neighbours_in_order h w offs row col := by
  simp only [neighbours_in_order, List.map_cons, List.map_nil]
  rw [← List.filter_append]
  rfl

theorem mem_neighbours_in_order {h w : Nat} {offs : List (Int × Int)} {row col : Int}
    {p : Int × Int} (hp : p ∈ neighbours_in_order h w offs row col) :
    InBounds h w p.1 p.2 ∧ ∃ off ∈ offs, p = (row + off.1, col + off.2) := by
  unfold neighbours_in_order at hp
  rw [List.mem_filter, List.mem_map] at hp
  obtain ⟨⟨off, hoff, rfl⟩, hin⟩ := hp
  exact ⟨of_decide_eq_true hin, off, hoff, rfl⟩

theorem foldl_offset_step_calls (h w : Nat) (eat_rate : ℚ) (row col : Int)
    (offs : List (Int × Int)) :
    ∀ f : Field, (offs.foldl (offset_step h w eat_rate row col) f).random_helper.calls =
      f.random_helper.calls + (neighbours_in_order h w offs row col).length := by
  induction offs with
  | nil => intro f; rfl
  | cons off rest ih =>
    intro f
    rw [List.foldl_cons, ih, offset_step_calls, neighbours_in_order_cons h w off rest, List.length_append,
      Nat.add_assoc]

theorem cell_step_calls (h w : Nat) (eat_rate : ℚ) (row col : Int) (f : Field) :
    (cell_step h w eat_rate row col f).random_helper.calls =
      f.random_helper.calls + (neighbours_in_order h w offsets row col).length :=
  foldl_offset_step_calls h w eat_rate row col offsets f

theorem cells_step_calls (h w : Nat) (eat_rate : ℚ) (ps : List (Int × Int)) :
    ∀ f : Field, (cells_step h w eat_rate ps f).random_helper.calls =
      f.random_helper.calls + eat_draws h w ps := by
  induction ps with
  | nil => intro f; rfl
  | cons p rest ih =>
    intro f
    show (cells_step h w eat_rate rest (cell_step h w eat_rate p.1 p.2 f)).random_helper.calls = _
    rw [ih, cell_step_calls]
    simp only [eat_draws, List.map_cons, List.sum_cons]
    omega

theorem offset_step_target {h w : Nat} {f : Field} (hr : Rect h w f.cells) (eat_rate : ℚ)
    (row col : Int) (off : Int × Int) (hn : InBounds h w (row + off.1) (col + off.2)) :
    cell_at (offset_step h w eat_rate row col f off).cells (row + off.1) (col + off.2) =
      if f.random_helper.next.real < eat_rate then
        some (get_cell_combination ((cell_at f.cells row col).getD .dead)
          ((cell_at f.cells (row + off.1) (col + off.2)).getD .dead))
      else cell_at f.cells (row + off.1) (col + off.2) := by
  by_cases hd : f.random_helper.next.real < eat_rate
  · rw [if_pos hd]
    exact offset_step_hit hr row col off hn hd
  · rw [if_neg hd]
    simp only [offset_step, if_pos hn, if_neg hd]

theorem foldl_offset_step_order {h w : Nat} (eat_rate : ℚ) (row col : Int)
    (offs : List (Int × Int)) (hnd : offs.Nodup) (h00 : (0, 0) ∉ offs) :
    ∀ f : Field, Rect h w f.cells →
      ∀ (k : Nat) (p : Int × Int), (neighbours_in_order h w offs row col)[k]? = some p →
        cell_at (offs.foldl (offset_step h w eat_rate row col) f).cells p.1 p.2 =
          if (f.random_helper.random_engine (f.random_helper.calls + k)).real < eat_rate then
            some (get_cell_combination ((cell_at f.cells row col).getD .dead)
              ((cell_at f.cells p.1 p.2).getD .dead))
          else cell_at f.cells p.1 p.2 := by
  induction offs with
  | nil => intro f _ k p hk; simp [neighbours_in_order] at hk
  | cons o rest ih =>
    intro f hr k p hk
    rw [List.nodup_cons] at hnd
    have hr1 := rect_offset_step hr eat_rate row col o
    have hne_0 : ¬ (row = row + o.1 ∧ col = col + o.2) := by
      intro hcon
      apply h00
      have : o = (0, 0) := Prod.ext (by have := hcon.1; simp; omega) (by have := hcon.2; simp; omega)
      rw [← this]
      exact List.mem_cons_self _ _
    have hrest : ∀ q ∈ neighbours_in_order h w rest row col,
        ¬ (q.1 = row + o.1 ∧ q.2 = col + o.2) := by
      intro q hq hcon
      obtain ⟨-, o1, ho1, rfl⟩ := mem_neighbours_in_order hq
      apply hnd.1
      have : o = o1 := Prod.ext (by have := hcon.1; simp at this; omega)
        (by have := hcon.2; simp at this; omega)
      rw [this]
      exact ho1
    rw [List.foldl_cons]
    rw [neighbours_in_order_cons] at hk
    by_cases hn : InBounds h w (row + o.1) (col + o.2)
    · have hone : neighbours_in_order h w [o] row col = [(row + o.1, col + o.2)] := by
        simp [neighbours_in_order, hn]
      rw [hone] at hk
      cases k with
      | zero =>
        simp only [List.singleton_append, List.getElem?_cons_zero, Option.some.injEq] at hk
        subst hk
        rw [foldl_offset_step_other eat_rate row col _ _ rest _ _ hr1]
        · exact offset_step_target hr eat_rate row col o hn
        · intro o1 ho1 hcon
          apply hnd.1
          have : o = o1 := Prod.ext (by have := hcon.1; simp at this; omega)
            (by have := hcon.2; simp at this; omega)
          rw [this]
          exact ho1
      | succ k1 =>
        simp only [List.singleton_append, List.getElem?_cons_succ] at hk
        have hmem := List.getElem?_mem hk
        rw [ih hnd.2 (fun hcon => h00 (List.mem_cons_of_mem _ hcon)) _ hr1 k1 p hk,
          offset_step_engine, offset_step_calls, hone, List.length_singleton,
          offset_step_other hr eat_rate row col o row col hne_0,
          offset_step_other hr eat_rate row col o p.1 p.2 (hrest p hmem)]
        rw [show f.random_helper.calls + 1 + k1 = f.random_helper.calls + (k1 + 1) by omega]
    · have hone : neighbours_in_order h w [o] row col = [] := by
        simp [neighbours_in_order, hn]
      rw [hone, List.nil_append] at hk
      have hstep : offset_step h w eat_rate row col f o = f := by
        simp only [offset_step, if_neg hn]
      rw [hstep]
      exact ih hnd.2 (fun hcon => h00 (List.mem_cons_of_mem _ hcon)) f hr k p hk

theorem neighbour_count_eq (h w r c : Nat) (hr : r < h) (hc : c < w) :
    (neighbours_in_order h w offsets (r : Int) (c : Int)).length =
      ((if 1 ≤ r then 1 else 0) + (if r + 1 < h then 1 else 0)) +
        ((if 1 ≤ c then 1 else 0) + (if c + 1 < w then 1 else 0)) := by
  have hN : InBounds h w ((r : Int) + -1) ((c : Int) + 0) ↔ 1 ≤ r := by
    unfold InBounds; omega
  have hW : InBounds h w ((r : Int) + 0) ((c : Int) + -1) ↔ 1 ≤ c := by
    unfold InBounds; omega
  have hS : InBounds h w ((r : Int) + 1) ((c : Int) + 0) ↔ r + 1 < h := by
    unfold InBounds; omega
  have hE : InBounds h w ((r : Int) + 0) ((c : Int) + 1) ↔ c + 1 < w := by
    unfold InBounds; omega
  simp only [neighbours_in_order, offsets, List.map_cons, List.map_nil,
    ← List.countP_eq_length_filter, List.countP_cons, List.countP_nil, hN, hW, hS, hE,
    decide_eq_true_eq]
  omega

theorem eat_draws_append (h w : Nat) (ps qs : List (Int × Int)) :
    eat_draws h w (ps ++ qs) = eat_draws h w ps + eat_draws h w qs := by
  simp [eat_draws]

theorem eat_draws_row (h w r : Nat) (hr : r < h) :
    ∀ n, n ≤ w →
      eat_draws h w ((List.range n).map (fun (c : Nat) => ((r : Int), (c : Int)))) =
        n * ((if 1 ≤ r then 1 else 0) + (if r + 1 < h then 1 else 0)) +
          ((n - 1) + min n (w - 1)) := by
  intro n
  induction n with
  | zero => intro _; simp [eat_draws]
  | succ n ih =>
    intro hn
    rw [List.range_succ, List.map_append, eat_draws_append, ih (by omega)]
    simp only [List.map_cons, List.map_nil, eat_draws, List.sum_cons, List.sum_nil,
      neighbour_count_eq h w r n hr (by omega), Nat.add_zero, Nat.succ_mul]
    split_ifs <;> omega

theorem eat_draws_rows (h w : Nat) :
    ∀ m, m ≤ h →
      eat_draws h w (((List.range m).map (row_positions w)).flatten) =
        w * ((m - 1) + min m (h - 1)) + m * (2 * (w - 1)) := by
  intro m
  induction m with
  | zero => intro _; simp [eat_draws]
  | succ m ih =>
    intro hm
    rw [List.range_succ, List.map_append, List.flatten_append, eat_draws_append, ih (by omega)]
    simp only [List.map_cons, List.map_nil, List.flatten_cons, List.flatten_nil,
      List.append_nil, row_positions]
    rw [eat_draws_row h w m (by omega) w (le_refl w)]
    have hmin : min w (w - 1) = w - 1 := by omega
    have hX : (m + 1 - 1) + min (m + 1) (h - 1) =
        ((m - 1) + min m (h - 1)) + ((if 1 ≤ m then 1 else 0) + (if m + 1 < h then 1 else 0)) := by
      split_ifs <;> omega
    rw [hmin, hX, Nat.mul_add, Nat.succ_mul]
    ring

theorem eat_draws_row_major (h w : Nat) :
    eat_draws h w (row_major h w) = 2 * (h * (w - 1) + w * (h - 1)) := by
  rw [row_major, eat_draws_rows h w h (le_refl h)]
  have hmin : min h (h - 1) = h - 1 := by omega
  rw [hmin]
  ring

theorem spawn_random_cell_fails {h w : Nat} {f : Field} (hr : Rect h w f.cells)
    (hcon : ¬ (1 ≤ h ∧ 1 ≤ w)) (g : RandomHelper) (s : Field × RandomHelper) :
    f.spawn_random_cell g ≠ .ok s := by
  intro hs
  unfold Field.spawn_random_cell at hs
  by_cases h0 : h = 0
  · have hnil : f.cells = [] := List.length_eq_zero.1 (hr.1.trans h0)
    simp [hnil, vec_index] at hs
  · have hw0 : w = 0 := by omega
    obtain ⟨r0, -, hr0, -, hr04⟩ := rect_row hr 0 (le_refl 0) (by omega)
    obtain ⟨row, hrow, -, -⟩ :=
      random_int_ok f.random_helper 0 ((f.cells.length : Int) - 1) (by have := hr.1; omega)
    have hcol : f.random_helper.advance.random_int 0 ((r0.length : Int) - 1) =
        .error .undefined_behaviour := by
      simp [RandomHelper.random_int, hr0, hw0]
    simp only [hr04, hrow, hcol] at hs
    cases hs

theorem bit_length_zero (fuel : Nat) : bit_length fuel 0 = 0 := by
  cases fuel <;> simp [bit_length]

theorem bit_length_spec : ∀ (fuel n : Nat), n ≤ fuel →
    n < 2 ^ bit_length fuel n ∧
      (n ≠ 0 → 1 ≤ bit_length fuel n ∧ 2 ^ (bit_length fuel n - 1) ≤ n) := by
  intro fuel
  induction fuel with
  | zero =>
    intro n hn
    have : n = 0 := by omega
    subst this
    simp [bit_length]
  | succ fuel ih =>
    intro n hn
    by_cases h0 : n = 0
    · subst h0
      simp [bit_length]
    · have hhalf : n / 2 ≤ fuel := by omega
      obtain ⟨h1, h2⟩ := ih (n / 2) hhalf
      simp only [bit_length, if_neg h0]
      have hpow : 2 ^ (bit_length fuel (n / 2) + 1) = 2 * 2 ^ bit_length fuel (n / 2) := by
        rw [pow_succ]; ring
      refine ⟨by rw [hpow]; omega, fun _ => ⟨by omega, ?_⟩⟩
      simp only [Nat.add_sub_cancel]
      by_cases hz : n / 2 = 0
      · rw [hz, bit_length_zero]
        simp
        omega
      · obtain ⟨h3, h4⟩ := h2 hz
        have hpow2 : 2 ^ bit_length fuel (n / 2) = 2 * 2 ^ (bit_length fuel (n / 2) - 1) := by
          rw [← pow_succ']
          congr 1
          omega
        rw [hpow2]
        omega

theorem abs_eq_natAbs_div_den (x : ℚ) : |x| = (x.num.natAbs : ℚ) / (x.den : ℚ) := by
  conv_lhs => rw [← Rat.num_div_den x]
  rw [abs_div, Nat.cast_natAbs, Int.cast_abs]
  congr 1
  exact abs_of_pos (by exact_mod_cast x.den_pos)

theorem ilog2_spec (x : ℚ) (hx : x ≠ 0) :
    (2 : ℚ) ^ ilog2 x ≤ |x| ∧ |x| < (2 : ℚ) ^ (ilog2 x + 1) := by
  have hn0 : x.num.natAbs ≠ 0 := by
    intro h
    apply hx
    exact Rat.zero_of_num_zero (Int.natAbs_eq_zero.1 h)
  have hd0 : x.den ≠ 0 := x.den_nz
  obtain ⟨hA1, hA2⟩ := bit_length_spec x.num.natAbs x.num.natAbs (le_refl _)
  obtain ⟨hA3, hA4⟩ := hA2 hn0
  obtain ⟨hB1, hB2⟩ := bit_length_spec x.den x.den (le_refl _)
  obtain ⟨hB3, hB4⟩ := hB2 hd0
  unfold ilog2
  generalize bit_length x.num.natAbs x.num.natAbs = A at *
  generalize bit_length x.den x.den = B at *
  have habs := abs_eq_natAbs_div_den x
  have hdpos : (0 : ℚ) < (x.den : ℚ) := by exact_mod_cast x.den_pos
  have hA1q : (x.num.natAbs : ℚ) < (2 : ℚ) ^ (A : Int) := by
    rw [zpow_natCast]; exact_mod_cast hA1
  have hA4q : (2 : ℚ) ^ ((A : Int) - 1) ≤ (x.num.natAbs : ℚ) := by
    have : ((A : Int) - 1) = ((A - 1 : Nat) : Int) := by omega
    rw [this, zpow_natCast]; exact_mod_cast hA4
  have hB1q : (x.den : ℚ) < (2 : ℚ) ^ (B : Int) := by
    rw [zpow_natCast]; exact_mod_cast hB1
  have hB4q : (2 : ℚ) ^ ((B : Int) - 1) ≤ (x.den : ℚ) := by
    have : ((B : Int) - 1) = ((B - 1 : Nat) : Int) := by omega
    rw [this, zpow_natCast]; exact_mod_cast hB4
  have h2 : (2 : ℚ) ≠ 0 := by norm_num
  have hup : |x| < (2 : ℚ) ^ ((A : Int) - (B : Int) + 1) := by
    rw [habs, div_lt_iff₀ hdpos]
    have : (2 : ℚ) ^ ((A : Int) - (B : Int) + 1) = (2 : ℚ) ^ (A : Int) / (2 : ℚ) ^ ((B : Int) - 1) := by
      rw [← zpow_sub₀ h2]; congr 1; ring
    rw [this, div_mul_eq_mul_div, lt_div_iff₀ (by positivity)]
    calc (x.num.natAbs : ℚ) * (2 : ℚ) ^ ((B : Int) - 1)
        ≤ (x.num.natAbs : ℚ) * (x.den : ℚ) := by
          apply mul_le_mul_of_nonneg_left hB4q (by positivity)
      _ < (2 : ℚ) ^ (A : Int) * (x.den : ℚ) := by
          apply mul_lt_mul_of_pos_right hA1q hdpos
  have hlow : (2 : ℚ) ^ ((A : Int) - (B : Int) - 1) ≤ |x| := by
    rw [habs, le_div_iff₀ hdpos]
    have : (2 : ℚ) ^ ((A : Int) - (B : Int) - 1) = (2 : ℚ) ^ ((A : Int) - 1) / (2 : ℚ) ^ (B : Int) := by
      rw [← zpow_sub₀ h2]; congr 1; ring
    rw [this, div_mul_eq_mul_div, div_le_iff₀ (by positivity)]
    calc (2 : ℚ) ^ ((A : Int) - 1) * (x.den : ℚ)
        ≤ (x.num.natAbs : ℚ) * (x.den : ℚ) := by
          apply mul_le_mul_of_nonneg_right hA4q (le_of_lt hdpos)
      _ ≤ (x.num.natAbs : ℚ) * (2 : ℚ) ^ (B : Int) := by
          apply mul_le_mul_of_nonneg_left (le_of_lt hB1q) (by positivity)
  split
  · next h => exact ⟨h, hup⟩
  · next h =>
    refine ⟨hlow, ?_⟩
    rw [sub_add_cancel]
    exact lt_of_not_le h

theorem ilog2_lt_of_lt {x : ℚ} (hx : x ≠ 0) {k : Int} (h : |x| < (2 : ℚ) ^ k) : ilog2 x < k := by
  have h1 := (ilog2_spec x hx).1
  exact (zpow_lt_zpow_iff_right₀ (by norm_num : (1 : ℚ) < 2)).1 (lt_of_le_of_lt h1 h)

theorem le_ilog2_of_le {x : ℚ} (hx : x ≠ 0) {k : Int} (h : (2 : ℚ) ^ k ≤ |x|) : k ≤ ilog2 x := by
  have h1 := (ilog2_spec x hx).2
  have := (zpow_lt_zpow_iff_right₀ (by norm_num : (1 : ℚ) < 2)).1 (lt_of_le_of_lt h h1)
  omega

theorem ilog2_neg (x : ℚ) : ilog2 (-x) = ilog2 x := by
  simp [ilog2]

theorem ilog2_mono {x y : ℚ} (hx : x ≠ 0) (hy : y ≠ 0) (h : |x| ≤ |y|) : ilog2 x ≤ ilog2 y :=
  le_ilog2_of_le hy (le_trans (ilog2_spec x hx).1 h)

theorem round_half_even_cases (y : ℚ) :
    (round_half_even y = ⌊y⌋ ∧ y - ⌊y⌋ < 1 / 2) ∨
    (round_half_even y = ⌊y⌋ + 1 ∧ 1 / 2 < y - ⌊y⌋) ∨
    (y - ⌊y⌋ = 1 / 2 ∧ ⌊y⌋ % 2 = 0 ∧ round_half_even y = ⌊y⌋) ∨
    (y - ⌊y⌋ = 1 / 2 ∧ ⌊y⌋ % 2 = 1 ∧ round_half_even y = ⌊y⌋ + 1) := by
  unfold round_half_even
  by_cases h1 : y - ⌊y⌋ < 1 / 2
  · left
    rw [if_pos h1]
    exact ⟨rfl, h1⟩
  · by_cases h2 : 1 / 2 < y - ⌊y⌋
    · right; left
      rw [if_neg h1, if_pos h2]
      exact ⟨rfl, h2⟩
    · have heq : y - ⌊y⌋ = 1 / 2 := le_antisymm (not_lt.1 h2) (not_lt.1 h1)
      by_cases h3 : ⌊y⌋ % 2 = 0
      · right; right; left
        rw [if_neg h1, if_neg h2, if_pos h3]
        exact ⟨heq, h3, rfl⟩
      · right; right; right
        rw [if_neg h1, if_neg h2, if_neg h3]
        exact ⟨heq, by omega, rfl⟩

theorem round_half_even_error (y : ℚ) : |(round_half_even y : ℚ) - y| ≤ 1 / 2 := by
  have h0 : (⌊y⌋ : ℚ) ≤ y := Int.floor_le y
  have h1 : y < (⌊y⌋ : ℚ) + 1 := Int.lt_floor_add_one y
  rw [abs_le]
  rcases round_half_even_cases y with ⟨h, hf⟩ | ⟨h, hf⟩ | ⟨hf, -, h⟩ | ⟨hf, -, h⟩ <;>
    rw [h] <;> push_cast <;> constructor <;> linarith

theorem round_half_even_int (n : Int) : round_half_even (n : ℚ) = n := by
  unfold round_half_even
  simp

theorem round_half_even_mono {a b : ℚ} (h : a ≤ b) : round_half_even a ≤ round_half_even b := by
  have ha0 : (⌊a⌋ : ℚ) ≤ a := Int.floor_le a
  have hb1 : b < (⌊b⌋ : ℚ) + 1 := Int.lt_floor_add_one b
  have hfl : ⌊a⌋ ≤ ⌊b⌋ := Int.floor_mono h
  by_cases hlt : ⌊a⌋ < ⌊b⌋
  · have hA : round_half_even a ≤ ⌊a⌋ + 1 := by
      rcases round_half_even_cases a with ⟨h1, -⟩ | ⟨h1, -⟩ | ⟨-, -, h1⟩ | ⟨-, -, h1⟩ <;> omega
    have hB : ⌊b⌋ ≤ round_half_even b := by
      rcases round_half_even_cases b with ⟨h1, -⟩ | ⟨h1, -⟩ | ⟨-, -, h1⟩ | ⟨-, -, h1⟩ <;> omega
    omega
  · have heq : ⌊a⌋ = ⌊b⌋ := by omega
    have hq : (⌊a⌋ : ℚ) = (⌊b⌋ : ℚ) := by rw [heq]
    rcases round_half_even_cases a with ⟨h1, f1⟩ | ⟨h1, f1⟩ | ⟨f1, p1, h1⟩ | ⟨f1, p1, h1⟩ <;>
      rcases round_half_even_cases b with ⟨h2, f2⟩ | ⟨h2, f2⟩ | ⟨f2, p2, h2⟩ | ⟨f2, p2, h2⟩ <;>
      first
      | omega
      | (exfalso; linarith)

theorem round_half_even_neg (y : ℚ) : round_half_even (-y) = -round_half_even y := by
  by_cases hint : (⌊y⌋ : ℚ) = y
  · rw [← hint, ← Int.cast_neg, round_half_even_int, round_half_even_int]
  · have h0 : (⌊y⌋ : ℚ) < y := lt_of_le_of_ne (Int.floor_le y) hint
    have h1 : y < (⌊y⌋ : ℚ) + 1 := Int.lt_floor_add_one y
    have hfl : ⌊-y⌋ = -⌊y⌋ - 1 := by
      rw [Int.floor_eq_iff]
      push_cast
      constructor <;> linarith
    have hq : (⌊-y⌋ : ℚ) = -(⌊y⌋ : ℚ) - 1 := by rw [hfl]; push_cast; ring
    rcases round_half_even_cases y with ⟨h2, f2⟩ | ⟨h2, f2⟩ | ⟨f2, p2, h2⟩ | ⟨f2, p2, h2⟩ <;>
      rcases round_half_even_cases (-y) with ⟨h3, f3⟩ | ⟨h3, f3⟩ | ⟨f3, p3, h3⟩ | ⟨f3, p3, h3⟩ <;>
      first
      | omega
      | (exfalso; rw [hq] at f3; linarith)

theorem round_half_even_nonneg {y : ℚ} (h : 0 ≤ y) : 0 ≤ round_half_even y := by
  have := round_half_even_mono h
  rwa [show (0 : ℚ) = ((0 : Int) : ℚ) by simp, round_half_even_int] at this

theorem two_zpow_pos (e : Int) : (0 : ℚ) < (2 : ℚ) ^ e := by positivity

theorem two_zpow_le {a b : Int} (h : a ≤ b) : (2 : ℚ) ^ a ≤ (2 : ℚ) ^ b :=
  (zpow_le_zpow_iff_right₀ (by norm_num : (1 : ℚ) < 2)).2 h

theorem binary64_exponent_neg (x : ℚ) : binary64_exponent (-x) = binary64_exponent x := by
  simp [binary64_exponent, ilog2_neg]

theorem binary64_exponent_ge (x : ℚ) : -1074 ≤ binary64_exponent x := le_max_right _ _

theorem binary64_exponent_ge_log (x : ℚ) : ilog2 x - 52 ≤ binary64_exponent x := le_max_left _ _

theorem round_binary64_neg (x : ℚ) : round_binary64 (-x) = -round_binary64 x := by
  simp only [round_binary64, binary64_exponent_neg, neg_div, round_half_even_neg, Int.cast_neg,
    neg_mul]

theorem round_binary64_zero : round_binary64 0 = 0 := by
  have := round_half_even_int 0
  simp only [Int.cast_zero] at this
  simp [round_binary64, this]

theorem round_binary64_error (x : ℚ) :
    |round_binary64 x - x| ≤ (2 : ℚ) ^ binary64_exponent x / 2 := by
  have hp := two_zpow_pos (binary64_exponent x)
  have hx : x = x / (2 : ℚ) ^ binary64_exponent x * (2 : ℚ) ^ binary64_exponent x := by
    field_simp
  have h := round_half_even_error (x / (2 : ℚ) ^ binary64_exponent x)
  have heq : round_binary64 x - x =
      ((round_half_even (x / (2 : ℚ) ^ binary64_exponent x) : ℚ) -
        x / (2 : ℚ) ^ binary64_exponent x) * (2 : ℚ) ^ binary64_exponent x := by
    rw [sub_mul, ← hx]
    rfl
  rw [heq, abs_mul, abs_of_pos hp]
  calc _ ≤ 1 / 2 * (2 : ℚ) ^ binary64_exponent x := mul_le_mul_of_nonneg_right h (le_of_lt hp)
    _ = _ := by ring

theorem binary64_exponent_le {x : ℚ} (hx : x ≠ 0) {k : Int} (h : |x| ≤ (2 : ℚ) ^ k)
    (hk : -1022 ≤ k) : binary64_exponent x ≤ k - 52 := by
  have h1 : |x| < (2 : ℚ) ^ (k + 1) :=
    lt_of_le_of_lt h ((zpow_lt_zpow_iff_right₀ (by norm_num : (1 : ℚ) < 2)).2 (by omega))
  have h2 := ilog2_lt_of_lt hx h1
  unfold binary64_exponent
  omega

theorem round_binary64_error_pow {x : ℚ} {k : Int} (h : |x| ≤ (2 : ℚ) ^ k) (hk : -1022 ≤ k) :
    |round_binary64 x - x| ≤ (2 : ℚ) ^ (k - 53) := by
  by_cases hx : x = 0
  · subst hx
    rw [round_binary64_zero]
    simp only [sub_zero, abs_zero]
    exact le_of_lt (two_zpow_pos _)
  · have h1 := round_binary64_error x
    have h2 := binary64_exponent_le hx h hk
    have h3 : (2 : ℚ) ^ binary64_exponent x / 2 = (2 : ℚ) ^ (binary64_exponent x - 1) := by
      rw [zpow_sub₀ (by norm_num : (2 : ℚ) ≠ 0), zpow_one]
    rw [h3] at h1
    exact le_trans h1 (two_zpow_le (by omega))

theorem round_binary64_nonneg {x : ℚ} (h : 0 ≤ x) : 0 ≤ round_binary64 x := by
  unfold round_binary64
  have hp := two_zpow_pos (binary64_exponent x)
  have : 0 ≤ round_half_even (x / (2 : ℚ) ^ binary64_exponent x) :=
    round_half_even_nonneg (div_nonneg h (le_of_lt hp))
  have : (0 : ℚ) ≤ (round_half_even (x / (2 : ℚ) ^ binary64_exponent x) : ℚ) := by
    exact_mod_cast this
  positivity

theorem round_binary64_nonpos {x : ℚ} (h : x ≤ 0) : round_binary64 x ≤ 0 := by
  have := round_binary64_nonneg (neg_nonneg.2 h)
  rw [round_binary64_neg] at this
  linarith

theorem scaled_lt {x : ℚ} (hx : x ≠ 0) :
    |x| / (2 : ℚ) ^ binary64_exponent x < (2 : ℚ) ^ (53 : Int) := by
  have hp := two_zpow_pos (binary64_exponent x)
  rw [div_lt_iff₀ hp, ← zpow_add₀ (by norm_num : (2 : ℚ) ≠ 0)]
  have h1 := (ilog2_spec x hx).2
  have h2 := binary64_exponent_ge_log x
  exact lt_of_lt_of_le h1 (two_zpow_le (by omega))

theorem scaled_ge {x : ℚ} (hx : x ≠ 0) (hn : binary64_exponent x = ilog2 x - 52) :
    (2 : ℚ) ^ (52 : Int) ≤ |x| / (2 : ℚ) ^ binary64_exponent x := by
  have hp := two_zpow_pos (binary64_exponent x)
  rw [le_div_iff₀ hp, ← zpow_add₀ (by norm_num : (2 : ℚ) ≠ 0)]
  have h1 := (ilog2_spec x hx).1
  exact le_trans (two_zpow_le (by omega)) h1

theorem round_binary64_representable_lt (m e : Int) (hm : |m| < 2 ^ 53) (he : -1074 ≤ e) :
    round_binary64 ((m : ℚ) * (2 : ℚ) ^ e) = (m : ℚ) * (2 : ℚ) ^ e := by
  by_cases hm0 : m = 0
  · subst hm0
    simp [round_binary64_zero]
  · have hx : (m : ℚ) * (2 : ℚ) ^ e ≠ 0 := by
      have : (m : ℚ) ≠ 0 := by exact_mod_cast hm0
      have := two_zpow_pos e
      positivity
    have habs : |(m : ℚ) * (2 : ℚ) ^ e| < (2 : ℚ) ^ (e + 53) := by
      rw [abs_mul, abs_of_pos (two_zpow_pos e), zpow_add₀ (by norm_num : (2 : ℚ) ≠ 0), mul_comm]
      apply mul_lt_mul_of_pos_left _ (two_zpow_pos e)
      have : |(m : ℚ)| = ((|m| : Int) : ℚ) := by simp
      rw [this]
      have h53 : ((2 : ℚ) ^ (53 : Int)) = (((2 : Int) ^ 53 : Int) : ℚ) := by norm_num
      rw [h53]
      exact_mod_cast hm
    have hlog := ilog2_lt_of_lt hx habs
    have hE : binary64_exponent ((m : ℚ) * (2 : ℚ) ^ e) ≤ e := by
      unfold binary64_exponent
      omega
    obtain ⟨d, hd⟩ : ∃ d : Nat, e = binary64_exponent ((m : ℚ) * (2 : ℚ) ^ e) + d :=
      ⟨(e - binary64_exponent ((m : ℚ) * (2 : ℚ) ^ e)).toNat, by omega⟩
    unfold round_binary64
    generalize binary64_exponent ((m : ℚ) * (2 : ℚ) ^ e) = E at *
    have hp := two_zpow_pos E
    have hscaled : (m : ℚ) * (2 : ℚ) ^ e / (2 : ℚ) ^ E = ((m * 2 ^ d : Int) : ℚ) := by
      rw [hd, zpow_add₀ (by norm_num : (2 : ℚ) ≠ 0), zpow_natCast]
      push_cast
      field_simp
      ring
    rw [hscaled, round_half_even_int, ← hscaled]
    field_simp

theorem round_binary64_representable (m e : Int) (hm : |m| ≤ 2 ^ 53) (he : -1074 ≤ e) :
    round_binary64 ((m : ℚ) * (2 : ℚ) ^ e) = (m : ℚ) * (2 : ℚ) ^ e := by
  by_cases hlt : |m| < 2 ^ 53
  · exact round_binary64_representable_lt m e hlt he
  · have heq : |m| = 2 ^ 53 := by omega
    have hm2 : m = 2 * (m / 2) := by
      rcases abs_cases m with ⟨h1, -⟩ | ⟨h1, -⟩ <;> omega
    have hval : (m : ℚ) * (2 : ℚ) ^ e = ((m / 2 : Int) : ℚ) * (2 : ℚ) ^ (e + 1) := by
      rw [zpow_add₀ (by norm_num : (2 : ℚ) ≠ 0), zpow_one]
      conv_lhs => rw [hm2]
      push_cast
      ring
    rw [hval]
    apply round_binary64_representable_lt _ _ _ (by omega)
    rcases abs_cases m with ⟨h1, -⟩ | ⟨h1, -⟩ <;> rcases abs_cases (m / 2) with ⟨h2, -⟩ | ⟨h2, -⟩ <;>
      omega

theorem round_half_even_scaled_le (x : ℚ) :
    |round_half_even (x / (2 : ℚ) ^ binary64_exponent x)| ≤ 2 ^ 53 := by
  by_cases hx : x = 0
  · subst hx
    have := round_half_even_int 0
    simp only [Int.cast_zero] at this
    simp [this]
  · have h1 := scaled_lt hx
    have hp := two_zpow_pos (binary64_exponent x)
    rw [← abs_of_pos hp, ← abs_div] at h1
    rw [abs_lt] at h1
    have h53 : ((2 : ℚ) ^ (53 : Int)) = (((2 : Int) ^ 53 : Int) : ℚ) := by norm_num
    rw [h53] at h1
    have hup := round_half_even_mono (le_of_lt h1.2)
    have hlo := round_half_even_mono (le_of_lt h1.1)
    rw [round_half_even_int] at hup
    rw [← Int.cast_neg, round_half_even_int] at hlo
    rw [abs_le]
    exact ⟨hlo, hup⟩

theorem round_binary64_idem (x : ℚ) : round_binary64 (round_binary64 x) = round_binary64 x := by
  conv_lhs => rw [round_binary64]
  conv_rhs => rw [round_binary64]
  exact round_binary64_representable _ _ (round_half_even_scaled_le x) (binary64_exponent_ge x)

theorem binary64_exponent_mono {x y : ℚ} (hx : x ≠ 0) (hy : y ≠ 0) (h : |x| ≤ |y|) :
    binary64_exponent x ≤ binary64_exponent y := by
  have := ilog2_mono hx hy h
  unfold binary64_exponent
  omega

theorem round_binary64_mono_pos {x y : ℚ} (hx : 0 < x) (h : x ≤ y) :
    round_binary64 x ≤ round_binary64 y := by
  have hy : 0 < y := lt_of_lt_of_le hx h
  have hx0 : x ≠ 0 := ne_of_gt hx
  have hy0 : y ≠ 0 := ne_of_gt hy
  have hE := binary64_exponent_mono hx0 hy0 (by rw [abs_of_pos hx, abs_of_pos hy]; exact h)
  have hpx := two_zpow_pos (binary64_exponent x)
  have hpy := two_zpow_pos (binary64_exponent y)
  by_cases heq : binary64_exponent x = binary64_exponent y
  · unfold round_binary64
    rw [heq]
    apply mul_le_mul_of_nonneg_right _ (le_of_lt hpy)
    have : x / (2 : ℚ) ^ binary64_exponent y ≤ y / (2 : ℚ) ^ binary64_exponent y :=
      div_le_div_of_nonneg_right h (le_of_lt hpy)
    exact_mod_cast round_half_even_mono this
  · have hlt : binary64_exponent x < binary64_exponent y := lt_of_le_of_ne hE heq
    have hnormal : binary64_exponent y = ilog2 y - 52 := by
      have := binary64_exponent_ge x
      unfold binary64_exponent at hlt ⊢
      omega
    have h1 := scaled_lt hx0
    have h2 := scaled_ge hy0 hnormal
    rw [abs_of_pos hx] at h1
    rw [abs_of_pos hy] at h2
    have h53 : ((2 : ℚ) ^ (53 : Int)) = (((2 : Int) ^ 53 : Int) : ℚ) := by norm_num
    have h52 : ((2 : ℚ) ^ (52 : Int)) = (((2 : Int) ^ 52 : Int) : ℚ) := by norm_num
    rw [h53] at h1
    rw [h52] at h2
    have hup := round_half_even_mono (le_of_lt h1)
    have hlo := round_half_even_mono h2
    rw [round_half_even_int] at hup hlo
    have hupq : (round_half_even (x / (2 : ℚ) ^ binary64_exponent x) : ℚ) ≤ (2 : ℚ) ^ (53 : Int) := by
      rw [h53]; exact_mod_cast hup
    have hloq : (2 : ℚ) ^ (52 : Int) ≤ (round_half_even (y / (2 : ℚ) ^ binary64_exponent y) : ℚ) := by
      rw [h52]; exact_mod_cast hlo
    unfold round_binary64
    calc (round_half_even (x / (2 : ℚ) ^ binary64_exponent x) : ℚ) * (2 : ℚ) ^ binary64_exponent x
        ≤ (2 : ℚ) ^ (53 : Int) * (2 : ℚ) ^ binary64_exponent x :=
          mul_le_mul_of_nonneg_right hupq (le_of_lt hpx)
      _ = (2 : ℚ) ^ (53 + binary64_exponent x) := by
          rw [zpow_add₀ (by norm_num : (2 : ℚ) ≠ 0)]
      _ ≤ (2 : ℚ) ^ (52 + binary64_exponent y) := two_zpow_le (by omega)
      _ = (2 : ℚ) ^ (52 : Int) * (2 : ℚ) ^ binary64_exponent y := by
          rw [zpow_add₀ (by norm_num : (2 : ℚ) ≠ 0)]
      _ ≤ _ := mul_le_mul_of_nonneg_right hloq (le_of_lt hpy)

theorem round_binary64_mono {x y : ℚ} (h : x ≤ y) : round_binary64 x ≤ round_binary64 y := by
  by_cases hx : 0 < x
  · exact round_binary64_mono_pos hx h
  · by_cases hy : y < 0
    · have := round_binary64_mono_pos (neg_pos.2 hy) (neg_le_neg h)
      rw [round_binary64_neg, round_binary64_neg] at this
      linarith
    · exact le_trans (round_binary64_nonpos (not_lt.1 hx)) (round_binary64_nonneg (not_lt.1 hy))

theorem of_rat_cases (x : ℚ) :
    (Double.of_rat x = .finite (round_binary64 x) ∧ |round_binary64 x| < (2 : ℚ) ^ (1024 : Nat)) ∨
    (Double.of_rat x = .pos_inf ∧ 0 < x ∧ (2 : ℚ) ^ (1024 : Nat) ≤ |round_binary64 x|) ∨
    (Double.of_rat x = .neg_inf ∧ x ≤ 0 ∧ (2 : ℚ) ^ (1024 : Nat) ≤ |round_binary64 x|) := by
  unfold Double.of_rat
  by_cases h : (2 : ℚ) ^ (1024 : Nat) ≤ |round_binary64 x|
  · rw [if_pos h]
    by_cases hx : 0 < x
    · right; left
      rw [if_pos hx]
      exact ⟨rfl, hx, h⟩
    · right; right
      rw [if_neg hx]
      exact ⟨rfl, not_lt.1 hx, h⟩
  · left
    rw [if_neg h]
    exact ⟨rfl, not_le.1 h⟩

theorem of_rat_finite {x : ℚ} {k : Int} (h : |x| ≤ (2 : ℚ) ^ k) (hk : -1022 ≤ k)
    (hk2 : k ≤ 1000) :
    Double.of_rat x = .finite (round_binary64 x) ∧
      |round_binary64 x - x| ≤ (2 : ℚ) ^ (k - 53) := by
  have herr := round_binary64_error_pow h hk
  refine ⟨?_, herr⟩
  unfold Double.of_rat
  rw [if_neg]
  rw [not_le]
  have h1 : |round_binary64 x| ≤ |round_binary64 x - x| + |x| := by
    have := abs_add (round_binary64 x - x) x
    simpa using this
  have h2 : (2 : ℚ) ^ (k - 53) ≤ (2 : ℚ) ^ k := two_zpow_le (by omega)
  have h3 : (2 : ℚ) ^ k + (2 : ℚ) ^ k = (2 : ℚ) ^ (k + 1) := by
    rw [zpow_add₀ (by norm_num : (2 : ℚ) ≠ 0), zpow_one]; ring
  have h4 : (2 : ℚ) ^ (k + 1) < (2 : ℚ) ^ ((1024 : Nat) : Int) :=
    (zpow_lt_zpow_iff_right₀ (by norm_num : (1 : ℚ) < 2)).2 (by omega)
  rw [zpow_natCast] at h4
  linarith

theorem frame_interval_finite {c : Clock} {fi : ℚ} (h : c.frame_interval = .finite fi) :
    round_binary64 fi = fi ∧ |fi| < (2 : ℚ) ^ (1024 : Nat) := by
  have hzero : round_binary64 (0 : ℚ) = 0 ∧ |(0 : ℚ)| < (2 : ℚ) ^ (1024 : Nat) :=
    ⟨round_binary64_zero, by simp⟩
  unfold Clock.frame_interval Double.of_int at h
  rcases of_rat_cases (c.max_fps : ℚ) with ⟨h1, -⟩ | ⟨h1, -⟩ | ⟨h1, -⟩
  · rw [h1] at h
    simp only [Double.div] at h
    split at h
    · simp at h
    · rcases of_rat_cases (1 / round_binary64 (c.max_fps : ℚ)) with ⟨h2, h3⟩ | ⟨h2, -⟩ | ⟨h2, -⟩
      · rw [h2] at h
        injection h with h
        rw [← h]
        exact ⟨round_binary64_idem _, h3⟩
      · rw [h2] at h; cases h
      · rw [h2] at h; cases h
  · rw [h1] at h
    simp only [Double.div] at h
    injection h with h
    rw [← h]; exact hzero
  · rw [h1] at h
    simp only [Double.div] at h
    injection h with h
    rw [← h]; exact hzero

theorem of_int_exact {m : Int} (h0 : 0 < m) (h1 : m < 2 ^ 31) :
    Double.of_int m = .finite (m : ℚ) := by
  have hrep : round_binary64 (m : ℚ) = (m : ℚ) := by
    have := round_binary64_representable m 0 (by rw [abs_of_pos h0]; omega) (by norm_num)
    simpa using this
  have habs : |(m : ℚ)| ≤ (2 : ℚ) ^ (31 : Int) := by
    rw [abs_of_pos (by exact_mod_cast h0)]
    have : ((2 : ℚ) ^ (31 : Int)) = (((2 : Int) ^ 31 : Int) : ℚ) := by norm_num
    rw [this]
    exact_mod_cast le_of_lt h1
  have := (of_rat_finite habs (by norm_num) (by norm_num)).1
  rw [hrep] at this
  exact this

theorem frame_interval_eq {c : Clock} (h0 : 0 < c.max_fps) (h1 : c.max_fps < 2 ^ 31) :
    c.frame_interval = .finite (round_binary64 (1 / (c.max_fps : ℚ))) ∧
      |round_binary64 (1 / (c.max_fps : ℚ)) - 1 / (c.max_fps : ℚ)| ≤ (2 : ℚ) ^ (-53 : Int) := by
  have hm : (1 : ℚ) ≤ (c.max_fps : ℚ) := by exact_mod_cast h0
  have hne : (c.max_fps : ℚ) ≠ 0 := by linarith
  have habs : |1 / (c.max_fps : ℚ)| ≤ (2 : ℚ) ^ (0 : Int) := by
    rw [abs_of_pos (by positivity), zpow_zero, div_le_one (by linarith)]
    exact hm
  obtain ⟨h2, h3⟩ := of_rat_finite habs (by norm_num) (by norm_num)
  refine ⟨?_, by simpa using h3⟩
  unfold Clock.frame_interval
  rw [of_int_exact h0 h1]
  simp only [Double.div, if_neg hne]
  exact h2

theorem tick_none_of_le {c : Clock} {now after fi : ℚ} (hfi : c.frame_interval = .finite fi)
    (hle : fi ≤ round_binary64 (now - c.last_time)) : (c.tick now after).1 = none := by
  obtain ⟨-, hbound⟩ := frame_interval_finite hfi
  have key : (Double.sub (.finite fi)
      (Double.sub (.finite now) (.finite c.last_time))).is_positive = false := by
    simp only [Double.sub]
    rcases of_rat_cases (now - c.last_time) with ⟨h1, -⟩ | ⟨h1, -⟩ | ⟨h1, h2, h3⟩
    · rw [h1]
      simp only [Double.sub]
      have hnp : fi - round_binary64 (now - c.last_time) ≤ 0 := by linarith
      rcases of_rat_cases (fi - round_binary64 (now - c.last_time)) with
        ⟨h4, -⟩ | ⟨h4, h5, -⟩ | ⟨h4, -⟩
      · rw [h4]
        simp only [Double.is_positive, decide_eq_false_iff_not, not_lt]
        exact round_binary64_nonpos hnp
      · exact absurd h5 (not_lt.2 hnp)
      · rw [h4]; rfl
    · rw [h1]; rfl
    · exfalso
      have hnp := round_binary64_nonpos h2
      rw [abs_of_nonpos hnp] at h3
      rw [abs_lt] at hbound
      linarith [hbound.1]
  simp only [Clock.tick, hfi, key]
  rfl

theorem to_useconds_of_int {r : Int} (h0 : 0 ≤ r) (h1 : r < 2 ^ 32) :
    Double.to_useconds (.finite (r : ℚ)) = r.toNat := by
  have hq : (0 : ℚ) ≤ (r : ℚ) := by exact_mod_cast h0
  simp only [Double.to_useconds, if_pos hq, Int.floor_intCast]
  rw [if_pos (by constructor <;> omega), Int.emod_eq_of_lt h0 (by omega)]

theorem tick_eq_of_finite {c : Clock} {now after fi : ℚ} (hfi : c.frame_interval = .finite fi)
    (h1 : Double.of_rat (now - c.last_time) = .finite (round_binary64 (now - c.last_time)))
    (h2 : Double.of_rat (fi - round_binary64 (now - c.last_time)) =
      .finite (round_binary64 (fi - round_binary64 (now - c.last_time)))) :
    (c.tick now after).1 =
      if 0 < round_binary64 (fi - round_binary64 (now - c.last_time)) then
        some (Double.to_useconds (Double.std_round (Double.of_rat
          (round_binary64 (fi - round_binary64 (now - c.last_time)) * 1000000))))
      else none := by
  simp only [Clock.tick, hfi, Double.sub, h1, h2, Double.is_positive, Double.mul,
    decide_eq_true_eq]

/-! ## The properties -/

/-- Claim C1: for each of the 36 pairs `get_cell_combination` returns the value of the
combination table: the result of the rule with that key for the nine listed pairs,
and `eaten` for each of the other 27 pairs. -/
theorem get_cell_combination_table :
    (∀ eater eaten, get_cell_combination eater eaten =
      lookup_rules combination_rules eater eaten) ∧
    (∀ eater eaten, (∀ r ∈ combination_rules, r.1 ≠ (eater, eaten)) →
      get_cell_combination eater eaten = eaten) ∧
    get_cell_combination .plant .food = .food ∧
    get_cell_combination .virus .food = .virus ∧
    get_cell_combination .virus .plant = .virus ∧
    get_cell_combination .water .virus = .water ∧
    get_cell_combination .plant .water = .plant ∧
    get_cell_combination .water .food = .fungus ∧
    get_cell_combination .fungus .fungus = .fungus ∧
    get_cell_combination .plant .fungus = .plant ∧
    get_cell_combination .fungus .plant = .food ∧
    get_cell_combination .dead .food = .food ∧
    combination_rules.length = 9 ∧ (combination_rules.map (fun r => r.1)).Nodup := by
  refine ⟨?_, ?_, rfl, rfl, rfl, rfl, rfl, rfl, rfl, rfl, rfl, rfl, rfl, by decide⟩
  · intro eater eaten
    cases eater <;> cases eaten <;> rfl
  · intro eater eaten
    cases eater <;> cases eaten <;> decide

theorem get_cell_combination_table_witness :
    get_cell_combination .dead .food = .food ∧ get_cell_combination .food .water = .water :=
  ⟨get_cell_combination_table.2.1 .dead .food (by decide),
    get_cell_combination_table.2.1 .food .water (by decide)⟩

/-- Claim C2: the grid returned by `generate_random_field` has no `dead` cell, and neither
has any grid obtained from it by epochs; the absence of `dead` is preserved by
`process_cell`, `spawn_random_cell` and `process_all_cells`.  With at least one row
and one column the field and every epoch are indeed returned. -/
theorem dead_unreachable (eat_rate spawn_rate : ℚ) (height width : Int) (rh g : RandomHelper) :
    (∀ f g1, generate_random_field height width rh g = .ok (f, g1) →
      NoDead f.cells ∧
        ∀ n s, run_epochs eat_rate spawn_rate n (f, g1) = .ok s → NoDead s.1.cells) ∧
    (1 ≤ height → 1 ≤ width →
      ∃ f g1, generate_random_field height width rh g = .ok (f, g1) ∧
        ∀ n, ∃ s, run_epochs eat_rate spawn_rate n (f, g1) = .ok s) ∧
    (∀ (h w : Nat) (f : Field), Rect h w f.cells → NoDead f.cells →
      (∀ row col, InBounds h w row col →
        ∃ f1, f.process_cell eat_rate row col = .ok f1 ∧ NoDead f1.cells) ∧
      (∀ g2 s, f.spawn_random_cell g2 = .ok s → NoDead s.1.cells) ∧
      (∀ g2 s, f.process_all_cells eat_rate spawn_rate g2 = .ok s → NoDead s.1.cells) ∧
      (1 ≤ h → 1 ≤ w → ∀ g2, (∃ s, f.spawn_random_cell g2 = .ok s) ∧
        ∃ s, f.process_all_cells eat_rate spawn_rate g2 = .ok s)) := by
  refine ⟨?_, ?_, ?_⟩
  · intro f g1 hgen
    obtain ⟨hr, hn⟩ := generate_random_field_sound hgen
    exact ⟨hn, fun n s hs => (run_epochs_sound eat_rate spawn_rate n _ s hr hs).2 hn⟩
  · intro hh hw
    have hh0 : 0 ≤ height := by omega
    have hw0 : 0 ≤ width := by omega
    obtain ⟨f, g1, hgen, hr, -⟩ := generate_random_field_ok hh0 hw0 rh g
    exact ⟨f, g1, hgen, fun n => run_epochs_ok (h := height.toNat) (w := width.toNat)
      (by omega) (by omega) eat_rate spawn_rate n (f, g1) hr⟩
  · intro h w f hr hn
    refine ⟨?_, ?_, ?_, ?_⟩
    · intro row col hin
      exact ⟨_, process_cell_eq hr hin eat_rate, noDead_cell_step eat_rate row col f hr hn⟩
    · intro g2 s hs
      obtain ⟨row, col, hcells⟩ := spawn_random_cell_sound hs
      rw [hcells]
      exact noDead_write hn _ _ (random_cell_ok g2).2
    · intro g2 s hs
      exact (process_all_cells_sound hr hs).2 hn
    · intro hh hw g2
      obtain ⟨row, col, -, -, -, hsp⟩ := spawn_random_cell_ok hr hh hw g2
      exact ⟨⟨_, hsp⟩, process_all_cells_ok hr hh hw eat_rate spawn_rate g2⟩

theorem dead_unreachable_witness :
    ∃ f g1, generate_random_field 2 3 (constant_helper ⟨0, 0⟩) (constant_helper ⟨0, 7⟩) =
        .ok (f, g1) ∧ NoDead f.cells ∧
      ∃ s, run_epochs EAT_RATE SPAWN_RATE 2 (f, g1) = .ok s ∧ NoDead s.1.cells := by
  obtain ⟨hsound, htotal, -⟩ :=
    dead_unreachable EAT_RATE SPAWN_RATE 2 3 (constant_helper ⟨0, 0⟩) (constant_helper ⟨0, 7⟩)
  obtain ⟨f, g1, hgen, hrun⟩ := htotal (by decide) (by decide)
  obtain ⟨s, hs⟩ := hrun 2
  exact ⟨f, g1, hgen, (hsound f g1 hgen).1, s, hs, (hsound f g1 hgen).2 2 s hs⟩

/-- Claim C3: with eat rate `1` and every draw below `1`, `process_cell` leaves in each
in-bounds orthogonal neighbour the combination of the pre-call eater and the
pre-call content of that neighbour. -/
theorem process_cell_eat_rate_one (h w : Nat) (f : Field) (row col : Int)
    (hr : Rect h w f.cells) (hin : InBounds h w row col)
    (hd : ∀ i, (f.random_helper.random_engine i).real < 1) :
    ∃ f1 eater, f.process_cell 1 row col = .ok f1 ∧ cell_at f.cells row col = some eater ∧
      ∀ nrow ncol, IsNeighbour row col nrow ncol → InBounds h w nrow ncol →
        ∃ eaten, cell_at f.cells nrow ncol = some eaten ∧
          cell_at f1.cells nrow ncol = some (get_cell_combination eater eaten) := by
  obtain ⟨eater, he⟩ := cell_at_some hr hin
  refine ⟨_, eater, process_cell_eq hr hin 1, he, ?_⟩
  intro nrow ncol hnb hn
  obtain ⟨eaten, hb⟩ := cell_at_some hr hn
  refine ⟨eaten, hb, ?_⟩
  rw [cell_step_hit hr hd row col nrow ncol hnb hn, he, hb]
  rfl

theorem process_cell_eat_rate_one_witness :
    ∃ f1, Field.process_cell 1 0 0
        ⟨[[.plant, .food], [.water, .virus]], constant_helper ⟨0, 0⟩⟩ = .ok f1 ∧
      cell_at f1.cells 0 1 = some .food ∧ cell_at f1.cells 1 0 = some .plant := by
  obtain ⟨f1, eater, h1, h2, h3⟩ := process_cell_eat_rate_one 2 2
    ⟨[[.plant, .food], [.water, .virus]], constant_helper ⟨0, 0⟩⟩ 0 0 (by decide) (by decide)
    (fun i => by simp [constant_helper])
  have he : eater = .plant := by
    have : cell_at [[Cell.plant, .food], [.water, .virus]] 0 0 = some Cell.plant := by decide
    rw [this] at h2
    exact (Option.some.inj h2).symm
  subst he
  obtain ⟨a, ha1, ha2⟩ := h3 0 1 (by decide) (by decide)
  obtain ⟨b, hb1, hb2⟩ := h3 1 0 (by decide) (by decide)
  have haf : a = .food := by
    have : cell_at [[Cell.plant, .food], [.water, .virus]] 0 1 = some Cell.food := by decide
    rw [this] at ha1
    exact (Option.some.inj ha1).symm
  have hbw : b = .water := by
    have : cell_at [[Cell.plant, .food], [.water, .virus]] 1 0 = some Cell.water := by decide
    rw [this] at hb1
    exact (Option.some.inj hb1).symm
  subst haf hbw
  exact ⟨f1, h1, ha2, hb2⟩

/-- Claim C4: on a rectangular grid the two nested loops of `process_all_cells` compute the
left fold of `process_cell` over the positions in row-major order, each of the
`h * w` positions being visited once. -/
theorem sweep_eq_fold_row_major (h w : Nat) (eat_rate : ℚ) (f : Field)
    (hr : Rect h w f.cells) :
    f.sweep eat_rate = fold_process_cell eat_rate (row_major h w) f ∧
      (∃ f1, f.sweep eat_rate = .ok f1 ∧ Rect h w f1.cells) ∧
      (row_major h w).length = h * w ∧
      (∀ p, p ∈ row_major h w ↔ InBounds h w p.1 p.2) ∧
      (row_major h w).Pairwise RowMajorLt ∧
      (row_major h w).Nodup := by
  refine ⟨?_, ⟨_, sweep_eq hr eat_rate, rect_cells_step _ _ _ hr⟩, length_row_major h w,
    mem_row_major, pairwise_row_major h w, ?_⟩
  · rw [sweep_eq hr eat_rate, fold_process_cell_eq eat_rate _ (fun p hp => (mem_row_major p).1 hp) f hr]
  · refine (pairwise_row_major h w).imp ?_
    intro p q hpq heq
    subst heq
    unfold RowMajorLt at hpq
    omega

theorem sweep_eq_fold_row_major_witness :
    Field.sweep EAT_RATE ⟨[[.virus, .plant, .food]], constant_helper ⟨0, 0⟩⟩ =
      fold_process_cell EAT_RATE [(0, 0), (0, 1), (0, 2)]
        ⟨[[.virus, .plant, .food]], constant_helper ⟨0, 0⟩⟩ :=
  (sweep_eq_fold_row_major 1 3 EAT_RATE ⟨[[.virus, .plant, .food]], constant_helper ⟨0, 0⟩⟩
    (by decide)).1

/-- Claim C5: on the 1×3 grid `[virus, plant, food]`, with every eat draw succeeding and the
spawn draw failing, one epoch yields `[virus, virus, virus]`: the call for cell
`(0, 1)` eats with the kind that cell acquired from the call for `(0, 0)`.  The sweep
that reads every eater from the grid as it was before the sweep yields
`[virus, virus, food]`; the two sweeps differ. -/
theorem in_place_sweep_differs_from_snapshot_sweep :
    epoch_cells (Field.process_all_cells EAT_RATE SPAWN_RATE
        ⟨[[.virus, .plant, .food]], step_helper 4 0 (9 / 10)⟩ (constant_helper ⟨0, 0⟩)) =
      some [[.virus, .virus, .virus]] ∧
    field_cells (Field.process_cell EAT_RATE 0 0
        ⟨[[.virus, .plant, .food]], step_helper 4 0 (9 / 10)⟩) =
      some [[.virus, .virus, .food]] ∧
    field_cells (Field.process_cell EAT_RATE 0 1
        ⟨[[.virus, .virus, .food]], (step_helper 4 0 (9 / 10)).advance⟩) =
      some [[.virus, .virus, .virus]] ∧
    field_cells (snapshot_sweep EAT_RATE (row_major 1 3)
        ⟨[[.virus, .plant, .food]], step_helper 4 0 (9 / 10)⟩) =
      some [[.virus, .virus, .food]] ∧
    field_cells (Field.sweep EAT_RATE ⟨[[.virus, .plant, .food]], step_helper 4 0 (9 / 10)⟩) ≠
      field_cells (snapshot_sweep EAT_RATE (row_major 1 3)
        ⟨[[.virus, .plant, .food]], step_helper 4 0 (9 / 10)⟩) := by
  refine ⟨by decide!, by decide!, by decide!, by decide!, by decide!⟩

/-- Claim C6: the call `process_cell(row, col)` changes neither the cell it is called on nor any cell that
is not one of its orthogonal neighbours; diagonal neighbours are among the latter. -/
theorem process_cell_frame (h w : Nat) (eat_rate : ℚ) (f : Field) (row col : Int)
    (hr : Rect h w f.cells) (hin : InBounds h w row col) :
    ∃ f1, f.process_cell eat_rate row col = .ok f1 ∧ Rect h w f1.cells ∧
      cell_at f1.cells row col = cell_at f.cells row col ∧
      (∀ r c, ¬ IsNeighbour row col r c → cell_at f1.cells r c = cell_at f.cells r c) ∧
      cell_at f1.cells (row - 1) (col - 1) = cell_at f.cells (row - 1) (col - 1) ∧
      cell_at f1.cells (row - 1) (col + 1) = cell_at f.cells (row - 1) (col + 1) ∧
      cell_at f1.cells (row + 1) (col - 1) = cell_at f.cells (row + 1) (col - 1) ∧
      cell_at f1.cells (row + 1) (col + 1) = cell_at f.cells (row + 1) (col + 1) := by
  have key : ∀ r c, ¬ IsNeighbour row col r c →
      cell_at (cell_step h w eat_rate row col f).cells r c = cell_at f.cells r c :=
    fun r c hne => cell_step_other hr eat_rate row col r c hne
  refine ⟨_, process_cell_eq hr hin eat_rate, rect_cell_step hr _ _ _, ?_, key, ?_, ?_, ?_, ?_⟩ <;>
    (apply key; unfold IsNeighbour; omega)

theorem process_cell_frame_witness :
    ∃ f1, Field.process_cell EAT_RATE 0 0
        ⟨[[.plant, .food], [.water, .virus]], constant_helper ⟨0, 0⟩⟩ = .ok f1 ∧
      cell_at f1.cells 0 0 = some .plant ∧ cell_at f1.cells 1 1 = some .virus := by
  obtain ⟨f1, h1, -, h2, -, -, -, -, h3⟩ := process_cell_frame 2 2 EAT_RATE
    ⟨[[.plant, .food], [.water, .virus]], constant_helper ⟨0, 0⟩⟩ 0 0 (by decide) (by decide)
  exact ⟨f1, h1, h2, h3⟩

/-- Claim C7: with eat rate `0` and spawn rate `0`, and draws that are not negative, any
number of epochs on a rectangular grid returns the grid unchanged (and leaves the
static helper untouched). -/
theorem run_epochs_rate_zero_unchanged (h w : Nat) (f : Field) (g : RandomHelper) (n : Nat)
    (hr : Rect h w f.cells) (hd : ∀ i, 0 ≤ (f.random_helper.random_engine i).real) :
    ∃ s, run_epochs 0 0 n (f, g) = .ok s ∧ s.1.cells = f.cells ∧ s.2 = g := by
  obtain ⟨f1, h1, h2⟩ := run_epochs_rate_zero g n f hr hd
  exact ⟨(f1, g), h1, h2, rfl⟩

theorem run_epochs_rate_zero_unchanged_witness :
    ∃ s, run_epochs 0 0 3 (⟨[[.plant, .food], [.water, .virus]], constant_helper ⟨0, 0⟩⟩,
        constant_helper ⟨0, 0⟩) = .ok s ∧
      s.1.cells = [[.plant, .food], [.water, .virus]] ∧ s.2 = constant_helper ⟨0, 0⟩ :=
  run_epochs_rate_zero_unchanged 2 2
    ⟨[[.plant, .food], [.water, .virus]], constant_helper ⟨0, 0⟩⟩ (constant_helper ⟨0, 0⟩) 3
    (by decide) (fun i => by simp [constant_helper])

/-- Claim C8: a field built by `Field(height, width)` with `height ≥ 1` and `width ≥ 1`
has `height` rows of `width` cells, and so has the field after any number of epochs,
whatever the draws and the rates. -/
theorem field_dimensions_invariant (eat_rate spawn_rate : ℚ) (height width : Int)
    (rh g : RandomHelper) (hh : 1 ≤ height) (hw : 1 ≤ width) :
    ∃ f, Field.new height width rh = .ok f ∧
      ((f.cells.length : Int) = height ∧ ∀ r ∈ f.cells, (r.length : Int) = width) ∧
      ∀ n, ∃ s, run_epochs eat_rate spawn_rate n (f, g) = .ok s ∧
        (s.1.cells.length : Int) = height ∧ ∀ r ∈ s.1.cells, (r.length : Int) = width := by
  have hrect := rect_replicate height.toNat width.toNat
  have key : ∀ cells : List (List Cell), Rect height.toNat width.toNat cells →
      (cells.length : Int) = height ∧ ∀ r ∈ cells, (r.length : Int) = width := by
    intro cells hc
    refine ⟨by have := hc.1; omega, ?_⟩
    intro r hr
    have := hc.2 r hr
    omega
  refine ⟨_, field_new_ok (by omega) (by omega) rh, key _ hrect, ?_⟩
  intro n
  obtain ⟨s, hs⟩ := run_epochs_ok (h := height.toNat) (w := width.toNat) (by omega) (by omega)
    eat_rate spawn_rate n (⟨_, rh⟩, g) hrect
  exact ⟨s, hs, key _ (run_epochs_sound eat_rate spawn_rate n _ s hrect hs).1⟩

theorem field_dimensions_invariant_witness :
    ∃ f, Field.new 2 3 (constant_helper ⟨0, 0⟩) = .ok f ∧
      ((f.cells.length : Int) = 2 ∧ ∀ r ∈ f.cells, (r.length : Int) = 3) ∧
      ∀ n, ∃ s, run_epochs EAT_RATE SPAWN_RATE n (f, constant_helper ⟨0, 0⟩) = .ok s ∧
        (s.1.cells.length : Int) = 2 ∧ ∀ r ∈ s.1.cells, (r.length : Int) = 3 :=
  field_dimensions_invariant EAT_RATE SPAWN_RATE 2 3 (constant_helper ⟨0, 0⟩)
    (constant_helper ⟨0, 0⟩) (by decide) (by decide)

/-- Claim C9: on a rectangular grid with at least one row and one column,
`spawn_random_cell` draws a row in `[0, height-1]`, a column in `[0, width-1]` and a
cell kind other than `dead`, writes that kind at the drawn position and leaves
every other cell unchanged. -/
theorem spawn_random_cell_spec (h w : Nat) (f : Field) (g : RandomHelper)
    (hr : Rect h w f.cells) (hh : 1 ≤ h) (hw : 1 ≤ w) :
    ∃ row col option c rh1 rh2 g1 f1,
      f.random_helper.random_int 0 ((h : Int) - 1) = .ok (row, rh1) ∧
      rh1.random_int 0 ((w : Int) - 1) = .ok (col, rh2) ∧
      g.random_int 1 5 = .ok (option, g1) ∧ random_cell_switch option = .ok c ∧
      InBounds h w row col ∧ (1 ≤ option ∧ option ≤ 5) ∧ c ≠ .dead ∧
      f.spawn_random_cell g = .ok (f1, g1) ∧
      Rect h w f1.cells ∧
      cell_at f1.cells row col = some c ∧
      ∀ r1 c1, ¬ (r1 = row ∧ c1 = col) → cell_at f1.cells r1 c1 = cell_at f.cells r1 c1 := by
  obtain ⟨row, col, hin, hrow, hcol, hsp⟩ := spawn_random_cell_ok hr hh hw g
  obtain ⟨option, hopt, h1, h5⟩ := random_int_ok g 1 5 (by decide)
  obtain ⟨c, hc, hne⟩ := random_cell_switch_ok h1 h5
  have hrc : random_cell g = .ok (c, g.advance) := by simp [random_cell, hopt, hc]
  have hdc : drawn_cell g = c := by simp [drawn_cell, hrc]
  rw [hdc] at hsp
  refine ⟨row, col, option, c, _, _, _, _, hrow, hcol, hopt, hc, hin, ⟨h1, h5⟩, hne, hsp,
    rect_write hr _ _ _, ?_, ?_⟩
  · simp [cell_at_write hr hin]
  · intro r1 c1 hne1
    simp [cell_at_write hr hin, hne1]

theorem spawn_random_cell_spec_witness :
    ∃ f1 g1, Field.spawn_random_cell ⟨[[.plant, .food], [.water, .virus]],
        constant_helper ⟨0, 3⟩⟩ (constant_helper ⟨0, 0⟩) = .ok (f1, g1) ∧
      Rect 2 2 f1.cells := by
  obtain ⟨row, col, option, c, rh1, rh2, g1, f1, -, -, -, -, -, -, -, hsp, hrect, -, -⟩ :=
    spawn_random_cell_spec 2 2 ⟨[[.plant, .food], [.water, .virus]], constant_helper ⟨0, 3⟩⟩
      (constant_helper ⟨0, 0⟩) (by decide) (by decide) (by decide)
  exact ⟨f1, g1, hsp, hrect⟩

/-- Claim C10: on a 1×1 field `process_cell(0, 0)` changes nothing and consumes no draw; an
epoch leaves the cell unchanged when the spawn draw fails and sets it to the
spawned kind, which is not `dead`, when the spawn draw succeeds; after any number
of epochs the cell holds the kind of the latest spawn, or its initial kind when no
epoch spawned. -/
theorem one_by_one_field (eat_rate spawn_rate : ℚ) (c : Cell) (rh g : RandomHelper) :
    Field.process_cell eat_rate 0 0 ⟨[[c]], rh⟩ = .ok ⟨[[c]], rh⟩ ∧
    (¬ rh.next.real < spawn_rate →
      Field.process_all_cells eat_rate spawn_rate ⟨[[c]], rh⟩ g =
        .ok (⟨[[c]], rh.advance⟩, g)) ∧
    (rh.next.real < spawn_rate →
      Field.process_all_cells eat_rate spawn_rate ⟨[[c]], rh⟩ g =
          .ok (⟨[[drawn_cell g]], rh.advance.advance.advance⟩, g.advance) ∧
        random_cell g = .ok (drawn_cell g, g.advance) ∧ drawn_cell g ≠ .dead) ∧
    (∀ n, ∃ s, run_epochs eat_rate spawn_rate n (⟨[[c]], rh⟩, g) = .ok s ∧
      s.1.cells = [[(latest_spawn spawn_rate n rh g).getD c]]) ∧
    (∀ n v, latest_spawn spawn_rate n rh g = some v → v ≠ .dead) := by
  refine ⟨?_, ?_, ?_, ?_, ?_⟩
  · rw [process_cell_eq (f := ⟨[[c]], rh⟩) (one_cell_rect c) (by decide), one_cell_process_cell]
  · intro hd
    rw [one_cell_epoch, if_neg hd]
  · intro hd
    rw [one_cell_epoch, if_pos hd]
    exact ⟨rfl, random_cell_ok g⟩
  · intro n
    exact one_cell_epochs eat_rate spawn_rate n c rh g
  · intro n v hv
    exact latest_spawn_ne_dead spawn_rate n rh g v hv

theorem one_by_one_field_witness :
    Field.process_all_cells EAT_RATE SPAWN_RATE ⟨[[.water]], constant_helper ⟨0, 0⟩⟩
        (constant_helper ⟨0, 0⟩) =
      .ok (⟨[[drawn_cell (constant_helper ⟨0, 0⟩)]],
        (constant_helper ⟨0, 0⟩).advance.advance.advance⟩, (constant_helper ⟨0, 0⟩).advance) :=
  ((one_by_one_field EAT_RATE SPAWN_RATE .water (constant_helper ⟨0, 0⟩)
    (constant_helper ⟨0, 0⟩)).2.2.1
      (by simp [constant_helper, RandomHelper.next, SPAWN_RATE])).1

/-- Claim C11: on a rectangular grid with at least one row and one column, `process_cell`
at an in-bounds position and `process_all_cells` return without a fault: an offset
whose target is outside the grid fails the checked probe and is skipped with no
draw and no write; for a target inside the grid every unchecked access (eater,
neighbour read, neighbour write) succeeds; row `0` exists and the spawn target is
inside the grid. -/
theorem no_fault (h w : Nat) (eat_rate spawn_rate : ℚ) (f : Field) (g : RandomHelper)
    (hr : Rect h w f.cells) (hh : 1 ≤ h) (hw : 1 ≤ w) :
    (∀ row col, InBounds h w row col →
      (∃ f1, f.process_cell eat_rate row col = .ok f1 ∧ Rect h w f1.cells) ∧
      (∀ off ∈ offsets, ¬ InBounds h w (row + off.1) (col + off.2) →
        f.probe (row + off.1) (col + off.2) = .error .out_of_range ∧
        f.process_offset eat_rate row col off = .ok f) ∧
      (∀ off ∈ offsets, InBounds h w (row + off.1) (col + off.2) →
        ∃ eater_row eater eaten_row eaten f1,
          f.probe (row + off.1) (col + off.2) = .ok eaten ∧
          vec_index f.cells row = .ok eater_row ∧ vec_index eater_row col = .ok eater ∧
          vec_index f.cells (row + off.1) = .ok eaten_row ∧
          vec_index eaten_row (col + off.2) = .ok eaten ∧
          (∀ v, ∃ cells1, vec_assign f.cells (row + off.1) (col + off.2) v = .ok cells1) ∧
          f.process_offset eat_rate row col off = .ok f1 ∧ Rect h w f1.cells)) ∧
    (∃ f1, f.sweep eat_rate = .ok f1 ∧ Rect h w f1.cells) ∧
    (∃ row0, vec_index f.cells 0 = .ok row0 ∧ row0.length = w) ∧
    (∃ row col f1 g1, InBounds h w row col ∧
      f.random_helper.random_int 0 ((h : Int) - 1) = .ok (row, f.random_helper.advance) ∧
      f.random_helper.advance.random_int 0 ((w : Int) - 1) =
        .ok (col, f.random_helper.advance.advance) ∧
      f.spawn_random_cell g = .ok (f1, g1) ∧ Rect h w f1.cells) ∧
    (∃ s, f.process_all_cells eat_rate spawn_rate g = .ok s ∧ Rect h w s.1.cells) := by
  refine ⟨?_, ⟨_, sweep_eq hr eat_rate, rect_cells_step _ _ _ hr⟩, ?_, ?_, ?_⟩
  · intro row col hin
    refine ⟨⟨_, process_cell_eq hr hin eat_rate, rect_cell_step hr _ _ _⟩, ?_, ?_⟩
    · intro off _ hout
      refine ⟨probe_out hr hout, ?_⟩
      rw [process_offset_eq hr hin, offset_step, if_neg hout]
    · intro off _ hn
      obtain ⟨a, -, -, ra, hra1, hra2⟩ := probe_in hr hin
      obtain ⟨b, -, hb2, rb, hrb1, hrb2⟩ := probe_in hr hn
      exact ⟨ra, a, rb, b, _, hb2, hra1, hra2, hrb1, hrb2,
        fun v => ⟨_, vec_assign_ok hr hn v⟩, process_offset_eq hr hin eat_rate off,
        rect_offset_step hr _ _ _ _⟩
  · obtain ⟨r0, -, hr0, -, hr04⟩ := rect_row hr 0 (le_refl 0) (by omega)
    exact ⟨r0, hr04, hr0⟩
  · obtain ⟨row, col, hin, hrow, hcol, hsp⟩ := spawn_random_cell_ok hr hh hw g
    exact ⟨row, col, _, _, hin, hrow, hcol, hsp, rect_write hr _ _ _⟩
  · obtain ⟨s, hs⟩ := process_all_cells_ok hr hh hw eat_rate spawn_rate g
    exact ⟨s, hs, (process_all_cells_sound hr hs).1⟩

theorem no_fault_witness :
    ∃ s, Field.process_all_cells EAT_RATE SPAWN_RATE
        ⟨[[.plant, .food], [.water, .virus]], constant_helper ⟨0, 0⟩⟩ (constant_helper ⟨0, 0⟩) =
          .ok s ∧ Rect 2 2 s.1.cells :=
  (no_fault 2 2 EAT_RATE SPAWN_RATE ⟨[[.plant, .food], [.water, .virus]], constant_helper ⟨0, 0⟩⟩
    (constant_helper ⟨0, 0⟩) (by decide) (by decide) (by decide)).2.2.2.2

/-- Claim C12 (as amended): for an `int` `max_fps > 0`, when the time elapsed since the
recorded timestamp is not negative and less than the interval `1 / max_fps`, the sleep
`tick` requests (the argument of `usleep` in seconds, no call counting as zero) lies
within `0.500001` microseconds of `interval - elapsed`, and `usleep` is called
whenever more than `10^-12` seconds remain. -/
theorem tick_sleep_request (c : Clock) (now after : ℚ) (hfps : 0 < c.max_fps)
    (hint : c.max_fps < 2 ^ 31) (hel0 : 0 ≤ now - c.last_time)
    (hel : now - c.last_time < 1 / (c.max_fps : ℚ)) :
    1 / (c.max_fps : ℚ) - (now - c.last_time) - (1 / 2000000 + 1 / 1000000000000) <
      requested_seconds (c.tick now after).1 ∧
    requested_seconds (c.tick now after).1 <
      1 / (c.max_fps : ℚ) - (now - c.last_time) + (1 / 2000000 + 1 / 1000000000000) ∧
    (1 / 1000000000000 < 1 / (c.max_fps : ℚ) - (now - c.last_time) →
      ∃ us, (c.tick now after).1 = some us) := by
  obtain ⟨hfi, hfierr⟩ := frame_interval_eq hfps hint
  have hm : (1 : ℚ) ≤ (c.max_fps : ℚ) := by exact_mod_cast hfps
  have hI1 : 1 / (c.max_fps : ℚ) ≤ 1 := by
    rw [div_le_one (by linarith)]; exact hm
  have hI0 : 0 < 1 / (c.max_fps : ℚ) := by positivity
  generalize 1 / (c.max_fps : ℚ) = I at *
  generalize hE : now - c.last_time = el at *
  have e53 : (2 : ℚ) ^ (-53 : Int) = 1 / 9007199254740992 := by norm_num
  rw [e53] at hfierr
  have habs_el : |el| ≤ (2 : ℚ) ^ (0 : Int) := by
    rw [abs_of_nonneg hel0, zpow_zero]; linarith
  obtain ⟨hd1, hd1err⟩ := of_rat_finite habs_el (by norm_num) (by norm_num)
  have e53' : (2 : ℚ) ^ ((0 : Int) - 53) = 1 / 9007199254740992 := by norm_num
  rw [e53'] at hd1err
  rw [abs_le] at hfierr hd1err
  have habs_t : |round_binary64 I - round_binary64 el| ≤ (2 : ℚ) ^ (1 : Int) := by
    rw [abs_le, zpow_one]
    constructor <;> linarith [hfierr.1, hfierr.2, hd1err.1, hd1err.2]
  obtain ⟨htts, httserr⟩ := of_rat_finite habs_t (by norm_num) (by norm_num)
  have e52 : (2 : ℚ) ^ ((1 : Int) - 53) = 1 / 4503599627370496 := by norm_num
  rw [e52, abs_le] at httserr
  have htick := @tick_eq_of_finite c now after _ hfi (by rw [hE]; exact hd1)
    (by rw [hE]; exact htts)
  rw [hE] at htick
  generalize round_binary64 (round_binary64 I - round_binary64 el) = t at *
  by_cases ht : 0 < t
  · rw [if_pos ht] at htick
    have habs_p : |t * 1000000| ≤ (2 : ℚ) ^ (21 : Int) := by
      rw [abs_of_pos (by positivity)]
      norm_num
      linarith [httserr.2, hfierr.2, hd1err.1]
    obtain ⟨hp, hperr⟩ := of_rat_finite habs_p (by norm_num) (by norm_num)
    have e32 : (2 : ℚ) ^ ((21 : Int) - 53) = 1 / 4294967296 := by norm_num
    rw [e32, abs_le] at hperr
    have hpp0 : 0 ≤ round_binary64 (t * 1000000) := round_binary64_nonneg (by positivity)
    rw [hp] at htick
    generalize round_binary64 (t * 1000000) = pp at *
    simp only [Double.std_round, if_pos hpp0] at htick
    have hr1 : ((⌊pp + 1 / 2⌋ : Int) : ℚ) ≤ pp + 1 / 2 := Int.floor_le _
    have hr2 : pp + 1 / 2 < ((⌊pp + 1 / 2⌋ : Int) : ℚ) + 1 := Int.lt_floor_add_one _
    have hr0 : 0 ≤ ⌊pp + 1 / 2⌋ := Int.floor_nonneg.2 (by linarith)
    have hr32 : ⌊pp + 1 / 2⌋ < 2 ^ 32 := by
      have : ((⌊pp + 1 / 2⌋ : Int) : ℚ) < ((2 ^ 32 : Int) : ℚ) := by
        norm_num
        linarith [hperr.2, httserr.2, hfierr.2, hd1err.1]
      exact_mod_cast this
    rw [to_useconds_of_int hr0 hr32] at htick
    generalize ⌊pp + 1 / 2⌋ = r at *
    have hcast : ((r.toNat : Nat) : ℚ) = (r : ℚ) := by
      have : ((r.toNat : Nat) : Int) = r := Int.toNat_of_nonneg hr0
      exact_mod_cast this
    rw [htick]
    simp only [requested_seconds, hcast]
    refine ⟨?_, ?_, fun _ => ⟨_, rfl⟩⟩
    · rw [lt_div_iff₀ (by norm_num)]
      linarith [hperr.1, httserr.1, hfierr.1, hd1err.2]
    · rw [div_lt_iff₀ (by norm_num)]
      linarith [hperr.2, httserr.2, hfierr.2, hd1err.1]
  · rw [if_neg ht] at htick
    rw [htick]
    simp only [requested_seconds]
    have ht' := not_lt.1 ht
    refine ⟨by linarith [httserr.1, hfierr.1, hd1err.2], by linarith, ?_⟩
    intro hrem
    exfalso
    linarith [httserr.1, hfierr.1, hd1err.2]

theorem tick_sleep_request_witness :
    1 / (((Clock.new 60).max_fps : Int) : ℚ) - (1 / 128 - (Clock.new 60).last_time) -
        (1 / 2000000 + 1 / 1000000000000) <
      requested_seconds ((Clock.new 60).tick (1 / 128) 1).1 ∧
    requested_seconds ((Clock.new 60).tick (1 / 128) 1).1 <
      1 / (((Clock.new 60).max_fps : Int) : ℚ) - (1 / 128 - (Clock.new 60).last_time) +
        (1 / 2000000 + 1 / 1000000000000) :=
  ⟨(tick_sleep_request (Clock.new 60) (1 / 128) 1 (by decide) (by decide)
      (by simp only [Clock.new]; norm_num) (by simp only [Clock.new]; norm_num)).1,
    (tick_sleep_request (Clock.new 60) (1 / 128) 1 (by decide) (by decide)
      (by simp only [Clock.new]; norm_num) (by simp only [Clock.new]; norm_num)).2.1⟩

theorem tick_sleep_request_counterexample :
    (0 < FPS_LIMIT ∧ (100 + 1 / 4194304 : ℚ) - 100 < 1 / (FPS_LIMIT : ℚ) ∧
      (Clock.tick ⟨FPS_LIMIT, 100⟩ (100 + 1 / 4194304) 101).1 = some 16666 ∧
      ((16666 : Nat) : ℚ) / 1000000 < 1 / (FPS_LIMIT : ℚ) - ((100 + 1 / 4194304) - 100) ∧
      ¬ (∃ us : Nat, (Clock.tick ⟨FPS_LIMIT, 100⟩ (100 + 1 / 4194304) 101).1 = some us ∧
        1 / (FPS_LIMIT : ℚ) - ((100 + 1 / 4194304) - 100) ≤ (us : ℚ) / 1000000)) ∧
    ((5000 : ℚ) - 10000 < 1 / (FPS_LIMIT : ℚ) ∧
      (Clock.tick ⟨FPS_LIMIT, 10000⟩ 5000 5001).1 = some 705049371 ∧
      ((705049371 : Nat) : ℚ) / 1000000 < 1 / (FPS_LIMIT : ℚ) - (5000 - 10000) ∧
      ¬ (∃ us : Nat, (Clock.tick ⟨FPS_LIMIT, 10000⟩ 5000 5001).1 = some us ∧
        1 / (FPS_LIMIT : ℚ) - (5000 - 10000) ≤ (us : ℚ) / 1000000)) := by
  have hval1 : (Clock.tick ⟨FPS_LIMIT, 100⟩ (100 + 1 / 4194304) 101).1 = some 16666 := by
    decide!
  have hlt1 : ((16666 : Nat) : ℚ) / 1000000 <
      1 / (FPS_LIMIT : ℚ) - ((100 + 1 / 4194304) - 100) := by
    simp only [FPS_LIMIT]; norm_num
  have hval2 : (Clock.tick ⟨FPS_LIMIT, 10000⟩ 5000 5001).1 = some 705049371 := by decide!
  have hlt2 : ((705049371 : Nat) : ℚ) / 1000000 < 1 / (FPS_LIMIT : ℚ) - (5000 - 10000) := by
    simp only [FPS_LIMIT]; norm_num
  refine ⟨⟨by decide, ?_, hval1, hlt1, ?_⟩, ⟨?_, hval2, hlt2, ?_⟩⟩
  · simp only [FPS_LIMIT]; norm_num
  · rintro ⟨us, h1, h2⟩
    rw [hval1] at h1
    cases h1
    exact absurd hlt1 (not_lt.2 h2)
  · simp only [FPS_LIMIT]; norm_num
  · rintro ⟨us, h1, h2⟩
    rw [hval2] at h1
    cases h1
    exact absurd hlt2 (not_lt.2 h2)

/-- Claim C13: when the time elapsed since the recorded timestamp is at least the
interval, `tick` does not call `usleep`; in every case the timestamp it records is
the reading taken after the optional sleep, so what the next `tick` requests is
determined by the interval, that reading and the time of the next call alone. -/
theorem tick_no_catch_up (c : Clock) (now after : ℚ) :
    (∀ fi, c.frame_interval = .finite fi → fi ≤ now - c.last_time →
      (c.tick now after).1 = none) ∧
    (0 < c.max_fps → c.max_fps < 2 ^ 31 → 1 / (c.max_fps : ℚ) ≤ now - c.last_time →
      (c.tick now after).1 = none) ∧
    (c.tick now after).2.last_time = after ∧
    (c.tick now after).2.frame_interval = c.frame_interval ∧
    (c.tick now after).2.max_fps = c.max_fps ∧
    (∀ (c1 : Clock) (now1 now2 after2 : ℚ), c1.frame_interval = c.frame_interval →
      c1.max_fps = c.max_fps →
      (c1.tick now1 after).2.tick now2 after2 = (c.tick now after).2.tick now2 after2) ∧
    (∀ (now2 after2 fi : ℚ), c.frame_interval = .finite fi → fi ≤ now2 - after →
      ((c.tick now after).2.tick now2 after2).1 = none) ∧
    (∀ now2 after2 : ℚ, 0 < c.max_fps → c.max_fps < 2 ^ 31 →
      1 / (c.max_fps : ℚ) ≤ now2 - after →
      ((c.tick now after).2.tick now2 after2).1 = none) := by
  have stored : ∀ (c2 : Clock) (n2 a2 fi : ℚ), c2.frame_interval = .finite fi →
      fi ≤ n2 - c2.last_time → (c2.tick n2 a2).1 = none := by
    intro c2 n2 a2 fi hfi hle
    apply tick_none_of_le hfi
    have := round_binary64_mono hle
    rwa [(frame_interval_finite hfi).1] at this
  have exact : ∀ (c2 : Clock) (n2 a2 : ℚ), 0 < c2.max_fps → c2.max_fps < 2 ^ 31 →
      1 / (c2.max_fps : ℚ) ≤ n2 - c2.last_time → (c2.tick n2 a2).1 = none := by
    intro c2 n2 a2 h0 h1 hle
    exact tick_none_of_le (frame_interval_eq h0 h1).1 (round_binary64_mono hle)
  refine ⟨stored c now after, exact c now after, rfl, rfl, rfl, ?_, ?_, ?_⟩
  · intro c1 now1 now2 after2 _ h2
    simp only [Clock.tick, Clock.frame_interval, h2]
  · intro now2 after2 fi hfi hle
    exact stored (c.tick now after).2 now2 after2 fi hfi hle
  · intro now2 after2 h0 h1 hle
    exact exact (c.tick now after).2 now2 after2 h0 h1 hle

theorem tick_no_catch_up_witness :
    ((Clock.new 60).tick 5 6).1 = none ∧ (((Clock.new 60).tick 5 6).2.tick 7 8).1 = none := by
  have h := tick_no_catch_up (Clock.new 60) 5 6
  exact ⟨h.2.1 (by decide) (by decide) (by simp only [Clock.new]; norm_num),
    h.2.2.2.2.2.2.2 7 8 (by decide) (by decide) (by simp only [Clock.new]; norm_num)⟩

/-- Claim C14: on a rectangular grid one epoch is the sweep followed by the spawn draw:
when that draw is below the spawn rate the epoch is `spawn_random_cell` applied to
the swept field, otherwise it is the swept field; the grid after the epoch differs
from the swept grid in at most one cell. -/
theorem epoch_is_sweep_then_spawn (h w : Nat) (eat_rate spawn_rate : ℚ) (f : Field)
    (g : RandomHelper) (hr : Rect h w f.cells) :
    ∃ f1, f.sweep eat_rate = .ok f1 ∧
      (f1.random_helper.next.real < spawn_rate →
        f.process_all_cells eat_rate spawn_rate g =
          Field.spawn_random_cell ⟨f1.cells, f1.random_helper.advance⟩ g) ∧
      (¬ f1.random_helper.next.real < spawn_rate →
        f.process_all_cells eat_rate spawn_rate g =
          .ok (⟨f1.cells, f1.random_helper.advance⟩, g)) ∧
      (∀ s, f.process_all_cells eat_rate spawn_rate g = .ok s →
        ∃ row col, ∀ r c, ¬ (r = row ∧ c = col) →
          cell_at s.1.cells r c = cell_at f1.cells r c) ∧
      (1 ≤ h → 1 ≤ w → ∃ s, f.process_all_cells eat_rate spawn_rate g = .ok s) := by
  refine ⟨swept h w eat_rate f, sweep_eq hr eat_rate, ?_, ?_, ?_, ?_⟩
  · intro hd
    rw [process_all_cells_eq hr, if_pos hd]
  · intro hd
    rw [process_all_cells_eq hr, if_neg hd]
  · intro s hs
    rw [process_all_cells_eq hr] at hs
    split at hs
    · obtain ⟨row, col, ha⟩ := spawn_random_cell_assign hs
      exact ⟨row, col, fun r c hne => vec_assign_other ha r c hne⟩
    · cases hs
      exact ⟨0, 0, fun r c _ => rfl⟩
  · intro hh hw
    exact process_all_cells_ok hr hh hw eat_rate spawn_rate g

theorem epoch_is_sweep_then_spawn_witness :
    ∃ f1, Field.sweep EAT_RATE
          ⟨[[.plant, .food], [.water, .virus]], constant_helper ⟨9 / 10, 0⟩⟩ = .ok f1 ∧
      Field.process_all_cells EAT_RATE SPAWN_RATE
          ⟨[[.plant, .food], [.water, .virus]], constant_helper ⟨9 / 10, 0⟩⟩
          (constant_helper ⟨0, 0⟩) =
        .ok (⟨f1.cells, f1.random_helper.advance⟩, constant_helper ⟨0, 0⟩) := by
  obtain ⟨f1, h1, -, h3, -, -⟩ := epoch_is_sweep_then_spawn 2 2 EAT_RATE SPAWN_RATE
    ⟨[[.plant, .food], [.water, .virus]], constant_helper ⟨9 / 10, 0⟩⟩ (constant_helper ⟨0, 0⟩)
    (by decide)
  refine ⟨f1, h1, h3 ?_⟩
  have hsw := sweep_eq (h := 2) (w := 2)
    (f := ⟨[[.plant, .food], [.water, .virus]], constant_helper ⟨9 / 10, 0⟩⟩) (by decide)
    EAT_RATE
  rw [hsw] at h1
  cases h1
  have he := cells_step_engine 2 2 EAT_RATE (row_major 2 2)
    ⟨[[.plant, .food], [.water, .virus]], constant_helper ⟨9 / 10, 0⟩⟩
  have hnext : (cells_step 2 2 EAT_RATE (row_major 2 2)
      ⟨[[.plant, .food], [.water, .virus]],
        constant_helper ⟨9 / 10, 0⟩⟩).random_helper.next.real = 9 / 10 := by
    unfold RandomHelper.next
    rw [he]
    rfl
  rw [hnext, SPAWN_RATE]
  norm_num

/-- Claim C15 (as amended): `process_cell` considers the four orthogonal offsets in the
order north (row-1), west (col-1), south (row+1), east (col+1): the k-th eat draw
consumed by the call decides the k-th in-bounds neighbour in that N, W, S, E order,
which is rewritten with the pre-call eater when the draw is below the eat rate and
left as it is otherwise. -/
theorem process_cell_draw_order (h w : Nat) (eat_rate : ℚ) (f : Field) (row col : Int)
    (hr : Rect h w f.cells) (hin : InBounds h w row col) :
    (offsets.map (fun off => (row + off.1, col + off.2)) =
      [(row + -1, col + 0), (row + 0, col + -1), (row + 1, col + 0), (row + 0, col + 1)]) ∧
    ∃ f1 eater, f.process_cell eat_rate row col = .ok f1 ∧
      cell_at f.cells row col = some eater ∧
      f1.random_helper.random_engine = f.random_helper.random_engine ∧
      f1.random_helper.calls =
        f.random_helper.calls + (neighbours_in_order h w offsets row col).length ∧
      ∀ (k : Nat) (p : Int × Int), (neighbours_in_order h w offsets row col)[k]? = some p →
        ∃ eaten, cell_at f.cells p.1 p.2 = some eaten ∧
          cell_at f1.cells p.1 p.2 =
            some (if (f.random_helper.random_engine (f.random_helper.calls + k)).real < eat_rate
              then get_cell_combination eater eaten else eaten) := by
  refine ⟨rfl, ?_⟩
  obtain ⟨eater, he⟩ := cell_at_some hr hin
  refine ⟨_, eater, process_cell_eq hr hin eat_rate, he, cell_step_engine _ _ _ _ _ _,
    cell_step_calls _ _ _ _ _ _, ?_⟩
  intro k p hk
  obtain ⟨hp, -⟩ := mem_neighbours_in_order (List.getElem?_mem hk)
  obtain ⟨eaten, hb⟩ := cell_at_some hr hp
  refine ⟨eaten, hb, ?_⟩
  have := foldl_offset_step_order eat_rate row col offsets (by decide) (by decide) f hr k p hk
  rw [cell_step, this, he, hb]
  split <;> rfl

theorem process_cell_draw_order_witness :
    ∃ f1, Field.process_cell EAT_RATE 0 1
        ⟨[[.food, .virus, .food]], step_helper 1 0 (9 / 10)⟩ = .ok f1 ∧
      cell_at f1.cells 0 0 = some .virus ∧ cell_at f1.cells 0 2 = some .food := by
  obtain ⟨-, f1, eater, h1, h2, -, -, h5⟩ := process_cell_draw_order 1 3 EAT_RATE
    ⟨[[.food, .virus, .food]], step_helper 1 0 (9 / 10)⟩ 0 1 (by decide) (by decide)
  have he : eater = .virus := by
    have : cell_at [[Cell.food, .virus, .food]] 0 1 = some Cell.virus := by decide
    rw [this] at h2
    exact (Option.some.inj h2).symm
  subst he
  obtain ⟨a, ha1, ha2⟩ := h5 0 (0, 0) (by decide)
  obtain ⟨b, hb1, hb2⟩ := h5 1 (0, 2) (by decide)
  have haf : a = .food := by
    have : cell_at [[Cell.food, .virus, .food]] 0 0 = some Cell.food := by decide
    rw [this] at ha1
    exact (Option.some.inj ha1).symm
  have hbf : b = .food := by
    have : cell_at [[Cell.food, .virus, .food]] 0 2 = some Cell.food := by decide
    rw [this] at hb1
    exact (Option.some.inj hb1).symm
  subst haf hbf
  refine ⟨f1, h1, ?_, ?_⟩
  · rw [ha2]
    have : ((step_helper 1 0 (9 / 10)).random_engine ((step_helper 1 0 (9 / 10)).calls + 0)).real
        < EAT_RATE := by
      simp only [step_helper, EAT_RATE]; norm_num
    simp only [if_pos this]
    rfl
  · rw [hb2]
    have : ¬ ((step_helper 1 0 (9 / 10)).random_engine
        ((step_helper 1 0 (9 / 10)).calls + 1)).real < EAT_RATE := by
      simp only [step_helper, EAT_RATE]; norm_num
    simp only [if_neg this]

theorem process_cell_draw_order_counterexample :
    neighbours_in_order 1 3 offsets_nesw 0 1 = [(0, 2), (0, 0)] ∧
    ((step_helper 1 0 (9 / 10)).random_engine 0).real < EAT_RATE ∧
    ¬ ((step_helper 1 0 (9 / 10)).random_engine 1).real < EAT_RATE ∧
    field_cells (Field.process_cell EAT_RATE 0 1
        ⟨[[.food, .virus, .food]], step_helper 1 0 (9 / 10)⟩) =
      some [[.virus, .virus, .food]] ∧
    field_cells (Field.process_offsets EAT_RATE 0 1 offsets_nesw
        ⟨[[.food, .virus, .food]], step_helper 1 0 (9 / 10)⟩) =
      some [[.food, .virus, .virus]] ∧
    ¬ (∃ f1 eater, Field.process_cell EAT_RATE 0 1
          ⟨[[.food, .virus, .food]], step_helper 1 0 (9 / 10)⟩ = .ok f1 ∧
        cell_at [[Cell.food, .virus, .food]] 0 1 = some eater ∧
        ∀ (k : Nat) (p : Int × Int), (neighbours_in_order 1 3 offsets_nesw 0 1)[k]? = some p →
          ∃ eaten, cell_at [[Cell.food, .virus, .food]] p.1 p.2 = some eaten ∧
            cell_at f1.cells p.1 p.2 =
              some (if ((step_helper 1 0 (9 / 10)).random_engine
                  ((step_helper 1 0 (9 / 10)).calls + k)).real < EAT_RATE
                then get_cell_combination eater eaten else eaten)) := by
  have hcells : field_cells (Field.process_cell EAT_RATE 0 1
      ⟨[[.food, .virus, .food]], step_helper 1 0 (9 / 10)⟩) =
        some [[.virus, .virus, .food]] := by decide!
  have hdraw : ((step_helper 1 0 (9 / 10)).random_engine 0).real < EAT_RATE := by decide!
  refine ⟨by decide, hdraw, by decide!, hcells, by decide!, ?_⟩
  rintro ⟨f1, eater, h1, h2, h3⟩
  rw [h1] at hcells
  have hc : f1.cells = [[.virus, .virus, .food]] := Option.some.inj hcells
  obtain ⟨eaten, he1, he2⟩ := h3 0 (0, 2) (by decide)
  have hev : eater = .virus := by
    have : cell_at [[Cell.food, .virus, .food]] 0 1 = some Cell.virus := by decide
    rw [this] at h2
    exact (Option.some.inj h2).symm
  have hef : eaten = .food := by
    have : cell_at [[Cell.food, .virus, .food]] 0 2 = some Cell.food := by decide
    rw [this] at he1
    exact (Option.some.inj he1).symm
  subst hev hef
  have hd0 : ((step_helper 1 0 (9 / 10)).random_engine
      ((step_helper 1 0 (9 / 10)).calls + 0)).real < EAT_RATE := hdraw
  rw [hc, if_pos hd0] at he2
  revert he2
  decide

/-- Claim C16: the switch of `random_cell` maps `1, 2, 3, 4, 5` to `plant`, `virus`,
`food`, `water`, `fungus`, a bijection onto the kinds other than `dead`; it fails
exactly for options outside `[1, 5]`; since `random_int(1, 5)` returns a value in
`[1, 5]`, `random_cell` never fails and never returns `dead`. -/
theorem random_cell_switch_bijection :
    (random_cell_switch 1 = .ok .plant ∧ random_cell_switch 2 = .ok .virus ∧
      random_cell_switch 3 = .ok .food ∧ random_cell_switch 4 = .ok .water ∧
      random_cell_switch 5 = .ok .fungus) ∧
    (∀ option : Int, 1 ≤ option → option ≤ 5 →
      ∃ c, random_cell_switch option = .ok c ∧ c ≠ .dead) ∧
    (∀ option : Int, random_cell_switch option = .error .logic_error ↔
      ¬ (1 ≤ option ∧ option ≤ 5)) ∧
    (∀ (a b : Int) (c : Cell), random_cell_switch a = .ok c → random_cell_switch b = .ok c →
      a = b) ∧
    (∀ c : Cell, c ≠ .dead →
      ∃ option : Int, 1 ≤ option ∧ option ≤ 5 ∧ random_cell_switch option = .ok c) ∧
    (∀ option : Int, random_cell_switch option ≠ .ok .dead) ∧
    (∀ g : RandomHelper, ∃ option c g1, g.random_int 1 5 = .ok (option, g1) ∧
      1 ≤ option ∧ option ≤ 5 ∧ random_cell_switch option = .ok c ∧
      random_cell g = .ok (c, g1) ∧ c ≠ .dead) := by
  refine ⟨⟨rfl, rfl, rfl, rfl, rfl⟩, ?_, ?_, ?_, ?_, ?_, ?_⟩
  · intro option h1 h5
    exact random_cell_switch_ok h1 h5
  · intro option
    constructor
    · intro herr hin
      obtain ⟨c, hc, -⟩ := random_cell_switch_ok hin.1 hin.2
      rw [hc] at herr
      cases herr
    · exact random_cell_switch_error
  · intro a b c ha hb
    exact random_cell_switch_injective ha hb
  · intro c hc
    cases c
    · exact absurd rfl hc
    · exact ⟨3, by decide, by decide, rfl⟩
    · exact ⟨1, by decide, by decide, rfl⟩
    · exact ⟨2, by decide, by decide, rfl⟩
    · exact ⟨4, by decide, by decide, rfl⟩
    · exact ⟨5, by decide, by decide, rfl⟩
  · intro option hd
    by_cases hin : 1 ≤ option ∧ option ≤ 5
    · obtain ⟨c, hc, hne⟩ := random_cell_switch_ok hin.1 hin.2
      rw [hc] at hd
      cases hd
      exact hne rfl
    · rw [random_cell_switch_error hin] at hd
      cases hd
  · intro g
    obtain ⟨option, hopt, h1, h5⟩ := random_int_ok g 1 5 (by decide)
    obtain ⟨c, hc, hne⟩ := random_cell_switch_ok h1 h5
    exact ⟨option, c, g.advance, hopt, h1, h5, hc, by simp [random_cell, hopt, hc], hne⟩

theorem random_cell_switch_bijection_witness :
    (∃ c, random_cell_switch 4 = .ok c ∧ c ≠ .dead) ∧
      ∃ option : Int, 1 ≤ option ∧ option ≤ 5 ∧ random_cell_switch option = .ok .water :=
  ⟨random_cell_switch_bijection.2.1 4 (by decide) (by decide),
    random_cell_switch_bijection.2.2.2.2.1 .water (by decide)⟩

/-- Claim C17: the number of eat draws does not depend on the draws or on the cells:
`process_cell` consumes one draw for every in-bounds orthogonal neighbour and none
for an absent one, so the sweep of an `h`×`w` grid consumes
`2 * (h * (w - 1) + w * (h - 1))` draws; the next draw is the spawn draw, after
which the epoch consumes two more draws (row and column) exactly when it spawns. -/
theorem eat_draw_count (h w : Nat) (eat_rate spawn_rate : ℚ) (f : Field) (g : RandomHelper)
    (hr : Rect h w f.cells) :
    (∀ row col, InBounds h w row col →
      (∃ f1, f.process_cell eat_rate row col = .ok f1 ∧
        f1.random_helper.random_engine = f.random_helper.random_engine ∧
        f1.random_helper.calls =
          f.random_helper.calls + (neighbours_in_order h w offsets row col).length) ∧
      (∀ p, p ∈ neighbours_in_order h w offsets row col ↔
        IsNeighbour row col p.1 p.2 ∧ InBounds h w p.1 p.2) ∧
      (neighbours_in_order h w offsets row col).Nodup ∧
      (∀ off, ¬ InBounds h w (row + off.1) (col + off.2) →
        f.process_offset eat_rate row col off = .ok f) ∧
      (∀ off, InBounds h w (row + off.1) (col + off.2) →
        ∃ f1, f.process_offset eat_rate row col off = .ok f1 ∧
          f1.random_helper.calls = f.random_helper.calls + 1)) ∧
    (∃ f1, f.sweep eat_rate = .ok f1 ∧
      f1.random_helper.random_engine = f.random_helper.random_engine ∧
      f1.random_helper.calls = f.random_helper.calls + 2 * (h * (w - 1) + w * (h - 1)) ∧
      ∀ s, f.process_all_cells eat_rate spawn_rate g = .ok s →
        s.1.random_helper.random_engine = f.random_helper.random_engine ∧
        s.1.random_helper.calls = f.random_helper.calls + 2 * (h * (w - 1) + w * (h - 1)) +
          (if (f.random_helper.random_engine
              (f.random_helper.calls + 2 * (h * (w - 1) + w * (h - 1)))).real < spawn_rate
            then 3 else 1)) ∧
    (1 ≤ h → 1 ≤ w → ∃ s, f.process_all_cells eat_rate spawn_rate g = .ok s) := by
  have hcalls : (swept h w eat_rate f).random_helper.calls =
      f.random_helper.calls + 2 * (h * (w - 1) + w * (h - 1)) := by
    rw [swept, cells_step_calls, eat_draws_row_major]
  have heng : (swept h w eat_rate f).random_helper.random_engine =
      f.random_helper.random_engine := cells_step_engine _ _ _ _ _
  refine ⟨?_, ⟨_, sweep_eq hr eat_rate, heng, hcalls, ?_⟩, ?_⟩
  · intro row col hin
    refine ⟨⟨_, process_cell_eq hr hin eat_rate, cell_step_engine _ _ _ _ _ _,
      cell_step_calls _ _ _ _ _ _⟩, ?_, ?_, ?_, ?_⟩
    · intro p
      constructor
      · intro hp
        obtain ⟨hpin, off, hoff, hpe⟩ := mem_neighbours_in_order hp
        refine ⟨(isNeighbour_iff row col p.1 p.2).2 ⟨off, hoff, ?_, ?_⟩, hpin⟩
        · rw [hpe]
        · rw [hpe]
      · rintro ⟨hnb, hpin⟩
        obtain ⟨off, hoff, h1, h2⟩ := (isNeighbour_iff row col p.1 p.2).1 hnb
        unfold neighbours_in_order
        rw [List.mem_filter, List.mem_map]
        exact ⟨⟨off, hoff, Prod.ext h1.symm h2.symm⟩, decide_eq_true hpin⟩
    · unfold neighbours_in_order
      apply List.Nodup.filter
      apply List.Nodup.map_on _ (by decide : offsets.Nodup)
      intro a _ b _ hab
      simp only [Prod.mk.injEq] at hab
      exact Prod.ext (by omega) (by omega)
    · intro off hout
      rw [process_offset_eq hr hin, offset_step, if_neg hout]
    · intro off hn
      refine ⟨_, process_offset_eq hr hin eat_rate off, ?_⟩
      rw [offset_step_calls]
      simp [neighbours_in_order, hn]
  · intro s hs
    rw [process_all_cells_eq hr] at hs
    have hnext : (swept h w eat_rate f).random_helper.next.real =
        (f.random_helper.random_engine
          (f.random_helper.calls + 2 * (h * (w - 1) + w * (h - 1)))).real := by
      unfold RandomHelper.next
      rw [heng, hcalls]
    rw [hnext] at hs
    split at hs
    · next hd =>
      have hh : 1 ≤ h ∧ 1 ≤ w := by
        by_contra hcon
        exact spawn_random_cell_fails (f := ⟨(swept h w eat_rate f).cells,
          (swept h w eat_rate f).random_helper.advance⟩) (rect_swept hr eat_rate) hcon g s hs
      obtain ⟨row, col, -, -, -, hsp⟩ :=
        spawn_random_cell_ok (f := ⟨(swept h w eat_rate f).cells,
          (swept h w eat_rate f).random_helper.advance⟩) (rect_swept hr eat_rate) hh.1 hh.2 g
      rw [hsp] at hs
      cases hs
      simp only [RandomHelper.advance, heng, hcalls, if_pos hd, true_and]
    · next hd =>
      cases hs
      simp only [RandomHelper.advance, heng, hcalls, if_neg hd, true_and]
  · intro hh hw
    exact process_all_cells_ok hr hh hw eat_rate spawn_rate g

theorem eat_draw_count_witness :
    ∃ f1, Field.sweep EAT_RATE ⟨[[.plant, .food, .food], [.water, .virus, .food]],
        constant_helper ⟨0, 0⟩⟩ = .ok f1 ∧ f1.random_helper.calls = 14 := by
  obtain ⟨-, ⟨f1, h1, -, h2, -⟩, -⟩ := eat_draw_count 2 3 EAT_RATE SPAWN_RATE
    ⟨[[.plant, .food, .food], [.water, .virus, .food]], constant_helper ⟨0, 0⟩⟩
    (constant_helper ⟨0, 0⟩) (by decide)
  exact ⟨f1, h1, h2⟩

/-- Claim C18: `get_cell_combination` returns `dead` exactly when the eaten cell is
`dead`, and a `dead` eater leaves the eaten cell as it is; so a cell is `dead`
after `process_cell` exactly when it was `dead` before, and the all-`dead` grid
built by the constructor is left unchanged by the sweep. -/
theorem dead_is_inert (eat_rate : ℚ) :
    (∀ eater eaten, get_cell_combination eater eaten = .dead ↔ eaten = .dead) ∧
    (∀ eaten, get_cell_combination .dead eaten = eaten) ∧
    (∀ (h w : Nat) (f : Field) (row col : Int), Rect h w f.cells → InBounds h w row col →
      ∃ f1, f.process_cell eat_rate row col = .ok f1 ∧
        ∀ r c, cell_at f1.cells r c = some .dead ↔ cell_at f.cells r c = some .dead) ∧
    (∀ (height width : Int) (rh : RandomHelper), 0 ≤ height → 0 ≤ width →
      ∃ f f1, Field.new height width rh = .ok f ∧
        f.cells = List.replicate height.toNat (List.replicate width.toNat Cell.dead) ∧
        f.sweep eat_rate = .ok f1 ∧ f1.cells = f.cells) := by
  refine ⟨get_cell_combination_dead_iff, get_cell_combination_dead_eater, ?_, ?_⟩
  · intro h w f row col hr hin
    exact ⟨_, process_cell_eq hr hin eat_rate,
      fun r c => cell_step_dead_iff eat_rate row col f hr r c⟩
  · intro height width rh hh hw
    have hrect := rect_replicate height.toNat width.toNat
    refine ⟨_, _, field_new_ok hh hw rh, rfl, sweep_eq (f := ⟨_, rh⟩) hrect eat_rate, ?_⟩
    exact cells_step_uniform eat_rate _ (fun p hp => (mem_row_major p).1 hp) ⟨_, rh⟩ hrect
      (uniform_replicate _ _ Cell.dead)

theorem dead_is_inert_witness :
    ∃ f f1, Field.new 2 3 (constant_helper ⟨0, 0⟩) = .ok f ∧
      f.cells = List.replicate (2 : Int).toNat (List.replicate (3 : Int).toNat Cell.dead) ∧
      f.sweep EAT_RATE = .ok f1 ∧ f1.cells = f.cells :=
  (dead_is_inert EAT_RATE).2.2.2 2 3 (constant_helper ⟨0, 0⟩) (by decide) (by decide)

/-- Claim C19: `get_cell_combination(c, c) = c` for every kind `c`; so on a rectangular
grid all of whose cells hold the same kind, `process_cell` at any in-bounds
position and the whole sweep return the grid unchanged, whatever the draws. -/
theorem uniform_grid_fixed (eat_rate : ℚ) :
    (∀ c, get_cell_combination c c = c) ∧
    (∀ (h w : Nat) (c : Cell) (f : Field), Rect h w f.cells → Uniform c f.cells →
      (∀ row col, InBounds h w row col →
        ∃ f1, f.process_cell eat_rate row col = .ok f1 ∧ f1.cells = f.cells) ∧
      ∃ f1, f.sweep eat_rate = .ok f1 ∧ f1.cells = f.cells) := by
  refine ⟨get_cell_combination_self, ?_⟩
  intro h w c f hr hu
  refine ⟨?_, _, sweep_eq hr eat_rate, ?_⟩
  · intro row col hin
    exact ⟨_, process_cell_eq hr hin eat_rate, cell_step_uniform eat_rate hin f hr hu⟩
  · exact cells_step_uniform eat_rate _ (fun p hp => (mem_row_major p).1 hp) f hr hu

theorem uniform_grid_fixed_witness :
    ∃ f1, Field.sweep EAT_RATE ⟨[[.water, .water], [.water, .water]], constant_helper ⟨0, 0⟩⟩ =
        .ok f1 ∧ f1.cells = [[.water, .water], [.water, .water]] :=
  ((uniform_grid_fixed EAT_RATE).2 2 2 .water
    ⟨[[.water, .water], [.water, .water]], constant_helper ⟨0, 0⟩⟩ (by decide) (by decide)).2

/-- Claim C20: the nine rules have pairwise distinct keys, so at most one rule matches a
pair, and looking a pair up in any permutation of the rules, with `eaten` as the
default, gives what the chained conditional of `get_cell_combination` gives. -/
theorem rule_order_immaterial :
    (combination_rules.map (fun r => r.1)).Nodup ∧
    (∀ (eater eaten : Cell) (r1 r2 : (Cell × Cell) × Cell), r1 ∈ combination_rules →
      r2 ∈ combination_rules → r1.1 = (eater, eaten) → r2.1 = (eater, eaten) → r1 = r2) ∧
    (∀ rules : List ((Cell × Cell) × Cell), rules.Perm combination_rules →
      ∀ eater eaten, lookup_rules rules eater eaten = get_cell_combination eater eaten) := by
  have hnd : (combination_rules.map (fun r => r.1)).Nodup := by decide
  refine ⟨hnd, ?_, ?_⟩
  · intro eater eaten r1 r2 h1 h2 hk1 hk2
    have e1 := (find_key_iff combination_rules hnd (eater, eaten) r1).2 ⟨h1, hk1⟩
    have e2 := (find_key_iff combination_rules hnd (eater, eaten) r2).2 ⟨h2, hk2⟩
    rw [e1] at e2
    exact Option.some.inj e2
  · intro rules hp eater eaten
    have h1 : lookup_rules rules eater eaten = lookup_rules combination_rules eater eaten := by
      unfold lookup_rules
      rw [find_key_perm hp hnd (eater, eaten)]
    rw [h1]
    cases eater <;> cases eaten <;> rfl

theorem rule_order_immaterial_witness :
    lookup_rules combination_rules.reverse .water .food = get_cell_combination .water .food :=
  rule_order_immaterial.2.2 combination_rules.reverse (List.reverse_perm _) .water .food

end Ecosystem
